import Mathlib

/-!
# Bond trading pipeline (yc-liu/mth9815): shallow embedding and verified properties

Conventions of the embedding.

* A finite `double` value (price, spread, PV01) is the rational `ℚ` it denotes.  Every price
  that the fractional notation `III-FFS` can denote is a dyadic rational with at most eight
  fractional bits, so for 32-bit integer parts the `double` arithmetic of the source on such
  values is exact and coincides with the arithmetic of `ℚ`.  Where the source computes with
  arbitrary `double` values (the two-way prices of the algo-streaming stage), every
  operation is rounded to the nearest `double` (`roundDouble`, IEEE-754 binary64, ties to
  even); a result that is not finite is `none`.
* `long` and `long long` are 64-bit.  A value held in them is an element of `ℤ`; where the
  source adds quantities (`+=`, `+`, a product with a sign) the result is reduced to the
  64-bit range (`wrapLong`, two's complement: what the compiled program stores when a
  signed sum overflows; the C++ standard leaves it undefined).  Counters that start at
  zero and move by one, and differences of a quantity and its fifth, stay in range and
  are not reduced; the sector sums of `UpdateBucketedRisk`, which the spec takes exactly,
  are exact.  C++ integer division and remainder truncate toward zero (`Int.tdiv`,
  `Int.tmod`).
* `int` values produced by stream extraction or by a conversion from `double` are range
  checked against the 32-bit `int` range.
* `std::unordered_map<string, V>` is an association list with unique keys (`SMap`);
  `std::string` is `String` for identifiers and `List Char` where the text is processed.
* Listeners are opaque handles (`Nat`); a service operation returns the new service state
  together with the list of listener callbacks it made, in call order.
* The iteration order of an unordered map, where the code depends on it (the rebuilt stacks
  of `AggregateDepth`), is a parameter that rearranges the entries.
* The inquiry stage calls back into itself (`OnMessage` → listener → `SendQuote` →
  connector → `OnMessage`); `OnMessage` carries a bound on the nesting depth and the
  theorems show that depth two always suffices.
* Clock readings are inputs: each call of the GUI listener receives the readings it makes,
  and the history connector receives the date and time of day it prints.
* The trade booking stage returns the events of a call (`BookTrade` entries and listener
  callbacks) in order.  The values returned by `rand()` in the execution stage are inputs:
  the `n`-th call returns `rand n`.
* Where a claim speaks of the state a failed call leaves behind, the call returns
  `Except`, carrying the state on both outcomes.
-/

namespace TradingSystem

/-! ## Keyed caches -/

/-- A `std::unordered_map<string, V>`: association list, at most one entry per key. -/
abbrev SMap (V : Type) := List (String × V)

namespace SMap

variable {V : Type}

/-- Lookup `m.find(k)`: the stored value, or `none` for `m.end()`. -/
def find (m : SMap V) (k : String) : Option V :=
  match m with
  | [] => none
  | (k', v) :: rest => if k' = k then some v else find rest k

/-- The assignment `m[k] = v` (also `m.insert(make_pair(k, v))` when `k` is absent):
overwrite the entry of `k` in place, or add a new entry. -/
def upsert (m : SMap V) (k : String) (v : V) : SMap V :=
  match m with
  | [] => [(k, v)]
  | (k', v') :: rest => if k' = k then (k', v) :: rest else (k', v') :: upsert rest k v

/-- The read `m[k]` for a default-constructible value type: the stored value, or the
default-constructed one. -/
def getD (m : SMap V) (k : String) (dflt : V) : V :=
  (find m k).getD dflt

end SMap

/-! ## Data model (spec §3; `products.hpp`, `marketdataservice.hpp`, `executionservice.hpp`
are not part of the available sources, so the record types follow the spec and the
accessors used by the available code) -/

/-- Bond identifier type. -/
inductive BondIdType where
  | CUSIP
  | ISIN
  deriving DecidableEq, Repr

/-- A calendar date (`boost::gregorian::date`), only its components. -/
structure Date where
  year : Nat
  month : Nat
  day : Nat
  deriving DecidableEq, Repr

/-- Bond reference record: product identifier, identifier type, ticker, coupon, maturity. -/
structure Bond where
  productId : String
  bondIdType : BondIdType
  ticker : String
  coupon : ℚ
  maturityDate : Date
  deriving DecidableEq

/-- Side of an order in the book. -/
inductive PricingSide where
  | BID
  | OFFER
  deriving DecidableEq, Repr

/-- An order of the book: price, quantity (`long`), side. -/
structure Order where
  price : ℚ
  quantity : Int
  side : PricingSide
  deriving DecidableEq

/-- Result of `GetBestBidOffer`: one bid order and one offer order, read back with
`GetBidOrder()` and `GetOfferOrder()`. -/
structure BidOffer where
  bidOrder : Order
  offerOrder : Order
  deriving DecidableEq

/-- Order book: product, bid stack, offer stack. -/
structure OrderBook where
  product : Bond
  bidStack : List Order
  offerStack : List Order
  deriving DecidableEq

/-- Execution order type. -/
inductive OrderType where
  | FOK
  | IOC
  | MARKET
  | LIMIT
  | STOP
  deriving DecidableEq, Repr

/-- Execution order, with the constructor argument order used in `AddOrder`. -/
structure ExecutionOrder where
  product : Bond
  side : PricingSide
  orderId : String
  orderType : OrderType
  price : ℚ
  visibleQuantity : Int
  hiddenQuantity : Int
  parentOrderId : String
  isChildOrder : Bool
  deriving DecidableEq

/-- The class `AlgoExecution<Bond>`: a wrapper around one execution order. -/
structure AlgoExecution where
  order : ExecutionOrder
  deriving DecidableEq

/-- Accessor `AlgoExecution::GetOrder`. -/
def AlgoExecution.GetOrder (a : AlgoExecution) : ExecutionOrder := a.order

/-! ## Decimal numerals (`std::to_string`, `setw`/`setfill`) -/

/-- The library function `std::to_string` on a non-negative integer: its decimal numeral. -/
def natToString (n : Nat) : List Char := Nat.toDigits 10 n

/-- The library function `std::to_string` on a signed integer. -/
def to_string (i : Int) : List Char :=
  if i < 0 then '-' :: natToString i.natAbs else natToString i.natAbs

/-- Output of a string under `std::setfill(c) << std::setw(w)`: padded on the left up to
width `w`, never truncated. -/
def setwFill (w : Nat) (c : Char) (s : List Char) : List Char :=
  List.replicate (w - s.length) c ++ s

/-! ## Algo-execution stage (`BondAlgoExecutionSoa.hpp`) -/

/-- State of `BondAlgoExecutionService`: registered listeners, keyed cache, side counter. -/
structure BondAlgoExecutionService where
  listeners : List Nat
  algoexecutionMap : SMap AlgoExecution
  counter : Int
  deriving DecidableEq

/-- A freshly constructed service: no listener, empty cache, `counter = 0`. -/
def BondAlgoExecutionService.fresh : BondAlgoExecutionService :=
  { listeners := [], algoexecutionMap := [], counter := 0 }

/-- Registration `BondAlgoExecutionService::AddListener`. -/
def BondAlgoExecutionService.AddListener (s : BondAlgoExecutionService) (l : Nat) :
    BondAlgoExecutionService :=
  { s with listeners := s.listeners ++ [l] }

/-- The order identifier built in `AddOrder`:
`"ORD" + year + ticker + counter` with the counter padded to seven digits. -/
def orderIdOf (b : Bond) (counter : Int) : String :=
  String.mk ("ORD".toList ++ to_string (b.maturityDate.year : Int) ++ b.ticker.toList
    ++ setwFill 7 '0' (to_string counter))

/-- The method `BondAlgoExecutionService::AddOrder`.  The method `OrderBook::GetBestBidOffer`
is declared in a header that is not available; it is the parameter `getBestBidOffer`.
The result is the new service state and the `ProcessUpdate` callbacks made, as
(listener, value) pairs in call order. -/
def BondAlgoExecutionService.AddOrder (getBestBidOffer : OrderBook → BidOffer)
    (s : BondAlgoExecutionService) (orderBook : OrderBook) :
    BondAlgoExecutionService × List (Nat × AlgoExecution) :=
  let productId := orderBook.product.productId
  let bestBidOffer := getBestBidOffer orderBook
  let bestbid : ℚ := bestBidOffer.offerOrder.price
  let bestoffer : ℚ := bestBidOffer.bidOrder.price
  if bestoffer - bestbid ≤ 1 / 128 then
    let orderId := orderIdOf orderBook.product s.counter
    let parentOrderId := "N/A"
    let isChildOrder := false
    let type := OrderType.IOC
    let side := if s.counter.tmod 2 = 1 then PricingSide.BID else PricingSide.OFFER
    if side = PricingSide.OFFER then
      let allQuantity := bestBidOffer.offerOrder.quantity
      let visibleQuantity := allQuantity.tdiv 5
      let hiddenQuantity := allQuantity - visibleQuantity
      let execution : ExecutionOrder :=
        ⟨orderBook.product, side, orderId, type, bestoffer, visibleQuantity, hiddenQuantity,
          parentOrderId, isChildOrder⟩
      let algoexecution : AlgoExecution := ⟨execution⟩
      ({ s with algoexecutionMap := s.algoexecutionMap.upsert productId algoexecution,
                counter := s.counter + 1 },
        s.listeners.map (fun l => (l, algoexecution)))
    else
      let allQuantity := bestBidOffer.bidOrder.quantity
      let visibleQuantity := allQuantity.tdiv 5
      let hiddenQuantity := allQuantity - visibleQuantity
      let execution : ExecutionOrder :=
        ⟨orderBook.product, side, orderId, type, bestbid, visibleQuantity, hiddenQuantity,
          parentOrderId, isChildOrder⟩
      let algoexecution : AlgoExecution := ⟨execution⟩
      ({ s with algoexecutionMap := s.algoexecutionMap.upsert productId algoexecution,
                counter := s.counter + 1 },
        s.listeners.map (fun l => (l, algoexecution)))
  else
    (s, [])

/-- Modelled from the spec: the scan behind `OrderBook::GetBestBidOffer` (defined in the
unavailable `marketdataservice.hpp`), which "returns the highest-priced bid and the
lowest-priced offer".  The first order attaining the extreme price is kept. -/
def bestBy (better : ℚ → ℚ → Bool) : Order → List Order → Order
  | cur, [] => cur
  | cur, o :: rest => if better o.price cur.price then bestBy better o rest
                      else bestBy better cur rest

/-- Modelled from the spec: `OrderBook::GetBestBidOffer` (the header defining it is not
available), the highest-priced bid and the lowest-priced offer of the book.  On an empty
stack, about which the spec says nothing, a zero order stands in. -/
def OrderBook.GetBestBidOffer (ob : OrderBook) : BidOffer :=
  { bidOrder :=
      match ob.bidStack with
      | [] => ⟨0, 0, PricingSide.BID⟩
      | o :: rest => bestBy (fun p q => decide (q < p)) o rest
    offerOrder :=
      match ob.offerStack with
      | [] => ⟨0, 0, PricingSide.OFFER⟩
      | o :: rest => bestBy (fun p q => decide (p < q)) o rest }

/-- Spec-side reading of "best bid and offer": `bo` holds a bid of the book whose price is
the highest among the bids and an offer of the book whose price is the lowest among the
offers. -/
def IsBestBidOffer (ob : OrderBook) (bo : BidOffer) : Prop :=
  bo.bidOrder ∈ ob.bidStack ∧ (∀ o ∈ ob.bidStack, o.price ≤ bo.bidOrder.price) ∧
  bo.offerOrder ∈ ob.offerStack ∧ (∀ o ∈ ob.offerStack, bo.offerOrder.price ≤ o.price)

/-- The execution order constructed in `AddOrder` (the two constructor calls of the OFFER
and BID branches), as a function of the best bid/offer, the product and the counter. -/
def builtOrder (bo : BidOffer) (b : Bond) (counter : Int) : ExecutionOrder :=
  if counter.tmod 2 = 1 then
    ⟨b, PricingSide.BID, orderIdOf b counter, OrderType.IOC, bo.offerOrder.price,
      bo.bidOrder.quantity.tdiv 5, bo.bidOrder.quantity - bo.bidOrder.quantity.tdiv 5,
      "N/A", false⟩
  else
    ⟨b, PricingSide.OFFER, orderIdOf b counter, OrderType.IOC, bo.bidOrder.price,
      bo.offerOrder.quantity.tdiv 5, bo.offerOrder.quantity - bo.offerOrder.quantity.tdiv 5,
      "N/A", false⟩

/-- Feeding a sequence of order books to `AddOrder`, oldest first; the callbacks of all
calls are concatenated in call order. -/
def BondAlgoExecutionService.AddOrders (getBestBidOffer : OrderBook → BidOffer) :
    BondAlgoExecutionService → List OrderBook →
      BondAlgoExecutionService × List (Nat × AlgoExecution)
  | s, [] => (s, [])
  | s, ob :: rest =>
    let r := s.AddOrder getBestBidOffer ob
    let r' := AddOrders getBestBidOffer r.1 rest
    (r'.1, r.2 ++ r'.2)

/-! ### Scenario data (spec §8, scenarios 2 and 3) -/

/-- A sample bond. -/
def sampleBond : Bond :=
  ⟨"912828M80", BondIdType.CUSIP, "T", 2, ⟨2024, 11, 30⟩⟩

/-- Scenario 2: bid `100-00+` for 1,000,000 and offer `100-01` for 2,000,000. -/
def tightBook : OrderBook :=
  ⟨sampleBond, [⟨100 + 4 / 256, 1000000, PricingSide.BID⟩],
    [⟨100 + 1 / 32, 2000000, PricingSide.OFFER⟩]⟩

/-- Scenario 3: the same bid with the offer at `100-02+`. -/
def wideBook : OrderBook :=
  ⟨sampleBond, [⟨100 + 4 / 256, 1000000, PricingSide.BID⟩],
    [⟨100 + 2 / 32 + 4 / 256, 2000000, PricingSide.OFFER⟩]⟩

/-- A fresh algo-execution service with one registered listener (handle 7). -/
def freshWithListener : BondAlgoExecutionService :=
  BondAlgoExecutionService.fresh.AddListener 7

/-- The values delivered to listener `l` among a list of callbacks, in call order. -/
def deliveredTo {V : Type} (l : Nat) (calls : List (Nat × V)) : List V :=
  (calls.filter (fun c => c.1 = l)).map (fun c => c.2)

/-- The execution order emitted by one call of `AddOrder`, read off the call's effect: when
the counter has moved, the value now stored under the book's product id.  It is the order
that the call passes to the listeners, and a call for which it is `none` calls no listener
(`emittedBy_delivered`). -/
def emittedBy (g : OrderBook → BidOffer) (s : BondAlgoExecutionService) (ob : OrderBook) :
    Option AlgoExecution :=
  if (s.AddOrder g ob).1.counter = s.counter then none
  else (s.AddOrder g ob).1.algoexecutionMap.find ob.product.productId

/-- The execution orders emitted while a sequence of order books is fed to `AddOrder`,
oldest first. -/
def emissions (g : OrderBook → BidOffer) :
    BondAlgoExecutionService → List OrderBook → List AlgoExecution
  | _, [] => []
  | s, ob :: rest => (emittedBy g s ob).toList ++ emissions g (s.AddOrder g ob).1 rest

/-- Top-of-book quantity on a side: the best offer's quantity for OFFER, the best bid's
quantity for BID. -/
def topQuantity (bo : BidOffer) (side : PricingSide) : Int :=
  match side with
  | PricingSide.OFFER => bo.offerOrder.quantity
  | PricingSide.BID => bo.bidOrder.quantity

/-- A fresh algo-execution service on which the listeners `ls` have been registered. -/
def BondAlgoExecutionService.freshWith (ls : List Nat) : BondAlgoExecutionService :=
  { listeners := ls, algoexecutionMap := [], counter := 0 }

/-! ## Fractional price notation (`utilityfunction.hpp`) -/

/-- Largest value of the 32-bit type `int`. -/
def INT_MAX : Int := 2147483647

/-- Largest value of the 64-bit types `long` and `long long`. -/
def LONG_MAX : Int := 9223372036854775807

/-- Smallest value of the 64-bit types `long` and `long long`. -/
def LONG_MIN : Int := -9223372036854775808

/-- The value a 64-bit signed variable holds when it is assigned the exact result `x` of an
addition or multiplication: `x` itself when it lies in the 64-bit range, and otherwise `x`
reduced modulo `2^64` into that range. -/
def wrapLong (x : Int) : Int :=
  (x + 9223372036854775808) % 18446744073709551616 - 9223372036854775808

/-- Smallest value of the 32-bit type `int`. -/
def INT_MIN : Int := -2147483648

/-- The library predicate `std::isspace` in the "C" locale. -/
def isspace (c : Char) : Bool :=
  c = ' ' || c = '\t' || c = '\n' || c = '\x0b' || c = '\x0c' || c = '\r'

/-- Value of a run of decimal digit characters, read left to right. -/
def digitsValue (ds : List Char) : Nat :=
  ds.foldl (fun acc c => 10 * acc + (c.toNat - 48)) 0

/-- Formatted extraction `ss >> output` of an `int` from the unread characters of a stream
(standard library behaviour): leading white space is skipped, an optional sign and the
longest run of decimal digits are consumed.  With no digit the extraction fails and 0 is
stored; a value outside the `int` range is stored as the nearest bound.  The result is the
stored value and the characters left unread; `none` when the stream is exhausted before any
character is found, in which case the target variable is left unwritten. -/
def extractInt (buf : List Char) : Option (Int × List Char) :=
  match buf.dropWhile isspace with
  | [] => none
  | c :: rest =>
    let negative := decide (c = '-')
    let body := if c = '-' ∨ c = '+' then rest else c :: rest
    let ds := body.takeWhile Char.isDigit
    let unread := body.dropWhile Char.isDigit
    if ds = [] then some (0, unread)
    else
      let v : Int := if negative then -(digitsValue ds : Int) else (digitsValue ds : Int)
      some (max INT_MIN (min INT_MAX v), unread)

/-- The function `StringtoType<int>`: append `str` to the stream, extract an `int`, clear the
state flags.  The stream is represented by its unread characters. -/
def StringtoType (ss : List Char) (str : List Char) : Option (Int × List Char) :=
  extractInt (ss ++ str)

/-- The call `boost::algorithm::split(v, s, is_any_of(sep))` for a single separator
character: the maximal pieces between separators, empty pieces included. -/
def boostSplit (sep : Char) : List Char → List (List Char)
  | [] => [[]]
  | c :: cs =>
    if c = sep then [] :: boostSplit sep cs
    else
      match boostSplit sep cs with
      | [] => [[c]]
      | t :: ts => (c :: t) :: ts

/-- The member `std::string::substr(pos, len)`; `none` stands for the `std::out_of_range`
exception thrown when `pos` exceeds the length. -/
def substr (s : List Char) (pos len : Nat) : Option (List Char) :=
  if pos ≤ s.length then some ((s.drop pos).take len) else none

/-- The function `StringtoPrice<double>`.  The stream `ss` is represented by its unread
characters; the result is the price and the stream afterwards.  `none` stands for the
executions the source leaves undefined (fewer than two pieces, `substr` out of range, a
variable read without having been written). -/
def StringtoPrice (ss : List Char) (priceStr : List Char) : Option (ℚ × List Char) :=
  match boostSplit '-' priceStr with
  | s0 :: s1 :: _ =>
    match StringtoType ss s0 with
    | none => none
    | some (integer, ss1) =>
      match substr s1 0 2 with
      | none => none
      | some xy =>
        match StringtoType ss1 xy with
        | none => none
        | some (decimal1, ss2) =>
          match substr s1 2 1 with
          | none => none
          | some z =>
            if z = ['+'] then
              some ((integer : ℚ) + (decimal1 : ℚ) / 32 + (4 : ℚ) / 256, ss2)
            else
              match StringtoType ss2 z with
              | none => none
              | some (decimal2, ss3) =>
                some ((integer : ℚ) + (decimal1 : ℚ) / 32 + (decimal2 : ℚ) / 256, ss3)
  | _ => none

/-- Conversion of a `double` to `int`: the value is truncated toward zero; `none` when the
truncated value is outside the `int` range (the conversion is then undefined). -/
def toInt (x : ℚ) : Option Int :=
  let t : Int := if 0 ≤ x then ⌊x⌋ else ⌈x⌉
  if INT_MIN ≤ t ∧ t ≤ INT_MAX then some t else none

/-- The function `PricetoString<double>`; `none` when a conversion to `int` is undefined. -/
def PricetoString (price : ℚ) : Option (List Char) :=
  match toInt ((⌊price⌋ : Int) : ℚ) with
  | none => none
  | some integer =>
    match toInt ((⌊(price - (integer : ℚ)) * 32⌋ : Int) : ℚ) with
    | none => none
    | some decimal1 =>
      match toInt ((price - (integer : ℚ)) * 256 - ((decimal1 * 8 : Int) : ℚ)) with
      | none => none
      | some decimal2 =>
        let output := to_string integer ++ ['-']
        let output := if decimal1 < 10 then output ++ ['0'] else output
        let output := output ++ to_string decimal1
        let output := if decimal2 = 4 then output ++ ['+'] else output ++ to_string decimal2
        some output

/-- The character written for the 256ths digit `b`: `+` for 4, the digit otherwise. -/
def plusDigit (b : Nat) : Char :=
  if b = 4 then '+' else Nat.digitChar b

/-- The string `III-FFS` for integer part `n`, 32nds `a` and 256ths `b`: the decimal
numeral of `n`, a dash, `a` on two digits, and the 256ths character. -/
def fractionalString (n a b : Nat) : List Char :=
  natToString n ++ ['-', Nat.digitChar (a / 10), Nat.digitChar (a % 10), plusDigit b]

/-! ## Position stage (`positionservice.hpp`, `BondPositionSoa.hpp`) -/

/-- Side of a trade. -/
inductive Side where
  | BUY
  | SELL
  deriving DecidableEq, Repr

/-- Trade record (spec §3; `tradebookingservice.hpp` is not available), with the
constructor argument order used by the trade-booking connector. -/
structure Trade where
  product : Bond
  tradeId : String
  price : ℚ
  book : String
  quantity : Int
  side : Side
  deriving DecidableEq

/-- A default-constructed `Bond` (`products.hpp` is not available; the field values chosen
here play no role in the theorems). -/
def Bond.default : Bond :=
  ⟨"", BondIdType.CUSIP, "", 0, ⟨0, 0, 0⟩⟩

/-- The class `Position<Bond>`: product and per-book positions
(`unordered_map<string, long long>`). -/
structure Position where
  product : Bond
  positions : SMap Int
  deriving DecidableEq

namespace Position

/-- Constructor `Position(const T&)`: no book yet. -/
def ofProduct (b : Bond) : Position := ⟨b, []⟩

/-- The default constructor `Position()`. -/
def default : Position := ⟨Bond.default, []⟩

/-- Accessor `GetProduct`. -/
def GetProduct (p : Position) : Bond := p.product

/-- The method `GetPosition(book)`, `return positions[book]`: the book's position, zero
for a book not yet present, which the subscript then enters with value zero.  The result
is the value and the position object afterwards. -/
def GetPosition (p : Position) (book : String) : Int × Position :=
  match p.positions.find book with
  | some q => (q, p)
  | none => (0, { p with positions := p.positions ++ [(book, 0)] })

/-- The method `GetAggregatePosition`: the entries are added one by one to the `long long`
variable `sum`, which starts at zero. -/
def GetAggregatePosition (p : Position) : Int :=
  p.positions.foldl (fun sum element => wrapLong (sum + element.2)) 0

/-- The method `AddNewPosition(book, quantity)`, `positions[book] += quantity` on
`long long` entries. -/
def AddNewPosition (p : Position) (book : String) (quantity : Int) : Position :=
  { p with
    positions := p.positions.upsert book (wrapLong (p.positions.getD book 0 + quantity)) }

/-- The method `HasBook`. -/
def HasBook (p : Position) (book : String) : Bool :=
  (p.positions.find book).isSome

end Position

/-- The call `m.insert(make_pair(k, v))` of a map: adds the entry unless the key is
present. -/
def SMap.insert {V : Type} (m : SMap V) (k : String) (v : V) : SMap V :=
  match m.find k with
  | some _ => m
  | none => m ++ [(k, v)]

/-- The class `BondProductService`, reduced to its bond cache. -/
structure BondProductService where
  bondMap : SMap Bond
  deriving DecidableEq

/-- The method `BondProductService::GetData`, `return bondMap[productId]`: the stored bond,
or for an unknown id the default-constructed bond, which the subscript then enters in the
cache.  The result is the bond and the product service afterwards. -/
def BondProductService.GetData (ps : BondProductService) (productId : String) :
    Bond × BondProductService :=
  match ps.bondMap.find productId with
  | some b => (b, ps)
  | none => (Bond.default, ⟨ps.bondMap ++ [(productId, Bond.default)]⟩)

/-- The method `BondProductService::GetBonds`: the bonds with the given ticker (the order
of the result plays no role: it only feeds an unordered map). -/
def BondProductService.GetBonds (ps : BondProductService) (ticker : String) : List Bond :=
  (ps.bondMap.map (fun e => e.2)).filter (fun b => b.ticker = ticker)

/-- State of `BondPositionService`: registered listeners and the position cache. -/
structure BondPositionService where
  listeners : List Nat
  positionMap : SMap Position
  deriving DecidableEq

namespace BondPositionService

/-- The constructor: one empty `Position` per bond of the ticker, keyed on product id. -/
def new (bondProductService : BondProductService) (ticker : String) : BondPositionService :=
  { listeners := [],
    positionMap :=
      (bondProductService.GetBonds ticker).foldl
        (fun m b => m.insert b.productId (Position.ofProduct b)) [] }

/-- Registration `AddListener`. -/
def AddListener (s : BondPositionService) (l : Nat) : BondPositionService :=
  { s with listeners := s.listeners ++ [l] }

/-- The method `GetData`, `return positionMap[key]`. -/
def GetData (s : BondPositionService) (key : String) : Position :=
  s.positionMap.getD key Position.default

/-- The method `BondPositionService::AddTrade`: the new state and the `ProcessUpdate`
callbacks made, in call order. -/
def AddTrade (s : BondPositionService) (trade : Trade) :
    BondPositionService × List (Nat × Position) :=
  let productId := trade.product.productId
  let book := trade.book
  let sign : Int := if trade.side = Side.BUY then 1 else -1
  let quantity : Int := wrapLong (sign * trade.quantity)
  let position := s.positionMap.getD productId Position.default
  let position := position.AddNewPosition book quantity
  ({ s with positionMap := s.positionMap.upsert productId position },
    s.listeners.map (fun l => (l, position)))

/-- Feeding a sequence of trades to `AddTrade`, oldest first: the final state. -/
def AddTrades (s : BondPositionService) (trades : List Trade) : BondPositionService :=
  trades.foldl (fun st t => (st.AddTrade t).1) s

end BondPositionService

/-- Signed quantity of a trade: `+quantity` for BUY, `−quantity` for SELL. -/
def signedQuantity (t : Trade) : Int :=
  match t.side with
  | Side.BUY => t.quantity
  | Side.SELL => -t.quantity

/-- The trades booked on a product, in order. -/
def tradesOn (productId : String) (trades : List Trade) : List Trade :=
  trades.filter (fun t => t.product.productId = productId)

/-- Net signed quantity of the trades booked on a product. -/
def netQuantity (productId : String) (trades : List Trade) : Int :=
  ((tradesOn productId trades).map signedQuantity).sum

/-- The books that have appeared in a trade on a product. -/
def booksOn (productId : String) (trades : List Trade) : Finset String :=
  ((tradesOn productId trades).map (fun t => t.book)).toFinset

/-- Registration of a list of listeners, in order, through `AddListener`. -/
def BondPositionService.AddListeners (s : BondPositionService) (ls : List Nat) :
    BondPositionService :=
  ls.foldl BondPositionService.AddListener s

/-! ### Scenario data (spec §8, scenario 4) -/

/-- A product service holding the sample bond. -/
def sampleProducts : BondProductService :=
  ⟨[("912828M80", sampleBond)]⟩

/-- A position service constructed for ticker `T`, with one registered listener
(handle 3). -/
def samplePositionService : BondPositionService :=
  (BondPositionService.new sampleProducts "T").AddListeners [3]

/-- BUY 1,000,000 of the sample bond in book TRSY1. -/
def buyTrade : Trade :=
  ⟨sampleBond, "T1", 100, "TRSY1", 1000000, Side.BUY⟩

/-- SELL 400,000 of the sample bond in book TRSY2. -/
def sellTrade : Trade :=
  ⟨sampleBond, "T2", 100, "TRSY2", 400000, Side.SELL⟩

/-! ## Risk stage (`riskservice.hpp`, `BondRiskSoa.hpp`) -/

/-- The class `PV01<T>`: product, per-unit PV01 and quantity. -/
structure PV01 (T : Type) where
  product : T
  pv01 : ℚ
  quantity : Int

/-- The class `BucketedSector<Bond>`: a named group of bonds. -/
structure BucketedSector where
  products : List Bond
  name : String

/-- State of `BondRiskService`: the product service it points to, registered listeners, the
per-bond cache and the per-sector cache. -/
structure BondRiskService where
  bondProductService : BondProductService
  listeners : List Nat
  pv01Map : SMap (PV01 Bond)
  bucketpv01Map : SMap (PV01 BucketedSector)

namespace BondRiskService

/-- The loop of the constructor: for each entry of the table `_pv01`, in turn, a `PV01` of
quantity zero for the bond the product service returns under that id. -/
def initPv01Map (bondProductService : BondProductService) (_pv01 : SMap ℚ) :
    BondProductService × SMap (PV01 Bond) :=
  _pv01.foldl
    (fun acc e =>
      ((acc.1.GetData e.1).2, acc.2.insert e.1 ⟨(acc.1.GetData e.1).1, e.2, 0⟩))
    (bondProductService, [])

/-- The constructor `BondRiskService(bondProductService, _pv01)`. -/
def new (bondProductService : BondProductService) (_pv01 : SMap ℚ) : BondRiskService :=
  { bondProductService := (initPv01Map bondProductService _pv01).1,
    listeners := [],
    pv01Map := (initPv01Map bondProductService _pv01).2,
    bucketpv01Map := [] }

/-- Registration `AddListener`. -/
def AddListener (s : BondRiskService) (l : Nat) : BondRiskService :=
  { s with listeners := s.listeners ++ [l] }

/-- The method `BondRiskService::AddPosition`: the new state and the `ProcessUpdate`
callbacks made, in call order.  `none` when the product has no entry: `pv01Map[productId]`
then yields a default-constructed `PV01`, whose fields `PV01() {}` leaves indeterminate,
and they are read. -/
def AddPosition (s : BondRiskService) (position : Position) :
    Option (BondRiskService × List (Nat × PV01 Bond)) :=
  let productId := position.GetProduct.productId
  match s.pv01Map.find productId with
  | none => none
  | some productPv =>
    let newQuantity : Int := wrapLong (position.GetAggregatePosition + productPv.quantity)
    let productNewPv : PV01 Bond := ⟨productPv.product, productPv.pv01, newQuantity⟩
    some ({ s with pv01Map := s.pv01Map.upsert productId productNewPv },
      s.listeners.map (fun l => (l, productNewPv)))

end BondRiskService

/-- A risk service constructed over the sample product service with the table
`912828M80 ↦ 0.0185`, with one registered listener (handle 5). -/
def sampleRiskService : BondRiskService :=
  (BondRiskService.new sampleProducts [("912828M80", 185 / 10000)]).AddListener 5

/-- The position of the sample bond after the two trades of the cascade scenario. -/
def samplePosition : Position :=
  ⟨sampleBond, [("TRSY1", 1000000), ("TRSY2", -400000)]⟩

/-! ### Bucketed risk (`BondRiskService::UpdateBucketedRisk`, `GetBucketedRisk`) -/

/-- The loop of `UpdateBucketedRisk` over the bonds of the sector, accumulating
`(sum_quantity, sum_pv01)`; `none` stands for the `std::out_of_range` exception thrown by
`pv01Map.at` for a bond without entry. -/
def BondRiskService.sumSector (pv01Map : SMap (PV01 Bond)) :
    List Bond → Int × ℚ → Option (Int × ℚ)
  | [], acc => some acc
  | product :: rest, acc =>
    match pv01Map.find product.productId with
    | none => none
    | some pv =>
      BondRiskService.sumSector pv01Map rest
        (acc.1 + pv.quantity, acc.2 + pv.pv01 * (pv.quantity : ℚ))

/-- The method `BondRiskService::UpdateBucketedRisk`; `none` when the loop throws. -/
def BondRiskService.UpdateBucketedRisk (s : BondRiskService) (sector : BucketedSector) :
    Option BondRiskService :=
  match BondRiskService.sumSector s.pv01Map sector.products (0, 0) with
  | none => none
  | some (sum_quantity, sum_pv01) =>
    let unit_pv01 : ℚ := if sum_quantity ≠ 0 then sum_pv01 / (sum_quantity : ℚ) else 0
    let bucketpv01 : PV01 BucketedSector := ⟨sector, unit_pv01, sum_quantity⟩
    some { s with bucketpv01Map := s.bucketpv01Map.upsert sector.name bucketpv01 }

/-- The method `BondRiskService::GetBucketedRisk`, `return bucketpv01Map.at(name)`; `none`
stands for the `std::out_of_range` exception. -/
def BondRiskService.GetBucketedRisk (s : BondRiskService) (sector : BucketedSector) :
    Option (PV01 BucketedSector) :=
  s.bucketpv01Map.find sector.name

/-- A second sample bond. -/
def sampleBond2 : Bond :=
  ⟨"9128283J7", BondIdType.CUSIP, "T", 2, ⟨2024, 11, 30⟩⟩

/-- A sector holding the two sample bonds. -/
def sampleSector : BucketedSector :=
  ⟨[sampleBond, sampleBond2], "Belly"⟩

/-- A risk service whose per-bond cache holds the two sample bonds, with per-unit PV01 0.02
and 0.04 and quantities `q1` and `q2`. -/
def sectorRiskService (q1 q2 : Int) : BondRiskService :=
  { bondProductService := sampleProducts,
    listeners := [],
    pv01Map := [("912828M80", ⟨sampleBond, 2 / 100, q1⟩),
                ("9128283J7", ⟨sampleBond2, 4 / 100, q2⟩)],
    bucketpv01Map := [] }

/-- A `std::unordered_map<double, long>`: association list, at most one entry per price. -/
abbrev PriceMap := List (ℚ × Int)

/-- Lookup in a price map. -/
def PriceMap.find : PriceMap → ℚ → Option Int
  | [], _ => none
  | (p, v) :: rest, price => if p = price then some v else PriceMap.find rest price

/-- The body of the aggregation loops of `AggregateDepth`: `m[price] += quantity` (on `long`
entries) when the price is found, `m.insert(make_pair(price, quantity))` otherwise. -/
def PriceMap.add : PriceMap → ℚ → Int → PriceMap
  | [], price, quantity => [(price, quantity)]
  | (p, v) :: rest, price, quantity =>
    if p = price then (p, wrapLong (v + quantity)) :: rest
    else (p, v) :: PriceMap.add rest price quantity

/-- One aggregation loop of `AggregateDepth`: the orders of a stack collected by price. -/
def aggregateStack (orders : List Order) : PriceMap :=
  orders.foldl (fun m o => m.add o.price o.quantity) []

/-- One reconstruction loop of `AggregateDepth`: an order per entry of the price map, in the
order in which the map is iterated.  That order is unspecified for an unordered map; it is
the parameter `iterate`, which rearranges the entries. -/
def rebuildStack (iterate : PriceMap → PriceMap) (m : PriceMap) (side : PricingSide) :
    List Order :=
  (iterate m).map (fun e => (⟨e.1, e.2, side⟩ : Order))

/-- A default-constructed `OrderBook` (`marketdataservice.hpp` is not available): the
default bond and empty stacks. -/
def OrderBook.default : OrderBook :=
  ⟨Bond.default, [], []⟩

/-- State of `BondMarketDataService`: registered listeners and the order book cache. -/
structure BondMarketDataService where
  listeners : List Nat
  orderbookMap : SMap OrderBook
  deriving DecidableEq

namespace BondMarketDataService

/-- A freshly constructed service. -/
def fresh : BondMarketDataService :=
  { listeners := [], orderbookMap := [] }

/-- Registration `AddListener`. -/
def AddListener (s : BondMarketDataService) (l : Nat) : BondMarketDataService :=
  { s with listeners := s.listeners ++ [l] }

/-- The method `BondMarketDataService::OnMessage`: the book is stored under its product id
and passed to every listener's `ProcessAdd`. -/
def OnMessage (s : BondMarketDataService) (data : OrderBook) :
    BondMarketDataService × List (Nat × OrderBook) :=
  ({ s with orderbookMap := s.orderbookMap.upsert data.product.productId data },
    s.listeners.map (fun l => (l, data)))

/-- The method `BondMarketDataService::AggregateDepth`: the new state and the returned
book. -/
def AggregateDepth (iterate : PriceMap → PriceMap) (s : BondMarketDataService)
    (productId : String) : BondMarketDataService × OrderBook :=
  let orderbook := s.orderbookMap.getD productId OrderBook.default
  let bidOrders := orderbook.bidStack
  let offerOrders := orderbook.offerStack
  let bidMap := aggregateStack bidOrders
  let offerMap := aggregateStack offerOrders
  let newbidOrders := rebuildStack iterate bidMap PricingSide.BID
  let newofferOrders := rebuildStack iterate offerMap PricingSide.OFFER
  let neworderbook : OrderBook := ⟨orderbook.product, newbidOrders, newofferOrders⟩
  ({ s with orderbookMap := s.orderbookMap.upsert productId neworderbook }, neworderbook)

end BondMarketDataService

/-- The book that `AggregateDepth` rebuilds from the stored book: same product, each stack
collected by price and rebuilt. -/
def aggregatedBook (iterate : PriceMap → PriceMap) (orderbook : OrderBook) : OrderBook :=
  ⟨orderbook.product,
    rebuildStack iterate (aggregateStack orderbook.bidStack) PricingSide.BID,
    rebuildStack iterate (aggregateStack orderbook.offerStack) PricingSide.OFFER⟩

/-- Total quantity of the orders of a stack at a given price. -/
def quantityAt (orders : List Order) (price : ℚ) : Int :=
  ((orders.filter (fun o => o.price = price)).map (fun o => o.quantity)).sum

/-- Scenario 5 (spec §8): bids at 100 for 1,000,000 and 2,000,000 and at 99 for 1,000,000,
with one offer. -/
def depthBook : OrderBook :=
  ⟨sampleBond,
    [⟨100, 1000000, PricingSide.BID⟩, ⟨100, 2000000, PricingSide.BID⟩,
      ⟨99, 1000000, PricingSide.BID⟩],
    [⟨101, 500000, PricingSide.OFFER⟩]⟩

/-- A market data service holding the book of scenario 5. -/
def depthService : BondMarketDataService :=
  (BondMarketDataService.fresh.OnMessage depthBook).1

/-! ## Inquiry stage (`BondInquirySoa.hpp`) -/

/-- State of an inquiry. -/
inductive InquiryState where
  | RECEIVED
  | QUOTED
  | DONE
  | REJECTED
  | CUSTOMER_REJECTED
  deriving DecidableEq, Repr

/-- Inquiry record (spec §3; `inquiryservice.hpp` is not available), with the constructor
argument order used in the available code. -/
structure Inquiry where
  inquiryId : String
  product : Bond
  side : Side
  quantity : Int
  price : ℚ
  state : InquiryState
  deriving DecidableEq

/-- A listener registered on the inquiry service: the quoting listener
`BondInquiryListener` of the service itself, or any other listener (such as the historical
data listener), which does not call back into the service. -/
inductive InquiryListener where
  | quoting
  | sink (handle : Nat)
  deriving DecidableEq

/-- What happens while the inquiry service runs, in order: entry into `OnMessage`, a
listener's `ProcessUpdate`, `SendQuote`, `RejectInquiry`, the connector's `Publish`. -/
inductive InquiryEvent where
  | onMessage (data : Inquiry)
  | processUpdate (listener : InquiryListener) (data : Inquiry)
  | sendQuote (inquiryId : String) (price : ℚ)
  | rejectInquiry (inquiryId : String)
  | publish (data : Inquiry)
  deriving DecidableEq

/-- State of `BondInquiryService`: registered listeners, whether a `BondInquiryConnector`
has set itself as the connector of the service, and the inquiry cache keyed on inquiry
identifier. -/
structure BondInquiryService where
  listeners : List InquiryListener
  connector : Bool
  inquiryMap : SMap Inquiry
  deriving DecidableEq

/-- Outcome of a call into the inquiry stage: the new service state and the events of the
call, or `none` when the call does not return a defined result. -/
abbrev InquiryResult := Option (BondInquiryService × List InquiryEvent)

/-- The method `BondInquiryConnector::Publish`; `onMessage` is the `OnMessage` of the service
the connector points to. -/
def BondInquiryConnector.Publish (onMessage : BondInquiryService → Inquiry → InquiryResult)
    (s : BondInquiryService) (data : Inquiry) : InquiryResult :=
  if data.state = InquiryState.REJECTED then
    match onMessage s data with
    | none => none
    | some (s1, t1) => some (s1, InquiryEvent.publish data :: t1)
  else
    let quotedInquiry : Inquiry :=
      ⟨data.inquiryId, data.product, data.side, data.quantity, data.price,
        InquiryState.QUOTED⟩
    match onMessage s quotedInquiry with
    | none => none
    | some (s1, t1) =>
      let doneInquiry : Inquiry :=
        ⟨data.inquiryId, data.product, data.side, data.quantity, data.price,
          InquiryState.DONE⟩
      match onMessage s1 doneInquiry with
      | none => none
      | some (s2, t2) => some (s2, InquiryEvent.publish data :: (t1 ++ t2))

namespace BondInquiryService

/-- A freshly constructed service: no listener, no connector, empty cache. -/
def fresh : BondInquiryService :=
  { listeners := [], connector := false, inquiryMap := [] }

/-- The method `SetConnector`, called by the constructor of `BondInquiryConnector`. -/
def SetConnector (s : BondInquiryService) : BondInquiryService :=
  { s with connector := true }

/-- Registration `AddListener`. -/
def AddListener (s : BondInquiryService) (l : InquiryListener) : BondInquiryService :=
  { s with listeners := s.listeners ++ [l] }

/-- The method `BondInquiryService::SendQuote`.  `none` when no connector has been set (the
pointer is then not initialised) or when the identifier has no entry (`inquiryMap[id]`
then yields a default-constructed inquiry, defined in the unavailable header). -/
def SendQuote (onMessage : BondInquiryService → Inquiry → InquiryResult)
    (s : BondInquiryService) (inquiryId : String) (price : ℚ) : InquiryResult :=
  if s.connector then
    match s.inquiryMap.find inquiryId with
    | none => none
    | some inquiry =>
      let newInquiry : Inquiry :=
        ⟨inquiryId, inquiry.product, inquiry.side, inquiry.quantity, price, inquiry.state⟩
      match BondInquiryConnector.Publish onMessage s newInquiry with
      | none => none
      | some (s1, t1) => some (s1, InquiryEvent.sendQuote inquiryId price :: t1)
  else none

/-- The method `BondInquiryService::RejectInquiry`; `none` as for `SendQuote`. -/
def RejectInquiry (onMessage : BondInquiryService → Inquiry → InquiryResult)
    (s : BondInquiryService) (inquiryId : String) : InquiryResult :=
  if s.connector then
    match s.inquiryMap.find inquiryId with
    | none => none
    | some inquiry =>
      let newInquiry : Inquiry :=
        ⟨inquiryId, inquiry.product, inquiry.side, inquiry.quantity, inquiry.price,
          InquiryState.REJECTED⟩
      match BondInquiryConnector.Publish onMessage s newInquiry with
      | none => none
      | some (s1, t1) => some (s1, InquiryEvent.rejectInquiry inquiryId :: t1)
  else none

end BondInquiryService

/-- The method `BondInquiryListener::ProcessUpdate`: a quote of 100.0 for an inquiry in
state RECEIVED, nothing otherwise. -/
def BondInquiryListener.ProcessUpdate
    (onMessage : BondInquiryService → Inquiry → InquiryResult)
    (s : BondInquiryService) (data : Inquiry) : InquiryResult :=
  if data.state = InquiryState.RECEIVED then
    BondInquiryService.SendQuote onMessage s data.inquiryId 100
  else some (s, [])

/-- The loop `for (auto listener : listeners) listener->ProcessUpdate(data)` of
`BondInquiryService::OnMessage`, over the listeners still to be called. -/
def BondInquiryService.notifyListeners
    (onMessage : BondInquiryService → Inquiry → InquiryResult) :
    List InquiryListener → BondInquiryService → Inquiry → InquiryResult
  | [], s, _ => some (s, [])
  | l :: rest, s, data =>
    match (match l with
            | InquiryListener.quoting => BondInquiryListener.ProcessUpdate onMessage s data
            | InquiryListener.sink _ => some (s, [])) with
    | none => none
    | some (s1, t1) =>
      match BondInquiryService.notifyListeners onMessage rest s1 data with
      | none => none
      | some (s2, t2) => some (s2, InquiryEvent.processUpdate l data :: (t1 ++ t2))

/-- The method `BondInquiryService::OnMessage`: the inquiry is stored under its identifier
and every listener's `ProcessUpdate` is called; the quoting listener calls back into
`SendQuote`, the connector and `OnMessage` again.  The first argument bounds the depth of
nested `OnMessage` calls (`none` when it is exceeded). -/
def BondInquiryService.OnMessage : Nat → BondInquiryService → Inquiry → InquiryResult
  | 0, _, _ => none
  | fuel + 1, s, data =>
    match BondInquiryService.notifyListeners (BondInquiryService.OnMessage fuel) s.listeners
        { s with inquiryMap := s.inquiryMap.upsert data.inquiryId data } data with
    | none => none
    | some (s1, t1) => some (s1, InquiryEvent.onMessage data :: t1)

/-- The inquiries entering `OnMessage` during a call, in order. -/
def onMessageCalls : List InquiryEvent → List Inquiry
  | [] => []
  | InquiryEvent.onMessage d :: rest => d :: onMessageCalls rest
  | _ :: rest => onMessageCalls rest

/-- The calls of `SendQuote` during a call, in order. -/
def sendQuoteCalls : List InquiryEvent → List (String × ℚ)
  | [] => []
  | InquiryEvent.sendQuote i p :: rest => (i, p) :: sendQuoteCalls rest
  | _ :: rest => sendQuoteCalls rest

/-- The inquiry service as wired in `main.cpp`: the historical data listener (handle 1)
registered first, the quoting listener second, and the connector set. -/
def wiredInquiryService : BondInquiryService :=
  ((BondInquiryService.fresh.AddListener (InquiryListener.sink 1)).AddListener
    InquiryListener.quoting).SetConnector

/-- Scenario 6 (spec §8): inquiry `I1` in state RECEIVED at price 99.5. -/
def sampleInquiry : Inquiry :=
  ⟨"I1", sampleBond, Side.BUY, 1000000, 995 / 10, InquiryState.RECEIVED⟩

/-- The inquiry re-emitted in state QUOTED after a quote of 100.0 for `data`. -/
def quotedOf (data : Inquiry) : Inquiry :=
  ⟨data.inquiryId, data.product, data.side, data.quantity, 100, InquiryState.QUOTED⟩

/-- The inquiry re-emitted in state DONE after a quote of 100.0 for `data`. -/
def doneOf (data : Inquiry) : Inquiry :=
  ⟨data.inquiryId, data.product, data.side, data.quantity, 100, InquiryState.DONE⟩

/-- The nested `OnMessage` calls expected from a list of listeners for an inquiry in state
RECEIVED: one QUOTED and one DONE re-emission per quoting listener. -/
def quoteRounds (data : Inquiry) : List InquiryListener → List Inquiry
  | [] => []
  | InquiryListener.quoting :: rest => quotedOf data :: doneOf data :: quoteRounds data rest
  | InquiryListener.sink _ :: rest => quoteRounds data rest

/-- The `SendQuote` calls expected from a list of listeners for an inquiry in state
RECEIVED: one per quoting listener. -/
def quoteCalls (data : Inquiry) : List InquiryListener → List (String × ℚ)
  | [] => []
  | InquiryListener.quoting :: rest => (data.inquiryId, 100) :: quoteCalls data rest
  | InquiryListener.sink _ :: rest => quoteCalls data rest

/-! ## GUI throttle (`BondGUIService.hpp`) -/

/-- Price record (spec §3; `pricingservice.hpp` is not available): product, mid price and
bid-offer spread. -/
structure Price where
  product : Bond
  mid : ℚ
  bidOfferSpread : ℚ
  deriving DecidableEq

/-- State of `BondGUIService` together with its publish connector: registered listeners, the
price cache, the throttle interval in milliseconds, and the prices handed to the
connector's `Publish` (one output row each while the file is open), oldest first. -/
structure BondGUIService where
  listeners : List Nat
  priceMap : SMap Price
  interval : Int
  published : List Price
  deriving DecidableEq

namespace BondGUIService

/-- The constructor `BondGUIService(_interval, connector)`, with a connector that has
published nothing yet. -/
def new (_interval : Int) : BondGUIService :=
  { listeners := [], priceMap := [], interval := _interval, published := [] }

/-- The method `BondGUIService::AddPrice`: the price is stored under its product id and
published through the connector. -/
def AddPrice (s : BondGUIService) (price : Price) : BondGUIService :=
  { s with priceMap := s.priceMap.upsert price.product.productId price,
           published := s.published ++ [price] }

/-- The method `GetTimeInterval`. -/
def GetTimeInterval (s : BondGUIService) : Int := s.interval

end BondGUIService

/-- State of `BondGUIListener`: the GUI service it points to, the time of the last restart of
its clock, the throttle interval and the publication counter.  Clock readings are in
milliseconds (rational, a reading being a whole number of clock ticks). -/
structure BondGUIListener where
  bondGuiService : BondGUIService
  start : ℚ
  interval : Int
  counter : Int
  deriving DecidableEq

namespace BondGUIListener

/-- The constructor, run when the clock reads `now`. -/
def new (bondGuiService : BondGUIService) (now : ℚ) : BondGUIListener :=
  { bondGuiService := bondGuiService, start := now,
    interval := bondGuiService.GetTimeInterval, counter := 0 }

/-- The method `BondGUIListener::ProcessAdd`.  The clock is read twice: `now1` in the
throttle test and, when the price is published, `now2` to restart the clock. -/
def ProcessAdd (l : BondGUIListener) (now1 now2 : ℚ) (data : Price) : BondGUIListener :=
  if now1 - l.start ≥ (l.interval : ℚ) ∧ l.counter < 100 then
    { l with bondGuiService := l.bondGuiService.AddPrice data,
             start := now2,
             counter := l.counter + 1 }
  else l

/-- A sequence of price updates delivered to `ProcessAdd`, each with its two clock
readings, oldest first. -/
def ProcessAdds (l : BondGUIListener) (updates : List (ℚ × ℚ × Price)) : BondGUIListener :=
  updates.foldl (fun st u => st.ProcessAdd u.1 u.2.1 u.2.2) l

/-- The clock readings `(now1, now2)` of the updates that were published, read off the
effect of each call (the counter has moved), oldest first. -/
def publications : BondGUIListener → List (ℚ × ℚ × Price) → List (ℚ × ℚ)
  | _, [] => []
  | l, u :: rest =>
    if (l.ProcessAdd u.1 u.2.1 u.2.2).counter = l.counter then
      publications (l.ProcessAdd u.1 u.2.1 u.2.2) rest
    else (u.1, u.2.1) :: publications (l.ProcessAdd u.1 u.2.1 u.2.2) rest

end BondGUIListener

/-- A price of the sample bond. -/
def samplePrice : Price :=
  ⟨sampleBond, 100, 1 / 64⟩

/-- A GUI listener constructed at time 0 on a fresh GUI service with a 300 ms throttle. -/
def sampleGuiListener : BondGUIListener :=
  BondGUIListener.new (BondGUIService.new 300) 0

/-- The time of the last restart of the listener's clock: the second reading of the last
publication, or `t0` when nothing has been published. -/
def lastRestart (t0 : ℚ) : List (ℚ × ℚ) → ℚ
  | [] => t0
  | p :: rest => lastRestart p.2 rest

/-- A run of three updates for the sample listener: at 100 ms (too early), at 300 ms
(published, clock restarted at 301 ms) and at 600 ms (too early by 1 ms). -/
def sampleUpdates : List (ℚ × ℚ × Price) :=
  [(100, 100, samplePrice), (300, 301, samplePrice), (600, 600, samplePrice)]

/-- The listener constructed at time `t0` on a fresh GUI service with the given throttle
interval, after a sequence of updates. -/
def guiAfter (interval : Int) (t0 : ℚ) (updates : List (ℚ × ℚ × Price)) : BondGUIListener :=
  (BondGUIListener.new (BondGUIService.new interval) t0).ProcessAdds updates

/-- The publication log of the listener constructed at time `t0` on a fresh GUI service,
for a sequence of updates. -/
def guiLog (interval : Int) (t0 : ℚ) (updates : List (ℚ × ℚ × Price)) : List (ℚ × ℚ) :=
  BondGUIListener.publications (BondGUIListener.new (BondGUIService.new interval) t0) updates

/-! ## Arithmetic of `double` (IEEE-754 binary64, round to nearest, ties to even) -/

/-- Rounding of a non-negative rational to the nearest integer, ties to the even one. -/
def roundHalfEven (q : ℚ) : Int :=
  let f := ⌊q⌋
  let r := q - (f : ℚ)
  if r < 1 / 2 then f else if 1 / 2 < r then f + 1 else if f % 2 = 0 then f else f + 1

/-- The `double` nearest to the exact value `x`: the significand has 53 bits and the unit
in the last place is `2^e` with `e = ⌊log₂|x|⌋ − 52`, but not less than `2^(−1074)`
(subnormal values); `none` when the rounded magnitude reaches `2^1024` (the result is an
infinity). -/
def roundDouble (x : ℚ) : Option ℚ :=
  if x = 0 then some 0
  else
    let e : Int := max (Int.log 2 |x| - 52) (-1074)
    let m : Int := roundHalfEven (|x| / 2 ^ e)
    let y : ℚ := (m : ℚ) * 2 ^ e
    if y < 2 ^ 1024 then some (if x < 0 then -y else y) else none

/-- A value of type `double` produced by arithmetic: `some x` for the finite value `x`,
`none` for an infinity or a NaN. -/
abbrev Double := Option ℚ

/-- Addition of `double` values. -/
def fadd (a b : Double) : Double :=
  match a, b with
  | some x, some y => roundDouble (x + y)
  | _, _ => none

/-- Subtraction of `double` values. -/
def fsub (a b : Double) : Double :=
  match a, b with
  | some x, some y => roundDouble (x - y)
  | _, _ => none

/-- Division of `double` values (a division by zero gives an infinity or a NaN). -/
def fdiv (a b : Double) : Double :=
  match a, b with
  | some x, some y => if y = 0 then none else roundDouble (x / y)
  | _, _ => none

/-! ## Algo-streaming stage (`BondAlgoStreamingSoa.hpp`) -/

/-- One side of a price stream (spec §3; `streamingservice.hpp` is not available), with the
constructor argument order used in `AddStream`. -/
structure PriceStreamOrder where
  price : Double
  visibleQuantity : Int
  hiddenQuantity : Int
  side : PricingSide
  deriving DecidableEq

/-- Two-way price stream: product, bid order, offer order. -/
structure PriceStream where
  product : Bond
  bidOrder : PriceStreamOrder
  offerOrder : PriceStreamOrder
  deriving DecidableEq

/-- The class `AlgoStream<Bond>`: a wrapper around one price stream. -/
structure AlgoStream where
  stream : PriceStream
  deriving DecidableEq

/-- Accessor `AlgoStream::GetStream`. -/
def AlgoStream.GetStream (a : AlgoStream) : PriceStream := a.stream

/-- State of `BondAlgoStreamingService`: registered listeners, keyed cache, quantity
counter. -/
structure BondAlgoStreamingService where
  listeners : List Nat
  algostreamMap : SMap AlgoStream
  counter : Int
  deriving DecidableEq

namespace BondAlgoStreamingService

/-- A fresh service on which the listeners `ls` have been registered. -/
def freshWith (ls : List Nat) : BondAlgoStreamingService :=
  { listeners := ls, algostreamMap := [], counter := 0 }

/-- Registration `AddListener`. -/
def AddListener (s : BondAlgoStreamingService) (l : Nat) : BondAlgoStreamingService :=
  { s with listeners := s.listeners ++ [l] }

/-- The visible quantity chosen in `AddStream`: 1,000,000 when `counter % 2 == 0`, 2,000,000
when `counter % 2 == 1`; otherwise the variable is left unassigned (`none`). -/
def visibleQuantityFor (counter : Int) : Option Int :=
  if counter.tmod 2 = 0 then some 1000000
  else if counter.tmod 2 = 1 then some 2000000
  else none

/-- The method `BondAlgoStreamingService::AddStream`: the new state and the `ProcessUpdate`
callbacks made, in call order; `none` when the visible quantity is read unassigned.  The
two prices `mid - spread / 2` and `mid + spread / 2` are computed in `double`. -/
def AddStream (s : BondAlgoStreamingService) (price : Price) :
    Option (BondAlgoStreamingService × List (Nat × AlgoStream)) :=
  let mid := price.mid
  let spread := price.bidOfferSpread
  match visibleQuantityFor s.counter with
  | none => none
  | some visibleQuantity =>
    let hiddenQuantity := 2 * visibleQuantity
    let bidOrder : PriceStreamOrder :=
      ⟨fsub (some mid) (fdiv (some spread) (some 2)), visibleQuantity, hiddenQuantity,
        PricingSide.BID⟩
    let offerOrder : PriceStreamOrder :=
      ⟨fadd (some mid) (fdiv (some spread) (some 2)), visibleQuantity, hiddenQuantity,
        PricingSide.OFFER⟩
    let stream : PriceStream := ⟨price.product, bidOrder, offerOrder⟩
    let productId := price.product.productId
    let algostream : AlgoStream := ⟨stream⟩
    some ({ s with algostreamMap := s.algostreamMap.upsert productId algostream,
                   counter := s.counter + 1 },
      s.listeners.map (fun l => (l, algostream)))

/-- The stream built by one call of `AddStream`, read off the call's effect: the value
stored under the price's product id when the call returns. -/
def builtBy (s : BondAlgoStreamingService) (price : Price) : Option AlgoStream :=
  match s.AddStream price with
  | none => none
  | some r => r.1.algostreamMap.find price.product.productId

/-- Feeding a sequence of prices to `AddStream`, oldest first: the final state and the
streams built, in order. -/
def AddStreams : BondAlgoStreamingService → List Price →
    Option (BondAlgoStreamingService × List AlgoStream)
  | s, [] => some (s, [])
  | s, p :: rest =>
    match s.AddStream p, builtBy s p with
    | some r, some a =>
      match AddStreams r.1 rest with
      | some (s', built) => some (s', a :: built)
      | none => none
    | _, _ => none

end BondAlgoStreamingService

/-- The stream constructed in `AddStream` for a price when the visible quantity is `v`. -/
def streamOf (price : Price) (v : Int) : AlgoStream :=
  ⟨⟨price.product,
    ⟨fsub (some price.mid) (fdiv (some price.bidOfferSpread) (some 2)), v, 2 * v,
      PricingSide.BID⟩,
    ⟨fadd (some price.mid) (fdiv (some price.bidOfferSpread) (some 2)), v, 2 * v,
      PricingSide.OFFER⟩⟩⟩

/-- The visible quantity of the `k`-th stream: 1,000,000 for even `k`, 2,000,000 for odd. -/
def visibleAt (k : Nat) : Int :=
  if k % 2 = 0 then 1000000 else 2000000

/-! ## Top of book and totals (used for `AggregateDepth`) -/

/-- Total quantity of the orders of a stack. -/
def totalQuantity (orders : List Order) : Int :=
  (orders.map (fun o => o.quantity)).sum

/-- Highest price among the orders of a stack (`⊥` for an empty stack). -/
def highestPrice (orders : List Order) : WithBot ℚ :=
  (orders.map (fun o => o.price)).maximum

/-- Lowest price among the orders of a stack (`⊤` for an empty stack). -/
def lowestPrice (orders : List Order) : WithTop ℚ :=
  (orders.map (fun o => o.price)).minimum

/-! ### Failure of the bucketed-risk methods -/

/-- The method `BondRiskService::UpdateBucketedRisk` with the service state made explicit on
both outcomes: `Except.ok s1` when the call returns, leaving the service in state `s1`;
`Except.error s1` when `pv01Map.at` throws, leaving it in state `s1`.  The loop reads the
per-bond cache and writes local variables only; the sector cache is written after the
loop. -/
def BondRiskService.UpdateBucketedRiskE (s : BondRiskService) (sector : BucketedSector) :
    Except BondRiskService BondRiskService :=
  match BondRiskService.sumSector s.pv01Map sector.products (0, 0) with
  | none => Except.error s
  | some (sum_quantity, sum_pv01) =>
    let unit_pv01 : ℚ := if sum_quantity ≠ 0 then sum_pv01 / (sum_quantity : ℚ) else 0
    let bucketpv01 : PV01 BucketedSector := ⟨sector, unit_pv01, sum_quantity⟩
    Except.ok { s with bucketpv01Map := s.bucketpv01Map.upsert sector.name bucketpv01 }

/-- A call made on the risk service. -/
inductive RiskCall where
  | addPosition (position : Position)
  | updateBucketedRisk (sector : BucketedSector)

/-- A sequence of calls made on the risk service, oldest first: the state reached, or `none`
as soon as one of the calls does not return. -/
def BondRiskService.run : BondRiskService → List RiskCall → Option BondRiskService
  | s, [] => some s
  | s, RiskCall.addPosition position :: rest =>
    match s.AddPosition position with
    | none => none
    | some (s1, _) => BondRiskService.run s1 rest
  | s, RiskCall.updateBucketedRisk sector :: rest =>
    match s.UpdateBucketedRisk sector with
    | none => none
    | some s1 => BondRiskService.run s1 rest

/-- A bond that the sample product service does not hold. -/
def unknownBond : Bond :=
  ⟨"912828XX0", BondIdType.CUSIP, "T", 2, ⟨2030, 1, 1⟩⟩

/-- A sector holding the first sample bond and the unknown bond. -/
def brokenSector : BucketedSector :=
  ⟨[sampleBond, unknownBond], "Broken"⟩

/-- The inquiries delivered to the `ProcessUpdate` of listener `l` during a call, in
order. -/
def processUpdateCalls (l : InquiryListener) : List InquiryEvent → List Inquiry
  | [] => []
  | InquiryEvent.processUpdate l1 d :: rest =>
    if l1 = l then d :: processUpdateCalls l rest else processUpdateCalls l rest
  | _ :: rest => processUpdateCalls l rest

/-! ## Position stage feeding the risk stage (`BondRiskListener`) -/

/-- The method `BondRiskListener::ProcessUpdate`: the position is passed to `AddPosition` of
the risk service the listener points to. -/
def BondRiskListener.ProcessUpdate (rs : BondRiskService) (data : Position) :
    Option (BondRiskService × List (Nat × PV01 Bond)) :=
  rs.AddPosition data

/-- One trade entering the position service on which the risk listener is registered under
handle `h`: `AddTrade`, then the risk listener's `ProcessUpdate` for every callback made to
it, in call order.  The result is the pair of service states afterwards. -/
def positionRiskStep (h : Nat) (st : BondPositionService × BondRiskService) (trade : Trade) :
    Option (BondPositionService × BondRiskService) :=
  match (deliveredTo h (st.1.AddTrade trade).2).foldlM
      (fun rs position => (BondRiskListener.ProcessUpdate rs position).map (fun r => r.1))
      st.2 with
  | none => none
  | some rs => some ((st.1.AddTrade trade).1, rs)

/-- A sequence of trades entering the wired position and risk services, oldest first. -/
def positionRiskRun (h : Nat) (st : BondPositionService × BondRiskService)
    (trades : List Trade) : Option (BondPositionService × BondRiskService) :=
  trades.foldlM (positionRiskStep h) st

/-- The running aggregates `q₁, q₁ + q₂, …, q₁ + … + q_k` of a list of signed
quantities. -/
def runningAggregates (qs : List Int) : List Int :=
  (List.range qs.length).map (fun i => (qs.take (i + 1)).sum)

/-- Registration of a list of listeners on the risk service, in order, through
`AddListener`. -/
def BondRiskService.AddListeners (s : BondRiskService) (ls : List Nat) : BondRiskService :=
  ls.foldl BondRiskService.AddListener s

/-! ## Trade booking stage (`BondTradeBookingSoa.hpp`) -/

/-- What happens while the trade booking service runs, in order: an entry into `BookTrade`,
a listener's `ProcessUpdate`. -/
inductive BookingEvent where
  | bookTrade (trade : Trade)
  | processUpdate (listener : Nat) (trade : Trade)
  deriving DecidableEq

/-- State of `BondTradeBookingService`: registered listeners, the counter of booked trades
and the trade cache keyed on trade identifier. -/
structure BondTradeBookingService where
  listeners : List Nat
  counter : Int
  tradeMap : SMap Trade
  deriving DecidableEq

namespace BondTradeBookingService

/-- A freshly constructed service on which the listeners `ls` have been registered:
`counter = 0`, empty cache. -/
def freshWith (ls : List Nat) : BondTradeBookingService :=
  { listeners := ls, counter := 0, tradeMap := [] }

/-- Registration `AddListener`. -/
def AddListener (s : BondTradeBookingService) (l : Nat) : BondTradeBookingService :=
  { s with listeners := s.listeners ++ [l] }

/-- Accessor `GetCounter`. -/
def GetCounter (s : BondTradeBookingService) : Int := s.counter

/-- The method `BondTradeBookingService::BookTrade`: the trade is stored under its
identifier, the counter is incremented and every listener's `ProcessUpdate` is called.  The
result is the new state and the events of the call. -/
def BookTrade (s : BondTradeBookingService) (trade : Trade) :
    BondTradeBookingService × List BookingEvent :=
  let tradeId := trade.tradeId
  ({ s with tradeMap := s.tradeMap.upsert tradeId trade, counter := s.counter + 1 },
    BookingEvent.bookTrade trade ::
      s.listeners.map (fun l => BookingEvent.processUpdate l trade))

/-- The method `BondTradeBookingService::OnMessage`, called by the ingress connector. -/
def OnMessage (s : BondTradeBookingService) (data : Trade) :
    BondTradeBookingService × List BookingEvent :=
  s.BookTrade data

end BondTradeBookingService

/-- The trade identifier built in `BondTradeBookingListener::ProcessAdd`:
`"TRS" + year + ticker + counter` with the counter padded to seven digits. -/
def tradeIdOf (bond : Bond) (counter : Int) : String :=
  String.mk ("TRS".toList ++ to_string (bond.maturityDate.year : Int) ++ bond.ticker.toList
    ++ setwFill 7 '0' (to_string counter))

/-- The method `BondTradeBookingListener::ProcessAdd` on the service the listener points
to. -/
def BondTradeBookingListener.ProcessAdd (s : BondTradeBookingService)
    (data : ExecutionOrder) : BondTradeBookingService × List BookingEvent :=
  let counter := s.GetCounter
  let bond := data.product
  let tradeId := tradeIdOf bond counter
  let bookId :=
    if counter.tmod 3 = 0 then "TRSY1" else if counter.tmod 3 = 1 then "TRSY2" else "TRSY3"
  let side := if data.side = PricingSide.BID then Side.SELL else Side.BUY
  let trade : Trade :=
    ⟨data.product, tradeId, data.price, bookId,
      wrapLong (data.hiddenQuantity + data.visibleQuantity), side⟩
  s.BookTrade trade

/-- The trades passed to `BookTrade` during a run of events, in order. -/
def bookedTrades : List BookingEvent → List Trade
  | [] => []
  | BookingEvent.bookTrade t :: rest => t :: bookedTrades rest
  | BookingEvent.processUpdate _ _ :: rest => bookedTrades rest

/-- What reaches the trade booking stage: a trade read by the ingress connector, or an
execution order delivered to the trade-booking listener. -/
inductive BookingInput where
  | ingress (trade : Trade)
  | execution (order : ExecutionOrder)

/-- One input handled by the trade booking stage. -/
def BondTradeBookingService.handle (s : BondTradeBookingService) :
    BookingInput → BondTradeBookingService × List BookingEvent
  | BookingInput.ingress trade => s.OnMessage trade
  | BookingInput.execution order => BondTradeBookingListener.ProcessAdd s order

/-- A sequence of inputs handled by the trade booking stage, oldest first; the events of all
inputs are concatenated in order. -/
def BondTradeBookingService.run :
    BondTradeBookingService → List BookingInput → BondTradeBookingService × List BookingEvent
  | s, [] => (s, [])
  | s, i :: rest =>
    ((BondTradeBookingService.run (s.handle i).1 rest).1,
      (s.handle i).2 ++ (BondTradeBookingService.run (s.handle i).1 rest).2)

/-- The book named for a remainder modulo three: `TRSY1`, `TRSY2`, `TRSY3` for 0, 1, 2. -/
def bookName : Nat → String
  | 0 => "TRSY1"
  | 1 => "TRSY2"
  | _ => "TRSY3"

/-- An execution order on the sample bond: side OFFER, price 100.015625, visible 400,000 and
hidden 1,600,000. -/
def sampleExecution : ExecutionOrder :=
  ⟨sampleBond, PricingSide.OFFER, "ORD2024T0000000", OrderType.IOC, 100 + 4 / 256, 400000,
    1600000, "N/A", false⟩
/-! ## Execution stage (`BondExecutionSoa.hpp`) -/

/-- Execution venue (spec §4.10; `executionservice.hpp` is not available). -/
inductive Market where
  | BROKERTEC
  | ESPEED
  | CME
  deriving DecidableEq, Repr

/-- State of `BondExecutionService`: registered listeners and the order cache keyed on
product identifier. -/
structure BondExecutionService where
  listeners : List Nat
  orderMap : SMap ExecutionOrder
  deriving DecidableEq

namespace BondExecutionService

/-- A freshly constructed service on which the listeners `ls` have been registered. -/
def freshWith (ls : List Nat) : BondExecutionService :=
  { listeners := ls, orderMap := [] }

/-- Registration `AddListener`. -/
def AddListener (s : BondExecutionService) (l : Nat) : BondExecutionService :=
  { s with listeners := s.listeners ++ [l] }

/-- The method `BondExecutionService::ExecuteOrder`: the order is stored under its product
id and passed to every listener's `ProcessAdd`; the venue is not used.  The result is the
new state and the `ProcessAdd` callbacks made, in call order. -/
def ExecuteOrder (s : BondExecutionService) (order : ExecutionOrder) (_market : Market) :
    BondExecutionService × List (Nat × ExecutionOrder) :=
  let productId := order.product.productId
  ({ s with orderMap := s.orderMap.upsert productId order },
    s.listeners.map (fun l => (l, order)))

end BondExecutionService

/-- The venue chosen in `BondExecutionListener::ProcessUpdate` from the value `rand`
returned by `rand()`. -/
def exchangeOf (rand : Int) : Market :=
  let val := rand.tmod 3
  if val = 0 then Market.BROKERTEC else if val = 1 then Market.ESPEED else Market.CME

/-- The method `BondExecutionListener::ProcessUpdate` on the service the listener points
to; `rand` is the value returned by its call of `rand()`. -/
def BondExecutionListener.ProcessUpdate (rand : Int) (s : BondExecutionService)
    (data : AlgoExecution) : BondExecutionService × List (Nat × ExecutionOrder) :=
  let exchange := exchangeOf rand
  let order := data.GetOrder
  s.ExecuteOrder order exchange

/-- The chain algo-execution → execution → trade booking: the three service states and the
number of `rand()` calls made so far. -/
structure ExecutionPipeline where
  algo : BondAlgoExecutionService
  execution : BondExecutionService
  booking : BondTradeBookingService
  randCalls : Nat

namespace ExecutionPipeline

/-- The `ProcessAdd` calls of the trade-booking listener for a list of execution orders, in
order. -/
def bookAll : BondTradeBookingService → List ExecutionOrder →
    BondTradeBookingService × List BookingEvent
  | ts, [] => (ts, [])
  | ts, e :: rest =>
    ((bookAll (BondTradeBookingListener.ProcessAdd ts e).1 rest).1,
      (BondTradeBookingListener.ProcessAdd ts e).2 ++
        (bookAll (BondTradeBookingListener.ProcessAdd ts e).1 rest).2)

/-- The `ProcessUpdate` calls of the execution listener for a list of algo executions, in
order; each of them executes the order, and the execution service's callbacks to the
trade-booking listener (handle `hBook`) book a trade.  The value of the `n`-th call of
`rand()` is `rand n`. -/
def executeAll (rand : Nat → Int) (hBook : Nat) :
    ExecutionPipeline → List AlgoExecution → ExecutionPipeline × List BookingEvent
  | p, [] => (p, [])
  | p, a :: rest =>
    let r := BondExecutionListener.ProcessUpdate (rand p.randCalls) p.execution a
    let b := bookAll p.booking (deliveredTo hBook r.2)
    let p1 : ExecutionPipeline :=
      { algo := p.algo, execution := r.1, booking := b.1, randCalls := p.randCalls + 1 }
    ((executeAll rand hBook p1 rest).1, b.2 ++ (executeAll rand hBook p1 rest).2)

/-- One order book entering `AddOrder` of the algo-execution service, with the execution
listener registered on it under handle `hExec` and the trade-booking listener registered on
the execution service under handle `hBook`: the new states and the events of the trade
booking service. -/
def AddOrder (g : OrderBook → BidOffer) (rand : Nat → Int) (hExec hBook : Nat)
    (p : ExecutionPipeline) (ob : OrderBook) : ExecutionPipeline × List BookingEvent :=
  let r := p.algo.AddOrder g ob
  executeAll rand hBook
    { algo := r.1, execution := p.execution, booking := p.booking, randCalls := p.randCalls }
    (deliveredTo hExec r.2)

end ExecutionPipeline

/-- The chain wired as in `main.cpp`, freshly constructed: the execution listener (handle
1) on the algo-execution service; the trade-booking listener (handle 2) and then the
execution history listener (handle 3) on the execution service; the position listener
(handle 4) on the trade booking service. -/
def wiredPipeline : ExecutionPipeline :=
  { algo := BondAlgoExecutionService.freshWith [1],
    execution := BondExecutionService.freshWith [2, 3],
    booking := BondTradeBookingService.freshWith [4],
    randCalls := 0 }

/-- The book of scenario 2 with quantities that are not multiples of five: bid `100-00+`
for 1,000,003 and offer `100-01` for 2,000,007. -/
def oddLotBook : OrderBook :=
  ⟨sampleBond, [⟨100 + 4 / 256, 1000003, PricingSide.BID⟩],
    [⟨100 + 1 / 32, 2000007, PricingSide.OFFER⟩]⟩

/-! ## Pricing stage (`BondPricingSoa.hpp`) -/

/-- State of `BondPricingService`: registered listeners and the price cache keyed on product
identifier. -/
structure BondPricingService where
  listeners : List Nat
  priceMap : SMap Price
  deriving DecidableEq

namespace BondPricingService

/-- A freshly constructed service. -/
def fresh : BondPricingService :=
  { listeners := [], priceMap := [] }

/-- Registration `AddListener`. -/
def AddListener (s : BondPricingService) (l : Nat) : BondPricingService :=
  { s with listeners := s.listeners ++ [l] }

/-- Registration of a list of listeners, in order, through `AddListener`. -/
def AddListeners (s : BondPricingService) (ls : List Nat) : BondPricingService :=
  ls.foldl AddListener s

/-- The method `BondPricingService::GetData`, `return priceMap[key]`: the stored price, or
for an unknown key the default-constructed price, which the subscript then enters in the
cache.  The default-constructed `Price<Bond>` is defined in a header that is not available;
it is the parameter `dflt`.  The result is the price and the service afterwards. -/
def GetData (dflt : Price) (s : BondPricingService) (key : String) :
    Price × BondPricingService :=
  match s.priceMap.find key with
  | some p => (p, s)
  | none => (dflt, { s with priceMap := s.priceMap ++ [(key, dflt)] })

/-- The method `BondPricingService::OnMessage`: the price is stored under its product id and
passed to every listener's `ProcessAdd`.  The result is the new state and the `ProcessAdd`
callbacks made, in call order. -/
def OnMessage (s : BondPricingService) (data : Price) :
    BondPricingService × List (Nat × Price) :=
  let productId := data.product.productId
  ({ s with priceMap := s.priceMap.upsert productId data },
    s.listeners.map (fun l => (l, data)))

/-- A sequence of prices passed to `OnMessage`, oldest first; the callbacks of all calls are
concatenated in call order. -/
def OnMessages : BondPricingService → List Price → BondPricingService × List (Nat × Price)
  | s, [] => (s, [])
  | s, d :: rest =>
    ((OnMessages (s.OnMessage d).1 rest).1,
      (s.OnMessage d).2 ++ (OnMessages (s.OnMessage d).1 rest).2)

end BondPricingService

/-- The last price of a sequence whose product id is `k`, if there is one. -/
def lastPriceOf (k : String) (prices : List Price) : Option Price :=
  (prices.filter (fun d => d.product.productId = k)).getLast?

/-- A later price of the sample bond. -/
def samplePrice2 : Price :=
  ⟨sampleBond, 100 + 1 / 32, 1 / 128⟩

/-- A price of the second sample bond. -/
def samplePrice3 : Price :=
  ⟨sampleBond2, 99, 1 / 64⟩

/-! ## Inquiry connector: the state field (`BondInquiryConnector`) -/

/-- The call `boost::algorithm::to_upper` in the classic locale: the letters `a` … `z` are
replaced by `A` … `Z`, every other character is kept. -/
def to_upper (s : List Char) : List Char :=
  s.map Char.toUpper

/-- The state read by the constructor of `BondInquiryConnector` from the (trimmed) seventh
field of a record. -/
def parseInquiryState (field : List Char) : InquiryState :=
  let field := to_upper field
  if field = "QUOTED".toList then InquiryState.QUOTED
  else if field = "DONE".toList then InquiryState.DONE
  else if field = "REJECTED".toList then InquiryState.REJECTED
  else if field = "CUSTOMER_REJECTED".toList then InquiryState.CUSTOMER_REJECTED
  else InquiryState.RECEIVED

/-- The state named by a string, for the four names the connector recognises. -/
def stateNamed (name : List Char) : Option InquiryState :=
  if name = "QUOTED".toList then some InquiryState.QUOTED
  else if name = "DONE".toList then some InquiryState.DONE
  else if name = "REJECTED".toList then some InquiryState.REJECTED
  else if name = "CUSTOMER_REJECTED".toList then some InquiryState.CUSTOMER_REJECTED
  else none

/-! ## Inquiry history connector (`BondInquiryHistoricalDataSoa.hpp`) -/

/-- The header written by the constructor of `BondInquiryHistoricalDataConnector`. -/
def inquiryHistoryHeader : List Char :=
  "Time,InquiryID,BondIDType,BondID,Side,Quantity,Price,State\n".toList

/-- The method `BondInquiryHistoricalDataConnector::Publish` on an open file: the row
appended.  The clock reading enters as `date` (the result of `DatetoUsString`) and
`timeofDay` (the result of `to_simple_string`, of which the last three characters are
erased); `none` when `PricetoString` is undefined.  The string `side` is computed and not
written: the row holds the bond's ticker at that place. -/
def BondInquiryHistoricalDataConnector.Publish (date timeofDay : List Char) (data : Inquiry) :
    Option (List Char) :=
  let timeofDay := timeofDay.take (timeofDay.length - 3)
  let bond := data.product
  let Idtype := if bond.bondIdType = BondIdType.CUSIP then "CUSIP" else "ISIN"
  let _side := if data.side = Side.BUY then "BUY" else "SELL"
  match PricetoString data.price with
  | none => none
  | some priceStr =>
    let state := data.state
    let stateStr :=
      if state = InquiryState.QUOTED then "QUOTED"
      else if state = InquiryState.DONE then "DONE"
      else if state = InquiryState.REJECTED then "REJECTED"
      else if state = InquiryState.CUSTOMER_REJECTED then "CUSTOMER_REJECTED"
      else "RECEIVED"
    some (date ++ " ".toList ++ timeofDay ++ ",".toList ++ data.inquiryId.toList
      ++ ",".toList ++ Idtype.toList ++ ",".toList ++ bond.productId.toList ++ ",".toList
      ++ bond.ticker.toList ++ ",".toList ++ to_string data.quantity ++ ",".toList
      ++ priceStr ++ ",".toList ++ stateStr.toList ++ "\n".toList)

/-- The inquiry of scenario 6 with side SELL. -/
def sampleSellInquiry : Inquiry :=
  ⟨"I1", sampleBond, Side.SELL, 1000000, 995 / 10, InquiryState.RECEIVED⟩

/-! ## Quantities at the limits of the 64-bit range -/

/-- The gross quantity of the trades booked on a product: the sum of the absolute values of
their quantities. -/
def grossQuantity (productId : String) (trades : List Trade) : Int :=
  ((tradesOn productId trades).map (fun t => (t.quantity.natAbs : Int))).sum

/-- The gross quantity of a stack of orders: the sum of the absolute values of their
quantities. -/
def grossStack (orders : List Order) : Int :=
  (orders.map (fun o => (o.quantity.natAbs : Int))).sum

/-- BUY 9,223,372,036,854,775,807 (the largest `long`) of the sample bond in book TRSY1. -/
def maxBuyTrade : Trade :=
  ⟨sampleBond, "T3", 100, "TRSY1", 9223372036854775807, Side.BUY⟩

/-- BUY 1 of the sample bond in book TRSY1. -/
def unitBuyTrade : Trade :=
  ⟨sampleBond, "T4", 100, "TRSY1", 1, Side.BUY⟩

/-- BUY 1 of the sample bond in book TRSY2. -/
def unitBuyTrade2 : Trade :=
  ⟨sampleBond, "T5", 100, "TRSY2", 1, Side.BUY⟩

/-- A position of the sample bond holding 9,223,372,036,854,775,807 in book TRSY1. -/
def maxPosition : Position :=
  ⟨sampleBond, [("TRSY1", 9223372036854775807)]⟩

/-- A position of the sample bond holding 1 in book TRSY1. -/
def unitPosition : Position :=
  ⟨sampleBond, [("TRSY1", 1)]⟩

/-- The quantity stored for a product in the per-bond cache of the risk service. -/
def riskQuantity (s : BondRiskService) (productId : String) : Option Int :=
  (s.pv01Map.find productId).map (fun pv => pv.quantity)

/-- An order book of the sample bond with two bids at 100, for 9,223,372,036,854,775,807
and for 1, and one offer. -/
def overflowBook : OrderBook :=
  ⟨sampleBond,
    [⟨100, 9223372036854775807, PricingSide.BID⟩, ⟨100, 1, PricingSide.BID⟩],
    [⟨101, 500000, PricingSide.OFFER⟩]⟩

/-- A market data service holding that book. -/
def overflowService : BondMarketDataService :=
  (BondMarketDataService.fresh.OnMessage overflowBook).1

/-- BUY 4,611,686,018,427,387,904 (that is `2^62`) of the sample bond in book TRSY1. -/
def halfBuyTrade : Trade :=
  ⟨sampleBond, "T6", 100, "TRSY1", 4611686018427387904, Side.BUY⟩

/-- An execution order of the sample bond with visible quantity 9,223,372,036,854,775,807
and hidden quantity 1. -/
def overflowExecution : ExecutionOrder :=
  ⟨sampleBond, PricingSide.OFFER, "ORD2024T0000000", OrderType.IOC, 100 + 4 / 256,
    9223372036854775807, 1, "N/A", false⟩

/-! ## Further scenario data -/

/-- A book on which `AddOrder` emits nothing: bid `100-01` against offer `100-00+`, so the
bid price exceeds the offer price by 1/64. -/
def crossedBook : OrderBook :=
  ⟨sampleBond, [⟨100 + 1 / 32, 1000000, PricingSide.BID⟩],
    [⟨100 + 4 / 256, 2000000, PricingSide.OFFER⟩]⟩

/-! ## Theorems -/

/-! ### Keyed caches -/

/-- After `m[k] = v` the lookup of `k` finds `v`. -/
theorem SMap.find_upsert_self {V : Type} (m : SMap V) (k : String) (v : V) :
    (m.upsert k v).find k = some v := by
  induction m with
  | nil => simp [SMap.upsert, SMap.find]
  | cons e rest ih =>
    obtain ⟨k', v'⟩ := e
    by_cases h : k' = k
    · simp [SMap.upsert, SMap.find, h]
    · simp [SMap.upsert, SMap.find, h, ih]

/-- The assignment `m[k] = v` does not change the lookup of another key. -/
theorem SMap.find_upsert_of_ne {V : Type} (m : SMap V) (k k2 : String) (v : V)
    (hne : k2 ≠ k) : (m.upsert k v).find k2 = m.find k2 := by
  induction m with
  | nil => simp [SMap.upsert, SMap.find, Ne.symm hne]
  | cons e rest ih =>
    obtain ⟨k', v'⟩ := e
    by_cases h : k' = k
    · subst h
      simp [SMap.upsert, SMap.find, Ne.symm hne]
    · by_cases h2 : k' = k2
      · subst h2
        simp [SMap.upsert, SMap.find, h]
      · simp [SMap.upsert, SMap.find, h, h2, ih]

/-! ### Algo-execution stage -/

/-- When the test of `AddOrder` succeeds, the built order is stored under the product id,
the counter is incremented and every listener receives the order. -/
theorem AddOrder_emit (g : OrderBook → BidOffer) (s : BondAlgoExecutionService)
    (ob : OrderBook) (h : (g ob).bidOrder.price - (g ob).offerOrder.price ≤ 1 / 128) :
    s.AddOrder g ob =
      ({ s with algoexecutionMap :=
                  s.algoexecutionMap.upsert ob.product.productId
                    ⟨builtOrder (g ob) ob.product s.counter⟩,
                counter := s.counter + 1 },
        s.listeners.map (fun l => (l, ⟨builtOrder (g ob) ob.product s.counter⟩))) := by
  unfold BondAlgoExecutionService.AddOrder builtOrder
  dsimp only
  rw [if_pos h]
  by_cases hc : s.counter.tmod 2 = 1
  · simp only [hc, if_true, if_neg (show PricingSide.BID ≠ PricingSide.OFFER by decide)]
  · simp only [hc, if_false, if_true]

/-- When the test of `AddOrder` fails, nothing happens. -/
theorem AddOrder_skip (g : OrderBook → BidOffer) (s : BondAlgoExecutionService)
    (ob : OrderBook) (h : ¬ (g ob).bidOrder.price - (g ob).offerOrder.price ≤ 1 / 128) :
    s.AddOrder g ob = (s, []) := by
  unfold BondAlgoExecutionService.AddOrder
  dsimp only
  rw [if_neg h]

/-- What the code of `AddOrder` decides on: the counter moves exactly when
`bid price − offer price ≤ 1/128` (the two prices are read in swapped roles). -/
theorem AddOrder_counter_moves_iff (g : OrderBook → BidOffer) (s : BondAlgoExecutionService)
    (ob : OrderBook) :
    (s.AddOrder g ob).1.counter = s.counter + 1 ↔
      (g ob).bidOrder.price - (g ob).offerOrder.price ≤ 1 / 128 := by
  by_cases h : (g ob).bidOrder.price - (g ob).offerOrder.price ≤ 1 / 128
  · rw [AddOrder_emit g s ob h]
    exact ⟨fun _ => h, fun _ => rfl⟩
  · rw [AddOrder_skip g s ob h]
    constructor
    · intro hc
      have hc2 : s.counter = s.counter + 1 := hc
      omega
    · intro hc
      exact absurd hc h

/-- Best bid and offer of the no-emit scenario book. -/
theorem wideBook_best : wideBook.GetBestBidOffer =
    ⟨⟨100 + 4 / 256, 1000000, PricingSide.BID⟩,
      ⟨100 + 2 / 32 + 4 / 256, 2000000, PricingSide.OFFER⟩⟩ := by
  rfl

/-- Best bid and offer of the emit scenario book. -/
theorem tightBook_best : tightBook.GetBestBidOffer =
    ⟨⟨100 + 4 / 256, 1000000, PricingSide.BID⟩, ⟨100 + 1 / 32, 2000000, PricingSide.OFFER⟩⟩ := by
  rfl

/-- C1 (the code departs from the claim): on the no-emit scenario, bid `100-00+` against
offer `100-02+`, the best offer minus the best bid is 1/16, above 1/128, and yet `AddOrder`
on a fresh service with one listener emits: the counter becomes 1, the built order is stored
under the product id and the listener's `ProcessUpdate` receives it. -/
theorem C1_AddOrder_emits_on_wide_book :
    IsBestBidOffer wideBook wideBook.GetBestBidOffer ∧
    ¬ (wideBook.GetBestBidOffer.offerOrder.price - wideBook.GetBestBidOffer.bidOrder.price
        ≤ 1 / 128) ∧
    (freshWithListener.AddOrder OrderBook.GetBestBidOffer wideBook).1.counter = 1 ∧
    (freshWithListener.AddOrder OrderBook.GetBestBidOffer wideBook).1.algoexecutionMap.find
        "912828M80" = some ⟨builtOrder wideBook.GetBestBidOffer sampleBond 0⟩ ∧
    (freshWithListener.AddOrder OrderBook.GetBestBidOffer wideBook).2 =
        [(7, ⟨builtOrder wideBook.GetBestBidOffer sampleBond 0⟩)] := by
  have h : (OrderBook.GetBestBidOffer wideBook).bidOrder.price
      - (OrderBook.GetBestBidOffer wideBook).offerOrder.price ≤ 1 / 128 := by
    rw [wideBook_best]; norm_num
  refine ⟨?_, ?_, ?_, ?_, ?_⟩
  · rw [wideBook_best]
    simp [IsBestBidOffer, wideBook]
  · rw [wideBook_best]; norm_num
  · rw [AddOrder_emit _ _ _ h]; rfl
  · rw [AddOrder_emit _ _ _ h]; rfl
  · rw [AddOrder_emit _ _ _ h]; rfl

/-- C2 (the code departs from the claim): on the emit scenario, bid `100-00+` for 1,000,000
against offer `100-01` for 2,000,000 on a fresh service, the single emitted order has side
OFFER, visible 400000 and hidden 1600000, but its price is 100.015625, the best bid's
price, not the best offer's 100.03125. -/
theorem C2_AddOrder_offer_side_carries_bid_price :
    IsBestBidOffer tightBook tightBook.GetBestBidOffer ∧
    tightBook.GetBestBidOffer.offerOrder.price = 100 + 1 / 32 ∧
    ∃ a : AlgoExecution,
      (freshWithListener.AddOrder OrderBook.GetBestBidOffer tightBook).2 = [(7, a)] ∧
      a.order.side = PricingSide.OFFER ∧
      a.order.price = 100 + 4 / 256 ∧
      a.order.price ≠ tightBook.GetBestBidOffer.offerOrder.price ∧
      a.order.visibleQuantity = 400000 ∧ a.order.hiddenQuantity = 1600000 := by
  have h : (OrderBook.GetBestBidOffer tightBook).bidOrder.price
      - (OrderBook.GetBestBidOffer tightBook).offerOrder.price ≤ 1 / 128 := by
    rw [tightBook_best]; norm_num
  refine ⟨?_, ?_, ⟨builtOrder tightBook.GetBestBidOffer sampleBond 0⟩, ?_, ?_, ?_, ?_, ?_, ?_⟩
  · rw [tightBook_best]
    simp [IsBestBidOffer, tightBook]
  · rw [tightBook_best]
  · rw [AddOrder_emit _ _ _ h]; rfl
  · rfl
  · rw [tightBook_best]; simp [builtOrder]
  · rw [tightBook_best]; simp [builtOrder]; norm_num
  · rw [tightBook_best]; simp [builtOrder]; decide
  · rw [tightBook_best]; simp [builtOrder]; decide

/-- When the test of `AddOrder` succeeds, the call emits the built order. -/
theorem emittedBy_emit (g : OrderBook → BidOffer) (s : BondAlgoExecutionService)
    (ob : OrderBook) (h : (g ob).bidOrder.price - (g ob).offerOrder.price ≤ 1 / 128) :
    emittedBy g s ob = some ⟨builtOrder (g ob) ob.product s.counter⟩ := by
  unfold emittedBy
  rw [AddOrder_emit g s ob h]
  have hne : ¬ (s.counter + 1 = s.counter) := by omega
  simp only [hne, if_false]
  exact SMap.find_upsert_self _ _ _

/-- When the test of `AddOrder` fails, the call emits nothing. -/
theorem emittedBy_skip (g : OrderBook → BidOffer) (s : BondAlgoExecutionService)
    (ob : OrderBook) (h : ¬ (g ob).bidOrder.price - (g ob).offerOrder.price ≤ 1 / 128) :
    emittedBy g s ob = none := by
  unfold emittedBy
  rw [AddOrder_skip g s ob h]
  simp

/-- Side of the built order: BID for an odd counter, OFFER otherwise. -/
theorem builtOrder_side (bo : BidOffer) (b : Bond) (c : Int) :
    (builtOrder bo b c).side = if c.tmod 2 = 1 then PricingSide.BID else PricingSide.OFFER := by
  unfold builtOrder
  split <;> rfl

/-- Visible quantity of the built order: a fifth of the top quantity on its side, truncated. -/
theorem builtOrder_visible (bo : BidOffer) (b : Bond) (c : Int) :
    (builtOrder bo b c).visibleQuantity =
      (topQuantity bo (builtOrder bo b c).side).tdiv 5 := by
  unfold builtOrder
  split <;> rfl

/-- Hidden quantity of the built order: the top quantity on its side minus the visible one. -/
theorem builtOrder_hidden (bo : BidOffer) (b : Bond) (c : Int) :
    (builtOrder bo b c).hiddenQuantity =
      topQuantity bo (builtOrder bo b c).side - (builtOrder bo b c).visibleQuantity := by
  unfold builtOrder
  split <;> rfl

/-- C3: for every execution order `a` emitted by `AddOrder` (stored under the product id by a
call that moved the counter, and equal to every value passed to a listener), if the
top-of-book quantity `q` on the order's side is non-negative then `visible = ⌊q/5⌋`,
`hidden = q − visible`, `visible + hidden = q`, `5 × visible ≤ q`, and `q = 0` gives
`visible = hidden = 0`. -/
theorem C3_AddOrder_visible_hidden_split (g : OrderBook → BidOffer)
    (s : BondAlgoExecutionService) (ob : OrderBook) (a : AlgoExecution)
    (hem : emittedBy g s ob = some a)
    (hq : 0 ≤ topQuantity (g ob) a.order.side) :
    a.order.visibleQuantity = topQuantity (g ob) a.order.side / 5 ∧
    a.order.hiddenQuantity = topQuantity (g ob) a.order.side - a.order.visibleQuantity ∧
    a.order.visibleQuantity + a.order.hiddenQuantity = topQuantity (g ob) a.order.side ∧
    5 * a.order.visibleQuantity ≤ topQuantity (g ob) a.order.side ∧
    (topQuantity (g ob) a.order.side = 0 →
      a.order.visibleQuantity = 0 ∧ a.order.hiddenQuantity = 0) ∧
    (∀ c ∈ (s.AddOrder g ob).2, c.2 = a) := by
  by_cases h : (g ob).bidOrder.price - (g ob).offerOrder.price ≤ 1 / 128
  · rw [emittedBy_emit g s ob h] at hem
    have ha : a = ⟨builtOrder (g ob) ob.product s.counter⟩ := (Option.some.inj hem).symm
    subst ha
    have hv := builtOrder_visible (g ob) ob.product s.counter
    have hh := builtOrder_hidden (g ob) ob.product s.counter
    dsimp only at hq ⊢
    rw [Int.tdiv_eq_ediv hq (by decide)] at hv
    refine ⟨hv, hh, by omega, by omega, fun h0 => by omega, ?_⟩
    intro c hc
    rw [AddOrder_emit g s ob h] at hc
    simp only [List.mem_map] at hc
    obtain ⟨l, _, rfl⟩ := hc
    rfl
  · rw [emittedBy_skip g s ob h] at hem
    exact absurd hem (by simp)


/-- C3 at the emit scenario: the order emitted from the tight book on a fresh service. -/
theorem C3_AddOrder_visible_hidden_split_witness :
    emittedBy OrderBook.GetBestBidOffer freshWithListener tightBook =
        some ⟨builtOrder tightBook.GetBestBidOffer sampleBond 0⟩ ∧
    (builtOrder tightBook.GetBestBidOffer sampleBond 0).visibleQuantity =
        topQuantity tightBook.GetBestBidOffer
          (builtOrder tightBook.GetBestBidOffer sampleBond 0).side / 5 ∧
    (builtOrder tightBook.GetBestBidOffer sampleBond 0).visibleQuantity +
        (builtOrder tightBook.GetBestBidOffer sampleBond 0).hiddenQuantity =
        topQuantity tightBook.GetBestBidOffer
          (builtOrder tightBook.GetBestBidOffer sampleBond 0).side :=
  have hem : emittedBy OrderBook.GetBestBidOffer freshWithListener tightBook =
      some ⟨builtOrder tightBook.GetBestBidOffer sampleBond 0⟩ :=
    emittedBy_emit OrderBook.GetBestBidOffer freshWithListener tightBook
      (by rw [tightBook_best]; norm_num)
  have h := C3_AddOrder_visible_hidden_split OrderBook.GetBestBidOffer freshWithListener
    tightBook ⟨builtOrder tightBook.GetBestBidOffer sampleBond 0⟩ hem (by decide)
  ⟨hem, h.1, h.2.2.1⟩

/-- Along a sequence of order books, from any state with a non-negative counter: the
counter advances by the number of emissions and the emitted sides alternate with the
counter's parity. -/
theorem AddOrders_invariant (g : OrderBook → BidOffer) (obs : List OrderBook) :
    ∀ s : BondAlgoExecutionService, 0 ≤ s.counter →
      (s.AddOrders g obs).1.counter = s.counter + ((emissions g s obs).length : Int) ∧
      ∀ (k : Nat) (a : AlgoExecution), (emissions g s obs)[k]? = some a →
        a.order.side =
          if (s.counter + (k : Int)) % 2 = 0 then PricingSide.OFFER else PricingSide.BID := by
  induction obs with
  | nil =>
    intro s _
    simp [BondAlgoExecutionService.AddOrders, emissions]
  | cons ob rest ih =>
    intro s hs
    by_cases h : (g ob).bidOrder.price - (g ob).offerOrder.price ≤ 1 / 128
    · have hstep : (s.AddOrder g ob).1.counter = s.counter + 1 := by
        rw [AddOrder_emit g s ob h]
      obtain ⟨ih1, ih2⟩ := ih (s.AddOrder g ob).1 (by omega)
      constructor
      · simp only [BondAlgoExecutionService.AddOrders, emissions, emittedBy_emit g s ob h,
          Option.toList, List.length_append, List.length_cons, List.length_nil]
        rw [ih1, hstep]
        push_cast
        omega
      · intro k a hk
        simp only [emissions, emittedBy_emit g s ob h, Option.toList, List.singleton_append]
          at hk
        cases k with
        | zero =>
          simp only [List.getElem?_cons_zero, Option.some.injEq] at hk
          subst hk
          show (builtOrder (g ob) ob.product s.counter).side = _
          rw [builtOrder_side]
          have ht : s.counter.tmod 2 = s.counter % 2 := Int.tmod_eq_emod hs (by decide)
          rw [ht]
          simp only [Nat.cast_zero, add_zero]
          have : s.counter % 2 = 0 ∨ s.counter % 2 = 1 := by omega
          rcases this with h0 | h1
          · simp [h0]
          · simp [h1]
        | succ k =>
          simp only [List.getElem?_cons_succ] at hk
          have := ih2 k a hk
          rw [this, hstep]
          have e : s.counter + 1 + (k : Int) = s.counter + ((k + 1 : Nat) : Int) := by
            push_cast; ring
          rw [e]
    · have hstep : (s.AddOrder g ob).1 = s := by
        rw [AddOrder_skip g s ob h]
      obtain ⟨ih1, ih2⟩ := ih s hs
      constructor
      · simp only [BondAlgoExecutionService.AddOrders, emissions, emittedBy_skip g s ob h,
          Option.toList, List.nil_append, hstep]
        exact ih1
      · intro k a hk
        simp only [emissions, emittedBy_skip g s ob h, Option.toList, List.nil_append, hstep]
          at hk
        exact ih2 k a hk

/-- A listener registered exactly once receives exactly the emitted orders, in order. -/
theorem deliveredTo_AddOrders (g : OrderBook → BidOffer) (l : Nat) (obs : List OrderBook) :
    ∀ s : BondAlgoExecutionService, s.listeners.count l = 1 →
      deliveredTo l (s.AddOrders g obs).2 = emissions g s obs := by
  induction obs with
  | nil =>
    intro s _
    simp [BondAlgoExecutionService.AddOrders, emissions, deliveredTo]
  | cons ob rest ih =>
    intro s hs
    have hd : ∀ (a : AlgoExecution),
        deliveredTo l (s.listeners.map (fun l' => (l', a))) = [a] := by
      intro a
      unfold deliveredTo
      rw [List.filter_map, List.map_map]
      have : (s.listeners.filter ((fun c : Nat × AlgoExecution => decide (c.1 = l)) ∘ fun l' => (l', a)))
          = s.listeners.filter (fun x => x == l) := by
        rfl
      rw [this]
      have h2 : (s.listeners.filter (fun x => x == l)) = List.replicate (s.listeners.count l) l := by
        rw [List.filter_beq]
      rw [h2, hs]
      rfl
    have happ : ∀ (x y : List (Nat × AlgoExecution)),
        deliveredTo l (x ++ y) = deliveredTo l x ++ deliveredTo l y := by
      intro x y
      simp [deliveredTo]
    by_cases h : (g ob).bidOrder.price - (g ob).offerOrder.price ≤ 1 / 128
    · have hl : (s.AddOrder g ob).1.listeners = s.listeners := by
        rw [AddOrder_emit g s ob h]
      simp only [BondAlgoExecutionService.AddOrders, emissions, emittedBy_emit g s ob h,
        Option.toList, happ]
      rw [ih _ (by rw [hl]; exact hs)]
      rw [AddOrder_emit g s ob h]
      simp only [hd]
    · simp only [BondAlgoExecutionService.AddOrders, emissions, emittedBy_skip g s ob h,
        Option.toList, happ]
      rw [ih _ (by rw [AddOrder_skip g s ob h]; exact hs)]
      rw [AddOrder_skip g s ob h]
      simp [deliveredTo]

/-- The callbacks of a fan-out that are addressed to a listener registered once. -/
theorem deliveredTo_fanout {V : Type} (h : Nat) (ls : List Nat) (v : V)
    (hcount : ls.count h = 1) : deliveredTo h (ls.map (fun l => (l, v))) = [v] := by
  have hgen : ∀ l : List Nat,
      deliveredTo h (l.map (fun x => (x, v))) = List.replicate (l.count h) v := by
    intro l
    induction l with
    | nil => rfl
    | cons x rest ih =>
      unfold deliveredTo at ih ⊢
      by_cases hx : x = h
      · subst hx
        simp [List.filter_cons, ih, List.replicate_succ]
      · have hne : ¬ (x == h) = true := by simpa using hx
        simp [List.filter_cons, hx, ih, List.count_cons, hne]
  rw [hgen, hcount]
  rfl

/-- The order emitted by a call, as read off the counter and the cache, is the order the
call passes to every listener; a call that emits nothing calls no listener; and a listener
registered once receives exactly the emitted order. -/
theorem emittedBy_delivered (g : OrderBook → BidOffer) (s : BondAlgoExecutionService)
    (ob : OrderBook) :
    (∀ a : AlgoExecution, emittedBy g s ob = some a →
      (s.AddOrder g ob).2 = s.listeners.map (fun x => (x, a))) ∧
    (emittedBy g s ob = none → (s.AddOrder g ob).2 = []) ∧
    (∀ l : Nat, s.listeners.count l = 1 →
      deliveredTo l (s.AddOrder g ob).2 = (emittedBy g s ob).toList) := by
  by_cases h : (g ob).bidOrder.price - (g ob).offerOrder.price ≤ 1 / 128
  · rw [emittedBy_emit g s ob h, AddOrder_emit g s ob h]
    refine ⟨?_, ?_, ?_⟩
    · intro a ha
      rw [← Option.some.inj ha]
    · intro hn
      exact absurd hn (by simp)
    · intro l hs
      dsimp only
      rw [deliveredTo_fanout l s.listeners _ hs]
      rfl
  · rw [emittedBy_skip g s ob h, AddOrder_skip g s ob h]
    refine ⟨?_, ?_, ?_⟩
    · intro a ha
      exact absurd ha (by simp)
    · intro _
      rfl
    · intro l _
      rfl

/-- Best bid and offer of the crossed book. -/
theorem crossedBook_best : crossedBook.GetBestBidOffer =
    ⟨⟨100 + 1 / 32, 1000000, PricingSide.BID⟩, ⟨100 + 4 / 256, 2000000, PricingSide.OFFER⟩⟩ := by
  rfl

/-- C4: on a fresh service on which a listener `l` is registered once (among any listeners),
for every sequence of order books fed to `AddOrder`: after every initial part of the
sequence the counter equals the number of execution orders passed to `l` so far; the `k`-th
order passed to `l` (from 0) has side OFFER for even `k` and BID for odd `k`, however many
books without emission are interleaved; and in every state each call either changes nothing
and calls no listener, or stores one order under the product id, passes it to every
listener and adds one to the counter, so that the counter moves by the number of orders
the call passes to `l`, which is 0 or 1. -/
theorem C4_AddOrder_counter_counts_emissions (g : OrderBook → BidOffer) (ls : List Nat)
    (l : Nat) (obs : List OrderBook) (hl : ls.count l = 1) :
    (∀ n : Nat,
      ((BondAlgoExecutionService.freshWith ls).AddOrders g (obs.take n)).1.counter =
        ((deliveredTo l
          ((BondAlgoExecutionService.freshWith ls).AddOrders g (obs.take n)).2).length : Int)) ∧
    (∀ (k : Nat) (a : AlgoExecution),
      (deliveredTo l ((BondAlgoExecutionService.freshWith ls).AddOrders g obs).2)[k]? = some a →
        a.order.side = if k % 2 = 0 then PricingSide.OFFER else PricingSide.BID) ∧
    (∀ (s : BondAlgoExecutionService) (ob : OrderBook),
      ((s.AddOrder g ob).2 = [] ∧ (s.AddOrder g ob).1 = s) ∨
      (∃ a : AlgoExecution,
        (s.AddOrder g ob).2 = s.listeners.map (fun x => (x, a)) ∧
        (s.AddOrder g ob).1.algoexecutionMap.find ob.product.productId = some a ∧
        (s.AddOrder g ob).1.counter = s.counter + 1)) ∧
    (∀ (s : BondAlgoExecutionService) (ob : OrderBook), s.listeners.count l = 1 →
      (s.AddOrder g ob).1.counter =
        s.counter + ((deliveredTo l (s.AddOrder g ob).2).length : Int) ∧
      (deliveredTo l (s.AddOrder g ob).2).length ≤ 1) := by
  have hfresh : (BondAlgoExecutionService.freshWith ls).listeners.count l = 1 := hl
  refine ⟨?_, ?_, ?_, ?_⟩
  · intro n
    obtain ⟨h1, _⟩ := AddOrders_invariant g (obs.take n)
      (BondAlgoExecutionService.freshWith ls) (by simp [BondAlgoExecutionService.freshWith])
    rw [deliveredTo_AddOrders g l (obs.take n) _ hfresh, h1]
    simp [BondAlgoExecutionService.freshWith]
  · intro k a hk
    obtain ⟨_, h2⟩ := AddOrders_invariant g obs
      (BondAlgoExecutionService.freshWith ls) (by simp [BondAlgoExecutionService.freshWith])
    rw [deliveredTo_AddOrders g l obs _ hfresh] at hk
    rw [h2 k a hk]
    simp only [BondAlgoExecutionService.freshWith, zero_add]
    have : ((k : Int) % 2 = 0) ↔ (k % 2 = 0) := by omega
    simp only [this]
  · intro s ob
    by_cases h : (g ob).bidOrder.price - (g ob).offerOrder.price ≤ 1 / 128
    · right
      rw [AddOrder_emit g s ob h]
      exact ⟨_, rfl, SMap.find_upsert_self _ _ _, rfl⟩
    · left
      rw [AddOrder_skip g s ob h]
      exact ⟨rfl, rfl⟩
  · intro s ob hs
    by_cases h : (g ob).bidOrder.price - (g ob).offerOrder.price ≤ 1 / 128
    · rw [AddOrder_emit g s ob h]
      dsimp only
      rw [deliveredTo_fanout l s.listeners _ hs]
      exact ⟨rfl, by simp⟩
    · rw [AddOrder_skip g s ob h]
      simp [deliveredTo]

/-- C4 on a fresh service with one listener, for the emit scenario book, then the crossed
book on which nothing is emitted, then the emit scenario book again: the listener receives
two orders, on sides OFFER and BID, the counter is 1 after the first two books and 2 at the
end. -/
theorem C4_AddOrder_counter_counts_emissions_witness :
    [7].count 7 = 1 ∧
    (deliveredTo 7 ((BondAlgoExecutionService.freshWith [7]).AddOrders
        OrderBook.GetBestBidOffer [tightBook, crossedBook, tightBook]).2).map
      (fun a => a.order.side) = [PricingSide.OFFER, PricingSide.BID] ∧
    ((BondAlgoExecutionService.freshWith [7]).AddOrders OrderBook.GetBestBidOffer
        [tightBook, crossedBook]).1.counter = 1 ∧
    ((BondAlgoExecutionService.freshWith [7]).AddOrders OrderBook.GetBestBidOffer
        [tightBook, crossedBook, tightBook]).1.counter = 2 := by
  have ht : (OrderBook.GetBestBidOffer tightBook).bidOrder.price
      - (OrderBook.GetBestBidOffer tightBook).offerOrder.price ≤ 1 / 128 := by
    rw [tightBook_best]; norm_num
  have hc : ¬ (OrderBook.GetBestBidOffer crossedBook).bidOrder.price
      - (OrderBook.GetBestBidOffer crossedBook).offerOrder.price ≤ 1 / 128 := by
    rw [crossedBook_best]; norm_num
  obtain ⟨h1, h2, _, _⟩ :=
    C4_AddOrder_counter_counts_emissions OrderBook.GetBestBidOffer [7] 7
      [tightBook, crossedBook, tightBook] (by decide)
  have hd3 : deliveredTo 7 ((BondAlgoExecutionService.freshWith [7]).AddOrders
      OrderBook.GetBestBidOffer [tightBook, crossedBook, tightBook]).2
      = [⟨builtOrder tightBook.GetBestBidOffer sampleBond 0⟩,
          ⟨builtOrder tightBook.GetBestBidOffer sampleBond 1⟩] := by
    simp only [BondAlgoExecutionService.AddOrders, AddOrder_emit _ _ _ ht,
      AddOrder_skip _ _ _ hc]
    rfl
  have hd2 : deliveredTo 7 ((BondAlgoExecutionService.freshWith [7]).AddOrders
      OrderBook.GetBestBidOffer [tightBook, crossedBook]).2
      = [⟨builtOrder tightBook.GetBestBidOffer sampleBond 0⟩] := by
    simp only [BondAlgoExecutionService.AddOrders, AddOrder_emit _ _ _ ht,
      AddOrder_skip _ _ _ hc]
    rfl
  have k0 := h2 0 _ (by rw [hd3]; rfl)
  have k1 := h2 1 _ (by rw [hd3]; rfl)
  have c2 := h1 2
  have c3 := h1 3
  simp only [List.take] at c2 c3
  rw [hd2] at c2
  rw [hd3] at c3
  refine ⟨by decide, ?_, c2, c3⟩
  rw [hd3]
  simp only [List.map_cons, List.map_nil, k0, k1]
  rfl

/-! ### Decimal numerals -/

/-- A decimal digit character is a digit, is not white space or a sign, and has the value it
denotes. -/
theorem digitChar_props (d : Nat) (h : d < 10) :
    (Nat.digitChar d).isDigit = true ∧ isspace (Nat.digitChar d) = false ∧
    Nat.digitChar d ≠ '-' ∧ Nat.digitChar d ≠ '+' ∧ (Nat.digitChar d).toNat - 48 = d := by
  interval_cases d <;> decide

/-- A digit character is neither white space nor a sign. -/
theorem isDigit_not_special (c : Char) (h : c.isDigit = true) :
    isspace c = false ∧ c ≠ '-' ∧ c ≠ '+' := by
  refine ⟨?_, ?_, ?_⟩
  · cases hs : isspace c with
    | false => rfl
    | true =>
      simp only [isspace, Bool.or_eq_true, decide_eq_true_eq] at hs
      rcases hs with ((((h1 | h1) | h1) | h1) | h1) | h1 <;> (subst h1; simp [Char.isDigit] at h)
  · rintro rfl; simp [Char.isDigit] at h
  · rintro rfl; simp [Char.isDigit] at h

/-- Reading one more digit multiplies the value by ten and adds the digit. -/
theorem digitsValue_append_single (l : List Char) (c : Char) :
    digitsValue (l ++ [c]) = 10 * digitsValue l + (c.toNat - 48) := by
  simp [digitsValue, List.foldl_append]

/-- Value of the digits produced by the numeral loop, with enough fuel. -/
theorem toDigitsCore_value (fuel : Nat) :
    ∀ (n : Nat) (ds : List Char), n < fuel →
      (Nat.toDigitsCore 10 fuel n ds).foldl (fun acc c => 10 * acc + (c.toNat - 48)) 0 =
        ds.foldl (fun acc c => 10 * acc + (c.toNat - 48)) n := by
  induction fuel with
  | zero => intro n ds h; omega
  | succ fuel ih =>
    intro n ds h
    have hd := (digitChar_props (n % 10) (Nat.mod_lt _ (by decide))).2.2.2.2
    unfold Nat.toDigitsCore
    dsimp only
    by_cases h0 : n / 10 = 0
    · rw [if_pos h0]
      simp only [List.foldl_cons, hd]
      congr 1
      omega
    · rw [if_neg h0]
      rw [ih (n / 10) _ (by omega)]
      simp only [List.foldl_cons, hd]
      congr 1
      omega

/-- Reading back the decimal numeral of `n` gives `n`. -/
theorem digitsValue_natToString (n : Nat) : digitsValue (natToString n) = n := by
  unfold digitsValue natToString Nat.toDigits
  rw [toDigitsCore_value (n + 1) n [] (by omega)]
  rfl

/-- The numeral loop produces digit characters only. -/
theorem toDigitsCore_isDigit (fuel : Nat) :
    ∀ (n : Nat) (ds : List Char), (∀ c ∈ ds, c.isDigit = true) →
      ∀ c ∈ Nat.toDigitsCore 10 fuel n ds, c.isDigit = true := by
  induction fuel with
  | zero => intro n ds h c hc; exact h c hc
  | succ fuel ih =>
    intro n ds h
    have hd := (digitChar_props (n % 10) (Nat.mod_lt _ (by decide))).1
    have hds : ∀ c ∈ Nat.digitChar (n % 10) :: ds, c.isDigit = true := by
      intro c hc
      rcases List.mem_cons.mp hc with rfl | hc
      · exact hd
      · exact h c hc
    unfold Nat.toDigitsCore
    dsimp only
    by_cases h0 : n / 10 = 0
    · rw [if_pos h0]; exact hds
    · rw [if_neg h0]; exact ih _ _ hds

/-- The decimal numeral of `n` consists of digit characters. -/
theorem natToString_isDigit (n : Nat) : ∀ c ∈ natToString n, c.isDigit = true :=
  toDigitsCore_isDigit (n + 1) n [] (by simp)

/-- The numeral loop produces at least one character. -/
theorem toDigitsCore_ne_nil (fuel : Nat) :
    ∀ (n : Nat) (ds : List Char), (ds ≠ [] ∨ 0 < fuel) → Nat.toDigitsCore 10 fuel n ds ≠ [] := by
  induction fuel with
  | zero =>
    intro n ds h
    rcases h with h | h
    · exact h
    · omega
  | succ fuel ih =>
    intro n ds _
    unfold Nat.toDigitsCore
    dsimp only
    by_cases h0 : n / 10 = 0
    · rw [if_pos h0]; simp
    · rw [if_neg h0]; exact ih _ _ (Or.inl (by simp))

/-- The decimal numeral of `n` is not empty. -/
theorem natToString_ne_nil (n : Nat) : natToString n ≠ [] :=
  toDigitsCore_ne_nil (n + 1) n [] (Or.inr (by omega))

/-- Value of a run of digit characters given by its digits, most significant first. -/
theorem digitsValue_map_digitChar (ds : List Nat) (h : ∀ d ∈ ds, d < 10) :
    digitsValue (ds.map Nat.digitChar) = Nat.ofDigits 10 ds.reverse := by
  induction ds using List.reverseRecOn with
  | nil => rfl
  | append_singleton l d ih =>
    have hl : ∀ x ∈ l, x < 10 := fun x hx => h x (List.mem_append_left _ hx)
    have hd : d < 10 := h d (by simp)
    rw [List.map_append, List.map_singleton, digitsValue_append_single, ih hl,
      (digitChar_props d hd).2.2.2.2, List.reverse_append, List.reverse_singleton,
      List.singleton_append, Nat.ofDigits_cons]
    omega

/-! ### Stream extraction and splitting -/

/-- Extraction from a stream whose unread characters are a non-empty run of digits: the
run is consumed entirely and its value is stored, capped at `INT_MAX`. -/
theorem extractInt_digits (ds : List Char) (hne : ds ≠ [])
    (hd : ∀ c ∈ ds, c.isDigit = true) :
    extractInt ds = some (min INT_MAX (digitsValue ds : Int), []) := by
  cases ds with
  | nil => exact absurd rfl hne
  | cons c rest =>
    have hc := hd c (by simp)
    obtain ⟨hsp, hm, hp⟩ := isDigit_not_special c hc
    have htake : (c :: rest).takeWhile Char.isDigit = c :: rest :=
      List.takeWhile_eq_self_iff.mpr hd
    have hdrop : (c :: rest).dropWhile Char.isDigit = [] :=
      List.dropWhile_eq_nil_iff.mpr hd
    have hws : (c :: rest).dropWhile isspace = c :: rest := by
      simp [List.dropWhile, hsp]
    unfold extractInt
    rw [hws]
    have hsign : ¬ (c = '-' ∨ c = '+') := by
      rintro (h | h)
      · exact hm h
      · exact hp h
    simp only [hsign, if_false, htake, hdrop, decide_eq_false hm, Bool.false_eq_true,
      reduceCtorEq]
    have h0 : (0 : Int) ≤ (digitsValue (c :: rest) : Int) := Int.natCast_nonneg _
    have : max INT_MIN (min INT_MAX (digitsValue (c :: rest) : Int)) =
        min INT_MAX (digitsValue (c :: rest) : Int) := by
      apply max_eq_right
      unfold INT_MIN INT_MAX
      omega
    rw [this]

/-- Splitting at the first separator when the text before it has none. -/
theorem boostSplit_append_sep (sep : Char) (l r : List Char) (h : ∀ c ∈ l, c ≠ sep) :
    boostSplit sep (l ++ sep :: r) = l :: boostSplit sep r := by
  induction l with
  | nil => simp [boostSplit]
  | cons c l ih =>
    have hc : c ≠ sep := h c (by simp)
    have hl : ∀ x ∈ l, x ≠ sep := fun x hx => h x (List.mem_cons_of_mem _ hx)
    rw [List.cons_append, boostSplit, if_neg hc, ih hl]

/-- A text without separator is a single piece. -/
theorem boostSplit_no_sep (sep : Char) (l : List Char) (h : ∀ c ∈ l, c ≠ sep) :
    boostSplit sep l = [l] := by
  induction l with
  | nil => rfl
  | cons c l ih =>
    have hc : c ≠ sep := h c (by simp)
    have hl : ∀ x ∈ l, x ≠ sep := fun x hx => h x (List.mem_cons_of_mem _ hx)
    rw [boostSplit, if_neg hc, ih hl]

/-- Two digit characters written for a number below 100 read back as that number. -/
theorem digitsValue_two (a : Nat) (h : a < 100) :
    digitsValue [Nat.digitChar (a / 10), Nat.digitChar (a % 10)] = a := by
  have h1 := (digitChar_props (a / 10) (by omega)).2.2.2.2
  have h2 := (digitChar_props (a % 10) (by omega)).2.2.2.2
  simp only [digitsValue, List.foldl_cons, List.foldl_nil, h1, h2]
  omega

/-- Decoding of a well-formed string from a drained stream, for an integer part given as a
run of digit characters: the integer part is capped at `INT_MAX`. -/
theorem StringtoPrice_wellformed (iii : List Char) (a b : Nat) (sc : Char)
    (hne : iii ≠ []) (hd : ∀ c ∈ iii, c.isDigit = true) (ha : a < 32)
    (hb : (sc = '+' ∧ b = 4) ∨ (sc = Nat.digitChar b ∧ b < 8)) :
    StringtoPrice [] (iii ++ ['-', Nat.digitChar (a / 10), Nat.digitChar (a % 10), sc]) =
      some (((min INT_MAX (digitsValue iii : Int) : Int) : ℚ) + (a : ℚ) / 32 + (b : ℚ) / 256,
        []) := by
  have hx := digitChar_props (a / 10) (by omega)
  have hy := digitChar_props (a % 10) (by omega)
  have hsc : sc ≠ '-' := by
    rcases hb with ⟨h, _⟩ | ⟨h, hb⟩
    · rw [h]; decide
    · rw [h]; exact (digitChar_props b (by omega)).2.2.1
  have hsplit : boostSplit '-'
      (iii ++ ['-', Nat.digitChar (a / 10), Nat.digitChar (a % 10), sc]) =
      [iii, [Nat.digitChar (a / 10), Nat.digitChar (a % 10), sc]] := by
    rw [boostSplit_append_sep '-' iii _ (fun c hc => (isDigit_not_special c (hd c hc)).2.1)]
    rw [boostSplit_no_sep]
    intro c hc
    simp only [List.mem_cons, List.mem_singleton, List.not_mem_nil, or_false] at hc
    rcases hc with rfl | rfl | rfl
    · exact hx.2.2.1
    · exact hy.2.2.1
    · exact hsc
  have hxy : extractInt [Nat.digitChar (a / 10), Nat.digitChar (a % 10)] =
      some ((a : Int), []) := by
    rw [extractInt_digits _ (by simp)]
    · rw [digitsValue_two a (by omega)]
      have : min INT_MAX (a : Int) = (a : Int) := by
        apply min_eq_right
        unfold INT_MAX
        omega
      rw [this]
    · intro c hc
      simp only [List.mem_cons, List.mem_singleton, List.not_mem_nil, or_false] at hc
      rcases hc with rfl | rfl
      · exact hx.1
      · exact hy.1
  unfold StringtoPrice
  rw [hsplit]
  simp only [StringtoType, List.nil_append, extractInt_digits iii hne hd, substr,
    List.length_cons, List.length_nil, List.drop, List.take, Nat.zero_le, if_true,
    Nat.le_refl, hxy, Nat.reduceAdd, Nat.reduceLeDiff]
  rcases hb with ⟨h, hb4⟩ | ⟨h, hb8⟩
  · subst h; subst hb4
    simp
  · have hbp := digitChar_props b (by omega)
    have hplus : ¬ ([sc] = ['+']) := by
      rw [h]
      intro hc
      exact hbp.2.2.2.1 (List.head_eq_of_cons_eq hc)
    have hz : extractInt [sc] = some ((b : Int), []) := by
      rw [extractInt_digits _ (by simp)]
      · have hv : digitsValue [sc] = b := by
          rw [h]
          simp only [digitsValue, List.foldl_cons, List.foldl_nil, hbp.2.2.2.2]
          omega
        rw [hv]
        have : min INT_MAX (b : Int) = (b : Int) := by
          apply min_eq_right
          unfold INT_MAX
          omega
        rw [this]
      · intro c hc
        simp only [List.mem_singleton] at hc
        rw [hc, h]
        exact hbp.1
    simp only [hplus, if_false, hz]
    simp

/-- Conversion to `int` of an integral value within the `int` range. -/
theorem toInt_intCast (z : Int) (h1 : INT_MIN ≤ z) (h2 : z ≤ INT_MAX) :
    toInt (z : ℚ) = some z := by
  unfold toInt
  simp only [Int.floor_intCast, Int.ceil_intCast, ite_self, h1, h2, and_self, if_true]

/-- The numeral written by `std::to_string` for a natural number. -/
theorem to_string_natCast (n : Nat) : to_string (n : Int) = natToString n := by
  unfold to_string
  have : ¬ ((n : Int) < 0) := by omega
  rw [if_neg this, Int.natAbs_ofNat]

/-- The 32nds, with the leading zero for values below ten, are the two digits of `a`. -/
theorem two_digit_output (a : Nat) (ha : a < 32) (out : List Char) :
    (if (a : Int) < 10 then out ++ ['0'] else out) ++ to_string (a : Int) =
      out ++ [Nat.digitChar (a / 10), Nat.digitChar (a % 10)] := by
  rw [to_string_natCast]
  interval_cases a <;> simp [natToString] <;> decide

/-- The 256ths digit is written as `plusDigit`. -/
theorem last_digit_output (b : Nat) (hb : b < 8) (out : List Char) :
    (if (b : Int) = 4 then out ++ ['+'] else out ++ to_string (b : Int)) =
      out ++ [plusDigit b] := by
  rw [to_string_natCast]
  interval_cases b <;> simp [natToString, plusDigit] <;> decide

/-- Encoding of a representable price whose integer part fits in `int`. -/
theorem PricetoString_representable (n a b : Nat) (hn : (n : Int) ≤ INT_MAX) (ha : a < 32)
    (hb : b < 8) :
    PricetoString ((n : ℚ) + (a : ℚ) / 32 + (b : ℚ) / 256) = some (fractionalString n a b) := by
  have haq : (a : ℚ) ≤ 31 := by exact_mod_cast Nat.le_of_lt_succ ha
  have hbq : (b : ℚ) ≤ 7 := by exact_mod_cast Nat.le_of_lt_succ hb
  have ha0 : (0 : ℚ) ≤ (a : ℚ) := Nat.cast_nonneg a
  have hb0 : (0 : ℚ) ≤ (b : ℚ) := Nat.cast_nonneg b
  have hfloor : ⌊(n : ℚ) + (a : ℚ) / 32 + (b : ℚ) / 256⌋ = (n : Int) := by
    rw [Int.floor_eq_iff]
    push_cast
    constructor <;> linarith
  have hfloor1 : ⌊((n : ℚ) + (a : ℚ) / 32 + (b : ℚ) / 256 - ((n : Int) : ℚ)) * 32⌋
      = (a : Int) := by
    rw [Int.floor_eq_iff]
    push_cast
    constructor <;> linarith
  have hlast : ((n : ℚ) + (a : ℚ) / 32 + (b : ℚ) / 256 - ((n : Int) : ℚ)) * 256
      - (((a : Int) * 8 : Int) : ℚ) = ((b : Int) : ℚ) := by
    push_cast
    ring
  have hmin : INT_MIN ≤ (n : Int) := by unfold INT_MIN; omega
  unfold PricetoString
  rw [hfloor, toInt_intCast _ hmin hn]
  dsimp only
  rw [hfloor1, toInt_intCast _ (by unfold INT_MIN; omega) (by unfold INT_MAX; omega)]
  dsimp only
  rw [hlast, toInt_intCast _ (by unfold INT_MIN; omega) (by unfold INT_MAX; omega)]
  dsimp only
  rw [two_digit_output a ha, last_digit_output b hb, to_string_natCast]
  simp [fractionalString]

/-! ### Claims on the fractional price notation -/

/-- C5 as stated fails twice.  The example value is wrong: `99-293` is decoded to
99 + 29/32 + 3/256 = 99.91796875, not to 99.918359375.  And beyond the `int` range the
integer part is capped: the well-formed string `2147483648-000`, whose integer part is the
numeral of 2147483648, is decoded to 2147483647. -/
theorem C5_StringtoPrice_counterexample :
    StringtoPrice [] "99-293".toList = some (9991796875 / 100000000, []) ∧
    (9991796875 / 100000000 : ℚ) ≠ 99918359375 / 1000000000 ∧
    "2147483648-000".toList =
        [2, 1, 4, 7, 4, 8, 3, 6, 4, 8].map Nat.digitChar ++
          ['-', Nat.digitChar (0 / 10), Nat.digitChar (0 % 10), Nat.digitChar 0] ∧
    Nat.ofDigits 10 [2, 1, 4, 7, 4, 8, 3, 6, 4, 8].reverse = 2147483648 ∧
    StringtoPrice [] "2147483648-000".toList = some (2147483647, []) ∧
    (2147483647 : ℚ) ≠
      ((2147483648 : Nat) : ℚ) + ((0 : Nat) : ℚ) / 32 + ((0 : Nat) : ℚ) / 256 := by
  refine ⟨?_, by norm_num, by decide, by norm_num [Nat.ofDigits], ?_, by norm_num⟩
  · simp [StringtoPrice, boostSplit, StringtoType, extractInt, substr, isspace, digitsValue,
      INT_MAX, INT_MIN, Char.isDigit]
    norm_num
  · simp [StringtoPrice, boostSplit, StringtoType, extractInt, substr, isspace, digitsValue,
      INT_MAX, INT_MIN, Char.isDigit]

/-- C5 (amended): for every well-formed string `III-FFS` (`III` a non-empty run of decimal
digits `ds` whose value is at most 2147483647, `FF` two digits denoting `a ≤ 31`, `S`
either `+`, read as 4, or a digit `b ≤ 7`), `StringtoPrice` on a drained stream returns
exactly `III + a/32 + b/256` and leaves the stream drained. -/
theorem C5_StringtoPrice_decodes (ds : List Nat) (a b : Nat) (sc : Char)
    (hne : ds ≠ []) (hdig : ∀ d ∈ ds, d < 10)
    (hrange : Nat.ofDigits 10 ds.reverse ≤ 2147483647) (ha : a < 32)
    (hb : (sc = '+' ∧ b = 4) ∨ (sc = Nat.digitChar b ∧ b < 8)) :
    StringtoPrice []
        (ds.map Nat.digitChar ++ ['-', Nat.digitChar (a / 10), Nat.digitChar (a % 10), sc]) =
      some (((Nat.ofDigits 10 ds.reverse : Nat) : ℚ) + (a : ℚ) / 32 + (b : ℚ) / 256, []) := by
  have hd : ∀ c ∈ ds.map Nat.digitChar, c.isDigit = true := by
    intro c hc
    obtain ⟨d, hdmem, rfl⟩ := List.mem_map.mp hc
    exact (digitChar_props d (hdig d hdmem)).1
  have hne2 : ds.map Nat.digitChar ≠ [] := by
    intro h
    exact hne (List.map_eq_nil_iff.mp h)
  rw [StringtoPrice_wellformed _ a b sc hne2 hd ha hb, digitsValue_map_digitChar ds hdig]
  have hmin : min INT_MAX ((Nat.ofDigits 10 ds.reverse : Nat) : Int)
      = ((Nat.ofDigits 10 ds.reverse : Nat) : Int) := by
    apply min_eq_right
    unfold INT_MAX
    omega
  rw [hmin]
  simp

/-- C5 at the two strings of the decode scenario: `99-293` is decoded to 99.91796875 and
`100-00+` to 100.015625. -/
theorem C5_StringtoPrice_decodes_witness :
    StringtoPrice [] "99-293".toList = some (9991796875 / 100000000, []) ∧
    StringtoPrice [] "100-00+".toList = some (100015625 / 1000000, []) := by
  have h1 := C5_StringtoPrice_decodes [9, 9] 29 3 '3' (by decide) (by decide)
    (by norm_num [Nat.ofDigits]) (by decide) (Or.inr ⟨by decide, by decide⟩)
  have h2 := C5_StringtoPrice_decodes [1, 0, 0] 0 4 '+' (by decide) (by decide)
    (by norm_num [Nat.ofDigits]) (by decide) (Or.inl ⟨rfl, rfl⟩)
  have e1 : "99-293".toList =
      [9, 9].map Nat.digitChar ++ ['-', Nat.digitChar (29 / 10), Nat.digitChar (29 % 10), '3'] := by
    decide
  have e2 : "100-00+".toList =
      [1, 0, 0].map Nat.digitChar ++ ['-', Nat.digitChar (0 / 10), Nat.digitChar (0 % 10), '+'] := by
    decide
  rw [e1, e2, h1, h2]
  constructor <;> norm_num [Nat.ofDigits]

/-- C6 as stated fails beyond the `int` range: for the price 2147483648 the conversion of
its integer part to `int` is undefined, and the string the claim announces,
`2147483648-000`, would not decode back to the price but to 2147483647. -/
theorem C6_encode_decode_fails_beyond_int :
    PricetoString (((2147483648 : Nat) : ℚ) + ((0 : Nat) : ℚ) / 32 + ((0 : Nat) : ℚ) / 256)
      = none ∧
    StringtoPrice []
        (natToString 2147483648 ++
          ['-', Nat.digitChar (0 / 10), Nat.digitChar (0 % 10), plusDigit 0])
      = some (2147483647, []) ∧
    (2147483647 : ℚ) ≠ ((2147483648 : Nat) : ℚ) + ((0 : Nat) : ℚ) / 32 + ((0 : Nat) : ℚ) / 256 := by
  refine ⟨?_, ?_, by norm_num⟩
  · have hf : ⌊((2147483648 : Nat) : ℚ) + ((0 : Nat) : ℚ) / 32 + ((0 : Nat) : ℚ) / 256⌋
        = 2147483648 := by
      rw [Int.floor_eq_iff]
      norm_num
    unfold PricetoString
    rw [hf]
    have ht : toInt ((2147483648 : Int) : ℚ) = none := by
      unfold toInt
      simp only [Int.floor_intCast, Int.ceil_intCast, ite_self]
      decide
    rw [ht]
  · have e : natToString 2147483648 ++
        ['-', Nat.digitChar (0 / 10), Nat.digitChar (0 % 10), plusDigit 0]
        = "2147483648-000".toList := by decide
    rw [e]
    simp [StringtoPrice, boostSplit, StringtoType, extractInt, substr, isspace, digitsValue,
      INT_MAX, INT_MIN, Char.isDigit]

/-- C6 (amended): for every price `x = n + a/32 + b/256` with `0 ≤ n ≤ 2147483647`,
`a ≤ 31` and `b ≤ 7`, `PricetoString x` is the decimal numeral of `n`, a dash, `a` on
exactly two digits and `b` as one digit, 4 being written `+`; and `StringtoPrice` decodes
that string back to `x`. -/
theorem C6_decode_after_encode (n a b : Nat) (hn : n ≤ 2147483647) (ha : a < 32)
    (hb : b < 8) :
    PricetoString ((n : ℚ) + (a : ℚ) / 32 + (b : ℚ) / 256) =
      some (natToString n ++
        ['-', Nat.digitChar (a / 10), Nat.digitChar (a % 10),
          if b = 4 then '+' else Nat.digitChar b]) ∧
    StringtoPrice []
        (natToString n ++
          ['-', Nat.digitChar (a / 10), Nat.digitChar (a % 10),
            if b = 4 then '+' else Nat.digitChar b]) =
      some ((n : ℚ) + (a : ℚ) / 32 + (b : ℚ) / 256, []) := by
  have hn2 : (n : Int) ≤ INT_MAX := by unfold INT_MAX; omega
  constructor
  · exact PricetoString_representable n a b hn2 ha hb
  · have hsc : ((if b = 4 then '+' else Nat.digitChar b) = '+' ∧ b = 4) ∨
        ((if b = 4 then '+' else Nat.digitChar b) = Nat.digitChar b ∧ b < 8) := by
      by_cases h4 : b = 4
      · left; simp [h4]
      · right; simp [h4, hb]
    rw [StringtoPrice_wellformed (natToString n) a b _ (natToString_ne_nil n)
      (natToString_isDigit n) ha hsc, digitsValue_natToString]
    have hmin : min INT_MAX (n : Int) = (n : Int) := min_eq_right hn2
    rw [hmin]
    simp

/-- C6 at the price 99.91796875 = 99 + 29/32 + 3/256, encoded as `99-293`. -/
theorem C6_decode_after_encode_witness :
    (99 : Nat) ≤ 2147483647 ∧ (29 : Nat) < 32 ∧ (3 : Nat) < 8 ∧
    PricetoString (((99 : Nat) : ℚ) + ((29 : Nat) : ℚ) / 32 + ((3 : Nat) : ℚ) / 256) =
      some (natToString 99 ++
        ['-', Nat.digitChar (29 / 10), Nat.digitChar (29 % 10),
          if 3 = 4 then '+' else Nat.digitChar 3]) ∧
    natToString 99 ++
        ['-', Nat.digitChar (29 / 10), Nat.digitChar (29 % 10),
          if 3 = 4 then '+' else Nat.digitChar 3] = "99-293".toList :=
  ⟨by decide, by decide, by decide,
    (C6_decode_after_encode 99 29 3 (by decide) (by decide) (by decide)).1, by decide⟩

/-- C7 as stated fails beyond the `int` range: `2147483648-000` is decoded to 2147483647,
which is encoded as `2147483647-000`, a different string. -/
theorem C7_decode_encode_fails_beyond_int :
    fractionalString 2147483648 0 0 = "2147483648-000".toList ∧
    StringtoPrice [] (fractionalString 2147483648 0 0) = some (2147483647, []) ∧
    PricetoString 2147483647 = some "2147483647-000".toList ∧
    "2147483647-000".toList ≠ fractionalString 2147483648 0 0 := by
  have e : fractionalString 2147483648 0 0 = "2147483648-000".toList := by decide
  refine ⟨e, ?_, ?_, ?_⟩
  · rw [e]
    simp [StringtoPrice, boostSplit, StringtoType, extractInt, substr, isspace, digitsValue,
      INT_MAX, INT_MIN, Char.isDigit]
  · have h := PricetoString_representable 2147483647 0 0 (by decide) (by decide) (by decide)
    have e2 : fractionalString 2147483647 0 0 = "2147483647-000".toList := by decide
    rw [e2] at h
    rw [← h]
    norm_num
  · rw [e]; decide

/-- C7 (amended): for every string `s = III-FFS` where `III` is the decimal numeral of an
integer `0 ≤ n ≤ 2147483647`, `FF` the two digits of `a ≤ 31` and `S` the character of
`b ≤ 7` among `0,1,2,3,+,5,6,7`, decoding `s` from a drained stream succeeds with some price
`x` and encoding `x` gives back `s`. -/
theorem C7_encode_after_decode (n a b : Nat) (hn : n ≤ 2147483647) (ha : a < 32)
    (hb : b < 8) :
    ∃ x : ℚ, StringtoPrice [] (fractionalString n a b) = some (x, []) ∧
      PricetoString x = some (fractionalString n a b) := by
  have hn2 : (n : Int) ≤ INT_MAX := by unfold INT_MAX; omega
  have hsc : (plusDigit b = '+' ∧ b = 4) ∨ (plusDigit b = Nat.digitChar b ∧ b < 8) := by
    by_cases h4 : b = 4
    · left; simp [plusDigit, h4]
    · right; simp [plusDigit, h4, hb]
  refine ⟨(n : ℚ) + (a : ℚ) / 32 + (b : ℚ) / 256, ?_,
    PricetoString_representable n a b hn2 ha hb⟩
  unfold fractionalString
  rw [StringtoPrice_wellformed (natToString n) a b _ (natToString_ne_nil n)
    (natToString_isDigit n) ha hsc, digitsValue_natToString]
  have hmin : min INT_MAX (n : Int) = (n : Int) := min_eq_right hn2
  rw [hmin]
  simp

/-- C7 at the string `100-00+`. -/
theorem C7_encode_after_decode_witness :
    (100 : Nat) ≤ 2147483647 ∧ (0 : Nat) < 32 ∧ (4 : Nat) < 8 ∧
    fractionalString 100 0 4 = "100-00+".toList ∧
    ∃ x : ℚ, StringtoPrice [] (fractionalString 100 0 4) = some (x, []) ∧
      PricetoString x = some (fractionalString 100 0 4) :=
  ⟨by decide, by decide, by decide, by decide,
    C7_encode_after_decode 100 0 4 (by decide) (by decide) (by decide)⟩

/-! ### Position stage -/

/-- A value in the 64-bit range is stored as it is. -/
theorem wrapLong_of_range (x : Int) (h1 : LONG_MIN ≤ x) (h2 : x ≤ LONG_MAX) :
    wrapLong x = x := by
  unfold wrapLong
  unfold LONG_MIN at h1
  unfold LONG_MAX at h2
  omega

/-- A value of magnitude at most `LONG_MAX` is stored as it is. -/
theorem wrapLong_of_natAbs (x : Int) (h : (x.natAbs : Int) ≤ LONG_MAX) : wrapLong x = x := by
  unfold wrapLong
  unfold LONG_MAX at h
  omega

/-- A sum of magnitudes is not negative. -/
theorem sum_natAbs_nonneg {α : Type} (l : List α) (f : α → Int) :
    0 ≤ (l.map (fun e => ((f e).natAbs : Int))).sum := by
  apply List.sum_nonneg
  intro x hx
  obtain ⟨e, _, rfl⟩ := List.mem_map.mp hx
  omega

/-- After `m[k] = v` the read `m[k]` gives `v`. -/
theorem SMap.getD_upsert_self {V : Type} (m : SMap V) (k : String) (v d : V) :
    (m.upsert k v).getD k d = v := by
  simp [SMap.getD, SMap.find_upsert_self]

/-- The assignment `m[k] = v` does not change the read of another key. -/
theorem SMap.getD_upsert_of_ne {V : Type} (m : SMap V) (k k2 : String) (v d : V)
    (hne : k2 ≠ k) : (m.upsert k v).getD k2 d = m.getD k2 d := by
  simp [SMap.getD, SMap.find_upsert_of_ne m k k2 v hne]

/-- The value returned by `GetPosition` is the stored entry, or zero. -/
theorem GetPosition_value (p : Position) (book : String) :
    (p.GetPosition book).1 = p.positions.getD book 0 := by
  unfold Position.GetPosition SMap.getD
  cases p.positions.find book <;> rfl

/-- The summation loop over the entries adds the stored values to its start value, as long
as the magnitudes involved add up to at most `LONG_MAX`. -/
theorem foldl_add_values (m : SMap Int) (acc : Int)
    (h : (acc.natAbs : Int) + (m.map (fun e => (e.2.natAbs : Int))).sum ≤ LONG_MAX) :
    m.foldl (fun sum element => wrapLong (sum + element.2)) acc
      = acc + (m.map (fun e => e.2)).sum := by
  induction m generalizing acc with
  | nil => simp
  | cons e rest ih =>
    simp only [List.map_cons, List.sum_cons] at h
    have hnn : 0 ≤ (rest.map (fun e => (e.2.natAbs : Int))).sum :=
      sum_natAbs_nonneg rest (fun e => e.2)
    have hw : wrapLong (acc + e.2) = acc + e.2 :=
      wrapLong_of_natAbs _ (by omega)
    simp only [List.foldl_cons, List.map_cons, List.sum_cons, hw]
    rw [ih (acc + e.2) (by omega)]
    omega

/-- The aggregate position is the sum of the stored values, as long as their magnitudes add
up to at most `LONG_MAX`. -/
theorem GetAggregatePosition_eq_sum (p : Position)
    (h : (p.positions.map (fun e => (e.2.natAbs : Int))).sum ≤ LONG_MAX) :
    p.GetAggregatePosition = (p.positions.map (fun e => e.2)).sum := by
  unfold Position.GetAggregatePosition
  rw [foldl_add_values _ _ (by simpa using h)]
  omega

/-- The update `m[k] += q` moves the sum of the stored values by `q`. -/
theorem sum_values_upsert (m : SMap Int) (k : String) (q : Int) :
    ((m.upsert k (m.getD k 0 + q)).map (fun e => e.2)).sum
      = (m.map (fun e => e.2)).sum + q := by
  induction m with
  | nil => simp [SMap.upsert, SMap.getD, SMap.find]
  | cons e rest ih =>
    obtain ⟨k', v'⟩ := e
    by_cases h : k' = k
    · simp only [SMap.upsert, SMap.getD, SMap.find, h, if_true, Option.getD_some,
        List.map_cons, List.sum_cons]
      omega
    · have hg : SMap.getD ((k', v') :: rest) k 0 = SMap.getD rest k 0 := by
        simp [SMap.getD, SMap.find, h]
      rw [hg]
      simp only [SMap.upsert, h, if_false, List.map_cons, List.sum_cons, ih]
      omega

/-- The update `m[k] += q` moves the sum of the magnitudes of the stored values by at most
the magnitude of `q`. -/
theorem sum_natAbs_values_upsert (m : SMap Int) (k : String) (q : Int) :
    ((m.upsert k (m.getD k 0 + q)).map (fun e => (e.2.natAbs : Int))).sum
      ≤ (m.map (fun e => (e.2.natAbs : Int))).sum + (q.natAbs : Int) := by
  induction m with
  | nil => simp [SMap.upsert, SMap.getD, SMap.find]
  | cons e rest ih =>
    obtain ⟨k', v'⟩ := e
    by_cases h : k' = k
    · simp only [SMap.upsert, SMap.getD, SMap.find, h, if_true, Option.getD_some,
        List.map_cons, List.sum_cons]
      omega
    · have hg : SMap.getD ((k', v') :: rest) k 0 = SMap.getD rest k 0 := by
        simp [SMap.getD, SMap.find, h]
      rw [hg]
      simp only [SMap.upsert, h, if_false, List.map_cons, List.sum_cons]
      omega

/-- The magnitude of a stored value is at most the sum of the magnitudes of all stored
values. -/
theorem natAbs_getD_le (m : SMap Int) (k : String) :
    ((m.getD k 0).natAbs : Int) ≤ (m.map (fun e => (e.2.natAbs : Int))).sum := by
  induction m with
  | nil => simp [SMap.getD, SMap.find]
  | cons e rest ih =>
    obtain ⟨k', v'⟩ := e
    have hnn : 0 ≤ (rest.map (fun e => (e.2.natAbs : Int))).sum :=
      sum_natAbs_nonneg rest (fun e => e.2)
    by_cases h : k' = k
    · simp only [SMap.getD, SMap.find, h, if_true, Option.getD_some, List.map_cons,
        List.sum_cons]
      omega
    · have hg : SMap.getD ((k', v') :: rest) k 0 = SMap.getD rest k 0 := by
        simp [SMap.getD, SMap.find, h]
      rw [hg]
      simp only [List.map_cons, List.sum_cons]
      omega

/-- The update `positions[book] += quantity` when the new entry is in the 64-bit range. -/
theorem AddNewPosition_of_range (p : Position) (book : String) (q : Int)
    (h1 : LONG_MIN ≤ p.positions.getD book 0 + q)
    (h2 : p.positions.getD book 0 + q ≤ LONG_MAX) :
    p.AddNewPosition book q =
      { p with positions := p.positions.upsert book (p.positions.getD book 0 + q) } := by
  unfold Position.AddNewPosition
  rw [wrapLong_of_range _ h1 h2]

/-- Adding to a book moves the aggregate position by the quantity added, as long as the
magnitudes of the entries and of the quantity add up to at most `LONG_MAX`. -/
theorem GetAggregatePosition_AddNewPosition (p : Position) (book : String) (q : Int)
    (h : (p.positions.map (fun e => (e.2.natAbs : Int))).sum + (q.natAbs : Int) ≤ LONG_MAX) :
    (p.AddNewPosition book q).GetAggregatePosition = p.GetAggregatePosition + q ∧
    ((p.AddNewPosition book q).positions.map (fun e => (e.2.natAbs : Int))).sum
      ≤ (p.positions.map (fun e => (e.2.natAbs : Int))).sum + (q.natAbs : Int) := by
  have hnn : (0 : Int) ≤ (q.natAbs : Int) := by omega
  have hg := natAbs_getD_le p.positions book
  have hL : LONG_MIN = -9223372036854775808 := rfl
  have hM : LONG_MAX = 9223372036854775807 := rfl
  have hpos : p.AddNewPosition book q =
      { p with positions := p.positions.upsert book (p.positions.getD book 0 + q) } :=
    AddNewPosition_of_range p book q (by omega) (by omega)
  have hs := sum_natAbs_values_upsert p.positions book q
  rw [hpos]
  refine ⟨?_, hs⟩
  rw [GetAggregatePosition_eq_sum _ (by dsimp only; omega),
    GetAggregatePosition_eq_sum _ (by omega)]
  exact sum_values_upsert p.positions book q

/-- Keys after `m[k] = v`: unchanged when `k` is present, `k` appended otherwise. -/
theorem keys_upsert {V : Type} (m : SMap V) (k : String) (v : V) :
    (m.upsert k v).map (fun e => e.1) =
      if k ∈ m.map (fun e => e.1) then m.map (fun e => e.1)
      else m.map (fun e => e.1) ++ [k] := by
  induction m with
  | nil => simp [SMap.upsert]
  | cons e rest ih =>
    obtain ⟨k', v'⟩ := e
    by_cases h : k' = k
    · subst h
      simp [SMap.upsert]
    · have hne : ¬ k = k' := fun hk => h hk.symm
      simp only [SMap.upsert, h, if_false, List.map_cons, ih, List.mem_cons, hne, false_or]
      split <;> simp

/-- The assignment `m[k] = v` keeps the keys distinct. -/
theorem keys_nodup_upsert {V : Type} (m : SMap V) (k : String) (v : V)
    (h : (m.map (fun e => e.1)).Nodup) : ((m.upsert k v).map (fun e => e.1)).Nodup := by
  rw [keys_upsert]
  split
  · exact h
  · rename_i hk
    rw [List.nodup_append]
    refine ⟨h, List.nodup_singleton k, ?_⟩
    intro a ha hb
    rw [List.mem_singleton] at hb
    subst hb
    exact hk ha

/-- Key set after `m[k] = v`. -/
theorem keys_toFinset_upsert {V : Type} (m : SMap V) (k : String) (v : V) :
    ((m.upsert k v).map (fun e => e.1)).toFinset
      = insert k (m.map (fun e => e.1)).toFinset := by
  rw [keys_upsert]
  split
  · rename_i hk
    rw [Finset.insert_eq_of_mem (List.mem_toFinset.mpr hk)]
  · ext x
    simp only [List.toFinset_append, List.toFinset_cons, List.toFinset_nil,
      Finset.mem_union, Finset.mem_insert, List.mem_toFinset, Finset.mem_singleton,
      insert_emptyc_eq]
    tauto

/-- With distinct keys, the sum of the stored values is the sum of the lookups over the
key set. -/
theorem sum_values_eq_sum_keys (m : SMap Int) (h : (m.map (fun e => e.1)).Nodup) :
    (m.map (fun e => e.2)).sum = ∑ k ∈ (m.map (fun e => e.1)).toFinset, m.getD k 0 := by
  induction m with
  | nil => simp
  | cons e rest ih =>
    obtain ⟨k', v'⟩ := e
    simp only [List.map_cons, List.nodup_cons] at h
    obtain ⟨hnot, hnd⟩ := h
    simp only [List.map_cons, List.sum_cons, List.toFinset_cons]
    rw [Finset.sum_insert (by simpa using hnot), ih hnd]
    have h1 : SMap.getD ((k', v') :: rest) k' 0 = v' := by
      simp [SMap.getD, SMap.find]
    rw [h1]
    congr 1
    apply Finset.sum_congr rfl
    intro x hx
    have hx' : x ∈ rest.map (fun e => e.1) := List.mem_toFinset.mp hx
    have hne : ¬ k' = x := by
      intro hk
      subst hk
      exact hnot hx'
    simp [SMap.getD, SMap.find, hne]

/-- The signed quantity has the magnitude of the quantity. -/
theorem signedQuantity_natAbs (t : Trade) :
    (signedQuantity t).natAbs = t.quantity.natAbs := by
  unfold signedQuantity
  cases t.side <;> simp

/-- Effect of `AddTrade` on the cache and on the listeners. -/
theorem AddTrade_eq (s : BondPositionService) (trade : Trade) :
    s.AddTrade trade =
      ({ s with positionMap := s.positionMap.upsert trade.product.productId
                  ((s.positionMap.getD trade.product.productId Position.default).AddNewPosition
                    trade.book (wrapLong (signedQuantity trade))) },
        s.listeners.map (fun l =>
          (l, (s.positionMap.getD trade.product.productId Position.default).AddNewPosition
                trade.book (wrapLong (signedQuantity trade))))) := by
  have hq : (if trade.side = Side.BUY then (1 : Int) else -1) * trade.quantity
      = signedQuantity trade := by
    unfold signedQuantity
    cases trade.side <;> simp
  unfold BondPositionService.AddTrade
  simp only [hq]

/-- C8 as stated fails beyond the 64-bit range: with 9,223,372,036,854,775,807 in book
TRSY1, a BUY of 1 in that book leaves −9,223,372,036,854,775,808 there, not the old
position plus the quantity. -/
theorem C8_AddTrade_wraps_beyond_long :
    (samplePositionService.AddTrade maxBuyTrade).1.positionMap.find "912828M80"
      = some ⟨sampleBond, [("TRSY1", 9223372036854775807)]⟩ ∧
    signedQuantity unitBuyTrade = 1 ∧
    ((samplePositionService.AddTrade maxBuyTrade).1.AddTrade unitBuyTrade).1.positionMap.find
      "912828M80" = some ⟨sampleBond, [("TRSY1", -9223372036854775808)]⟩ ∧
    (-9223372036854775808 : Int) ≠ 9223372036854775807 + signedQuantity unitBuyTrade := by
  decide

/-- C8: for every trade on a product that has an entry `p` in the position cache, if the
signed quantity (`+quantity` for BUY, `−quantity` for SELL) and the new position of the
trade's book are in the 64-bit range, `AddTrade` stores a position `p'` for that product
whose entry for the trade's book is the old one plus the signed quantity, whose other books
and product are those of `p`; the entries of all other products are unchanged, and every
listener's `ProcessUpdate` receives `p'`. -/
theorem C8_AddTrade_updates_book (s : BondPositionService) (trade : Trade) (p : Position)
    (hp : s.positionMap.find trade.product.productId = some p)
    (hq : LONG_MIN ≤ signedQuantity trade ∧ signedQuantity trade ≤ LONG_MAX)
    (hnew : LONG_MIN ≤ (p.GetPosition trade.book).1 + signedQuantity trade ∧
      (p.GetPosition trade.book).1 + signedQuantity trade ≤ LONG_MAX) :
    ∃ p' : Position,
      (s.AddTrade trade).1.positionMap.find trade.product.productId = some p' ∧
      (p'.GetPosition trade.book).1 = (p.GetPosition trade.book).1 + signedQuantity trade ∧
      (∀ b : String, b ≠ trade.book → (p'.GetPosition b).1 = (p.GetPosition b).1) ∧
      p'.product = p.product ∧
      (∀ k : String, k ≠ trade.product.productId →
        (s.AddTrade trade).1.positionMap.find k = s.positionMap.find k) ∧
      (s.AddTrade trade).2 = s.listeners.map (fun l => (l, p')) ∧
      (s.AddTrade trade).1.listeners = s.listeners := by
  have hg : s.positionMap.getD trade.product.productId Position.default = p := by
    simp [SMap.getD, hp]
  rw [GetPosition_value] at hnew
  rw [AddTrade_eq, hg, wrapLong_of_range _ hq.1 hq.2,
    AddNewPosition_of_range p trade.book _ hnew.1 hnew.2]
  refine ⟨{ p with positions :=
      p.positions.upsert trade.book (p.positions.getD trade.book 0 + signedQuantity trade) },
    ?_, ?_, ?_, rfl, ?_, rfl, rfl⟩
  · exact SMap.find_upsert_self _ _ _
  · rw [GetPosition_value, GetPosition_value]
    exact SMap.getD_upsert_self _ _ _ _
  · intro b hb
    rw [GetPosition_value, GetPosition_value]
    exact SMap.getD_upsert_of_ne _ _ _ _ _ hb
  · intro k hk
    exact SMap.find_upsert_of_ne _ _ _ _ hk

/-- C8 at the position-cascade scenario: the first trade (BUY 1,000,000 in TRSY1) is applied
to the freshly constructed service; after the second trade (SELL 400,000 in TRSY2) the
stored position has TRSY1 = +1,000,000, TRSY2 = −400,000 and aggregate 600,000. -/
theorem C8_AddTrade_updates_book_witness :
    samplePositionService.positionMap.find buyTrade.product.productId
      = some (Position.ofProduct sampleBond) ∧
    (LONG_MIN ≤ signedQuantity buyTrade ∧ signedQuantity buyTrade ≤ LONG_MAX) ∧
    (∃ p' : Position,
      (samplePositionService.AddTrade buyTrade).1.positionMap.find
          buyTrade.product.productId = some p' ∧
      (p'.GetPosition buyTrade.book).1 =
        ((Position.ofProduct sampleBond).GetPosition buyTrade.book).1
          + signedQuantity buyTrade ∧
      (samplePositionService.AddTrade buyTrade).2 =
        samplePositionService.listeners.map (fun l => (l, p'))) ∧
    ((samplePositionService.AddTrades [buyTrade, sellTrade]).GetData "912828M80").positions
      = [("TRSY1", 1000000), ("TRSY2", -400000)] ∧
    ((samplePositionService.AddTrades [buyTrade, sellTrade]).GetData
      "912828M80").GetAggregatePosition = 600000 := by
  have hp : samplePositionService.positionMap.find buyTrade.product.productId
      = some (Position.ofProduct sampleBond) := by decide
  obtain ⟨p', h1, h2, _, _, _, h6, _⟩ :=
    C8_AddTrade_updates_book samplePositionService buyTrade (Position.ofProduct sampleBond) hp
      (by decide) (by decide)
  exact ⟨hp, by decide, ⟨p', h1, h2, h6⟩, by decide, by decide⟩

/-- Registering listeners does not touch the position cache. -/
theorem AddListeners_positionMap (ls : List Nat) (s : BondPositionService) :
    (s.AddListeners ls).positionMap = s.positionMap := by
  unfold BondPositionService.AddListeners
  induction ls generalizing s with
  | nil => rfl
  | cons l rest ih =>
    rw [List.foldl_cons, ih]
    rfl

/-- A successful lookup returns an entry of the map. -/
theorem find_mem {V : Type} (m : SMap V) (k : String) (v : V) (h : m.find k = some v) :
    (k, v) ∈ m := by
  induction m with
  | nil => simp [SMap.find] at h
  | cons e rest ih =>
    obtain ⟨k', v'⟩ := e
    by_cases hk : k' = k
    · simp only [SMap.find, hk, if_true, Option.some.injEq] at h
      subst h; subst hk
      simp
    · simp only [SMap.find, hk, if_false] at h
      exact List.mem_cons_of_mem _ (ih h)

/-- Every position of a freshly constructed service has no book. -/
theorem new_positions_empty (ps : BondProductService) (ticker : String) (pid : String) :
    ((BondPositionService.new ps ticker).positionMap.getD pid Position.default).positions
      = [] := by
  have hfold : ∀ (bs : List Bond) (m : SMap Position),
      (∀ e ∈ m, e.2.positions = []) →
      ∀ e ∈ bs.foldl (fun m b => m.insert b.productId (Position.ofProduct b)) m,
        e.2.positions = [] := by
    intro bs
    induction bs with
    | nil => intro m hm; exact hm
    | cons b rest ih =>
      intro m hm
      rw [List.foldl_cons]
      apply ih
      intro e he
      unfold SMap.insert at he
      cases hf : m.find b.productId with
      | some v =>
        rw [hf] at he
        exact hm e he
      | none =>
        rw [hf] at he
        rcases List.mem_append.mp he with h | h
        · exact hm e h
        · rw [List.mem_singleton] at h
          rw [h]
          rfl
  unfold SMap.getD
  cases hf : (BondPositionService.new ps ticker).positionMap.find pid with
  | none => rfl
  | some v =>
    exact hfold _ [] (by simp) (pid, v) (find_mem _ _ _ hf)

/-- A new trade on the product extends the product's trades. -/
theorem tradesOn_append_same (pid : String) (hist : List Trade) (t : Trade)
    (h : t.product.productId = pid) : tradesOn pid (hist ++ [t]) = tradesOn pid hist ++ [t] := by
  simp [tradesOn, List.filter_append, h]

/-- A new trade on another product leaves the product's trades unchanged. -/
theorem tradesOn_append_other (pid : String) (hist : List Trade) (t : Trade)
    (h : t.product.productId ≠ pid) : tradesOn pid (hist ++ [t]) = tradesOn pid hist := by
  simp [tradesOn, List.filter_append, h]

/-- Bookkeeping invariant of the position cache along a history of trades whose gross
quantity on the product is at most `LONG_MAX`: the books of the product's position are
distinct, they are the books seen in its trades, the stored values add up to the net signed
quantity of its trades, their magnitudes to at most the gross quantity, and the aggregate
position is the net signed quantity. -/
theorem AddTrades_invariant (s0 : BondPositionService)
    (h0 : ∀ pid, (s0.positionMap.getD pid Position.default).positions = [])
    (hist : List Trade) (pid : String) (hb : grossQuantity pid hist ≤ LONG_MAX) :
    (((s0.AddTrades hist).positionMap.getD pid Position.default).positions.map
        (fun e => e.1)).Nodup ∧
    (((s0.AddTrades hist).positionMap.getD pid Position.default).positions.map
        (fun e => e.1)).toFinset = booksOn pid hist ∧
    (((s0.AddTrades hist).positionMap.getD pid Position.default).positions.map
        (fun e => e.2)).sum = netQuantity pid hist ∧
    (((s0.AddTrades hist).positionMap.getD pid Position.default).positions.map
        (fun e => (e.2.natAbs : Int))).sum ≤ grossQuantity pid hist ∧
    ((s0.AddTrades hist).positionMap.getD pid Position.default).GetAggregatePosition
      = netQuantity pid hist := by
  have hM : LONG_MAX = 9223372036854775807 := rfl
  have hL : LONG_MIN = -9223372036854775808 := rfl
  suffices hmain :
      (((s0.AddTrades hist).positionMap.getD pid Position.default).positions.map
          (fun e => e.1)).Nodup ∧
      (((s0.AddTrades hist).positionMap.getD pid Position.default).positions.map
          (fun e => e.1)).toFinset = booksOn pid hist ∧
      (((s0.AddTrades hist).positionMap.getD pid Position.default).positions.map
          (fun e => e.2)).sum = netQuantity pid hist ∧
      (((s0.AddTrades hist).positionMap.getD pid Position.default).positions.map
          (fun e => (e.2.natAbs : Int))).sum ≤ grossQuantity pid hist by
    obtain ⟨i1, i2, i3, i4⟩ := hmain
    refine ⟨i1, i2, i3, i4, ?_⟩
    rw [GetAggregatePosition_eq_sum _ (by omega), i3]
  induction hist using List.reverseRecOn generalizing pid with
  | nil =>
    simp only [BondPositionService.AddTrades, List.foldl_nil]
    rw [h0 pid]
    simp [booksOn, netQuantity, grossQuantity, tradesOn]
  | append_singleton hist t ih =>
    have hstep : s0.AddTrades (hist ++ [t]) = ((s0.AddTrades hist).AddTrade t).1 := by
      simp [BondPositionService.AddTrades, List.foldl_append]
    rw [hstep, AddTrade_eq]
    by_cases hpid : t.product.productId = pid
    · have hgross : grossQuantity pid (hist ++ [t])
          = grossQuantity pid hist + (t.quantity.natAbs : Int) := by
        unfold grossQuantity
        rw [tradesOn_append_same _ _ _ hpid]
        simp
      obtain ⟨i1, i2, i3, i4⟩ := ih pid (by omega)
      subst hpid
      have hsq := signedQuantity_natAbs t
      have hg := natAbs_getD_le
        ((s0.AddTrades hist).positionMap.getD t.product.productId
          Position.default).positions t.book
      have hw : wrapLong (signedQuantity t) = signedQuantity t :=
        wrapLong_of_natAbs _ (by omega)
      rw [hw, AddNewPosition_of_range _ _ _ (by omega) (by omega)]
      simp only [SMap.getD_upsert_self]
      have hs := sum_natAbs_values_upsert
        ((s0.AddTrades hist).positionMap.getD t.product.productId
          Position.default).positions t.book (signedQuantity t)
      refine ⟨?_, ?_, ?_, ?_⟩
      · exact keys_nodup_upsert _ _ _ i1
      · rw [keys_toFinset_upsert, i2]
        unfold booksOn
        rw [tradesOn_append_same _ _ _ rfl]
        ext x
        simp only [List.map_append, List.map_cons, List.map_nil, List.toFinset_append,
          List.toFinset_cons, List.toFinset_nil, Finset.mem_insert, Finset.mem_union,
          Finset.mem_singleton, insert_emptyc_eq]
        tauto
      · rw [sum_values_upsert, i3]
        unfold netQuantity
        rw [tradesOn_append_same _ _ _ rfl]
        simp
      · omega
    · have hne : pid ≠ t.product.productId := fun h => hpid h.symm
      have hgross : grossQuantity pid (hist ++ [t]) = grossQuantity pid hist := by
        unfold grossQuantity
        rw [tradesOn_append_other _ _ _ hpid]
      simp only [SMap.getD_upsert_of_ne _ _ _ _ _ hne]
      unfold booksOn netQuantity
      rw [hgross, tradesOn_append_other _ _ _ hpid]
      exact ih pid (by omega)

/-- C9 as stated fails beyond the 64-bit range: after BUY 9,223,372,036,854,775,807 in
TRSY1 and BUY 1 in TRSY2 the two book positions add up to 9,223,372,036,854,775,808, which
is also the net signed quantity, but `GetAggregatePosition` is
−9,223,372,036,854,775,808. -/
theorem C9_aggregate_wraps_beyond_long :
    ((samplePositionService.AddTrades [maxBuyTrade, unitBuyTrade2]).GetData
      "912828M80").positions = [("TRSY1", 9223372036854775807), ("TRSY2", 1)] ∧
    ((samplePositionService.AddTrades [maxBuyTrade, unitBuyTrade2]).GetData
      "912828M80").GetAggregatePosition = -9223372036854775808 ∧
    netQuantity "912828M80" [maxBuyTrade, unitBuyTrade2] = 9223372036854775808 ∧
    ((samplePositionService.AddTrades [maxBuyTrade, unitBuyTrade2]).GetData
      "912828M80").GetAggregatePosition ≠ netQuantity "912828M80" [maxBuyTrade, unitBuyTrade2] := by
  decide

/-- C9: for every sequence of trades `ts` followed by a trade `t`, applied to a freshly
constructed position service (with any listeners registered), if the gross quantity of the
trades booked so far on the product of `t` (the sum of the absolute values of their
quantities) is at most 9,223,372,036,854,775,807, the position `p` stored and fanned out
by the last `AddTrade` satisfies `GetAggregatePosition = Σ GetPosition(b)` over the books
`b` that have appeared in a trade on that product so far, and this equals the net signed
quantity of all trades booked on that product so far. -/
theorem C9_aggregate_is_sum_of_books (ps : BondProductService) (ticker : String)
    (ls : List Nat) (ts : List Trade) (t : Trade)
    (hb : grossQuantity t.product.productId (ts ++ [t]) ≤ LONG_MAX) :
    ∃ p : Position,
      ((((BondPositionService.new ps ticker).AddListeners ls).AddTrades ts).AddTrade
          t).1.positionMap.find t.product.productId = some p ∧
      ((((BondPositionService.new ps ticker).AddListeners ls).AddTrades ts).AddTrade t).2 =
        ((((BondPositionService.new ps ticker).AddListeners ls).AddTrades ts).listeners.map
          (fun l => (l, p))) ∧
      p.GetAggregatePosition
        = ∑ b ∈ booksOn t.product.productId (ts ++ [t]), (p.GetPosition b).1 ∧
      p.GetAggregatePosition = netQuantity t.product.productId (ts ++ [t]) := by
  have h0 : ∀ pid, ((((BondPositionService.new ps ticker).AddListeners ls).positionMap).getD
      pid Position.default).positions = [] := by
    intro pid
    rw [AddListeners_positionMap]
    exact new_positions_empty ps ticker pid
  obtain ⟨i1, i2, i3, _, i5⟩ := AddTrades_invariant _ h0 (ts ++ [t]) t.product.productId hb
  have hstep : ((BondPositionService.new ps ticker).AddListeners ls).AddTrades (ts ++ [t])
      = ((((BondPositionService.new ps ticker).AddListeners ls).AddTrades ts).AddTrade t).1 := by
    simp [BondPositionService.AddTrades, List.foldl_append]
  rw [hstep] at i1 i2 i3 i5
  rw [AddTrade_eq] at i1 i2 i3 i5 ⊢
  simp only [SMap.getD_upsert_self] at i1 i2 i3 i5
  refine ⟨_, SMap.find_upsert_self _ _ _, rfl, ?_, i5⟩
  rw [i5, ← i3, sum_values_eq_sum_keys _ i1, i2]
  apply Finset.sum_congr rfl
  intro b _
  rw [GetPosition_value]

/-- C9 at the position-cascade scenario: BUY 1,000,000 in TRSY1 then SELL 400,000 in TRSY2
on the freshly constructed sample service; the gross quantity is 1,400,000 and the position
fanned out by the second trade has aggregate 600,000, the net signed quantity. -/
theorem C9_aggregate_is_sum_of_books_witness :
    grossQuantity sellTrade.product.productId ([buyTrade] ++ [sellTrade]) ≤ LONG_MAX ∧
    netQuantity sellTrade.product.productId ([buyTrade] ++ [sellTrade]) = 600000 ∧
    ∃ p : Position,
      ((((BondPositionService.new sampleProducts "T").AddListeners [3]).AddTrades
          [buyTrade]).AddTrade sellTrade).1.positionMap.find sellTrade.product.productId
        = some p ∧
      p.GetAggregatePosition = 600000 := by
  have hb : grossQuantity sellTrade.product.productId ([buyTrade] ++ [sellTrade])
      ≤ LONG_MAX := by decide
  have hn : netQuantity sellTrade.product.productId ([buyTrade] ++ [sellTrade]) = 600000 := by
    decide
  obtain ⟨p, h1, _, _, h4⟩ :=
    C9_aggregate_is_sum_of_books sampleProducts "T" [3] [buyTrade] sellTrade hb
  exact ⟨hb, hn, p, h1, by rw [h4, hn]⟩

/-! ### Risk stage -/

/-- C10 as stated fails beyond the 64-bit range: with 9,223,372,036,854,775,807 stored for
the bond, a position update with aggregate 1 stores −9,223,372,036,854,775,808, not the
aggregate plus the stored quantity. -/
theorem C10_AddPosition_wraps_beyond_long :
    maxPosition.GetAggregatePosition = 9223372036854775807 ∧
    unitPosition.GetAggregatePosition = 1 ∧
    (sampleRiskService.AddPosition maxPosition).bind
        (fun r => riskQuantity r.1 "912828M80") = some 9223372036854775807 ∧
    ((sampleRiskService.AddPosition maxPosition).bind
        (fun r => r.1.AddPosition unitPosition)).bind
        (fun r => riskQuantity r.1 "912828M80") = some (-9223372036854775808) ∧
    (-9223372036854775808 : Int) ≠ unitPosition.GetAggregatePosition + 9223372036854775807 := by
  refine ⟨by decide, by decide, by rfl, by rfl, by decide⟩

/-- C10: for every position update on a bond `B` that has an entry `pv` in the PV01 cache,
if the aggregate position plus `pv.quantity` is in the 64-bit range, `AddPosition` stores
for `B` the entry with `pv`'s product and per-unit PV01 and with quantity
`aggregate position + pv.quantity`, leaves the entries of all other bonds (and the sector
cache) unchanged, and passes the new entry to every listener's `ProcessUpdate`. -/
theorem C10_AddPosition_accumulates (s : BondRiskService) (position : Position)
    (pv : PV01 Bond) (hpv : s.pv01Map.find position.product.productId = some pv)
    (hnew : LONG_MIN ≤ position.GetAggregatePosition + pv.quantity ∧
      position.GetAggregatePosition + pv.quantity ≤ LONG_MAX) :
    ∃ s' : BondRiskService,
      s.AddPosition position =
        some (s', s.listeners.map (fun l =>
          (l, (⟨pv.product, pv.pv01, position.GetAggregatePosition + pv.quantity⟩ :
            PV01 Bond)))) ∧
      s'.pv01Map.find position.product.productId =
        some ⟨pv.product, pv.pv01, position.GetAggregatePosition + pv.quantity⟩ ∧
      (∀ k : String, k ≠ position.product.productId →
        s'.pv01Map.find k = s.pv01Map.find k) ∧
      s'.bucketpv01Map = s.bucketpv01Map ∧ s'.listeners = s.listeners := by
  refine ⟨{ s with pv01Map := (s.pv01Map.upsert position.product.productId
              ⟨pv.product, pv.pv01, position.GetAggregatePosition + pv.quantity⟩) },
    ?_, ?_, ?_, rfl, rfl⟩
  · unfold BondRiskService.AddPosition Position.GetProduct
    simp only [hpv, wrapLong_of_range _ hnew.1 hnew.2]
  · exact SMap.find_upsert_self _ _ _
  · intro k hk
    exact SMap.find_upsert_of_ne _ _ _ _ hk

/-- C10 at the sample risk service: the bond's entry has quantity 0 and the incoming
position has aggregate 600,000, so the new quantity is 600,000 and the per-unit PV01 stays
0.0185; a second delivery of the same position gives 1,200,000. -/
theorem C10_AddPosition_accumulates_witness :
    sampleRiskService.pv01Map.find samplePosition.product.productId
      = some ⟨sampleBond, 185 / 10000, 0⟩ ∧
    (LONG_MIN ≤ samplePosition.GetAggregatePosition + 0 ∧
      samplePosition.GetAggregatePosition + 0 ≤ LONG_MAX) ∧
    (∃ s' : BondRiskService,
      sampleRiskService.AddPosition samplePosition =
        some (s', [(5, (⟨sampleBond, 185 / 10000, 600000⟩ : PV01 Bond))]) ∧
      s'.pv01Map.find "912828M80" = some ⟨sampleBond, 185 / 10000, 600000⟩ ∧
      ∃ s'' : BondRiskService,
        s'.AddPosition samplePosition =
          some (s'', [(5, (⟨sampleBond, 185 / 10000, 1200000⟩ : PV01 Bond))])) := by
  have hpv : sampleRiskService.pv01Map.find samplePosition.product.productId
      = some ⟨sampleBond, 185 / 10000, 0⟩ := by
    rfl
  have hagg : samplePosition.GetAggregatePosition = 600000 := by decide
  have hr0 : LONG_MIN ≤ samplePosition.GetAggregatePosition + 0 ∧
      samplePosition.GetAggregatePosition + 0 ≤ LONG_MAX := by
    rw [hagg]
    decide
  obtain ⟨s', h1, h2, _, _, h5⟩ :=
    C10_AddPosition_accumulates sampleRiskService samplePosition _ hpv hr0
  have hl : sampleRiskService.listeners = [5] := rfl
  rw [hagg, hl] at h1
  rw [hagg] at h2
  simp only [List.map_cons, List.map_nil] at h1
  simp only [add_zero] at h1 h2
  refine ⟨hpv, hr0, s', h1, h2, ?_⟩
  obtain ⟨s'', k1, _⟩ := C10_AddPosition_accumulates s' samplePosition _ h2
    (by rw [hagg]; decide)
  rw [hagg, h5, hl] at k1
  exact ⟨s'', k1⟩

/-! ### Bucketed risk -/

/-- Prices of a price map after one step of the aggregation loop. -/
theorem PriceMap.keys_add (m : PriceMap) (p : ℚ) (q : Int) :
    (m.add p q).map (fun e => e.1) =
      if p ∈ m.map (fun e => e.1) then m.map (fun e => e.1)
      else m.map (fun e => e.1) ++ [p] := by
  induction m with
  | nil => simp [PriceMap.add]
  | cons e rest ih =>
    obtain ⟨p', v'⟩ := e
    by_cases h : p' = p
    · subst h
      simp [PriceMap.add]
    · have hne : ¬ p = p' := fun hk => h hk.symm
      simp only [PriceMap.add, h, if_false, List.map_cons, ih, List.mem_cons, hne, false_or]
      split <;> simp

/-- One step of the aggregation loop keeps the prices distinct. -/
theorem PriceMap.keys_nodup_add (m : PriceMap) (p : ℚ) (q : Int)
    (h : (m.map (fun e => e.1)).Nodup) : ((m.add p q).map (fun e => e.1)).Nodup := by
  rw [PriceMap.keys_add]
  split
  · exact h
  · rename_i hk
    rw [List.nodup_append]
    refine ⟨h, List.nodup_singleton p, ?_⟩
    intro a ha hb
    rw [List.mem_singleton] at hb
    subst hb
    exact hk ha

/-- Membership of a price after one step of the aggregation loop. -/
theorem PriceMap.mem_keys_add (m : PriceMap) (p x : ℚ) (q : Int) :
    x ∈ (m.add p q).map (fun e => e.1) ↔ x ∈ m.map (fun e => e.1) ∨ x = p := by
  rw [PriceMap.keys_add]
  split
  · rename_i hk
    constructor
    · intro h; exact Or.inl h
    · rintro (h | h)
      · exact h
      · rw [h]; exact hk
  · simp

/-- Quantity stored at a price after one step of the aggregation loop at that price, when
the new quantity is in the 64-bit range. -/
theorem PriceMap.find_add_self (m : PriceMap) (p : ℚ) (q : Int)
    (h1 : LONG_MIN ≤ (m.find p).getD 0 + q) (h2 : (m.find p).getD 0 + q ≤ LONG_MAX) :
    ((m.add p q).find p).getD 0 = (m.find p).getD 0 + q := by
  induction m with
  | nil => simp [PriceMap.add, PriceMap.find]
  | cons e rest ih =>
    obtain ⟨p', v'⟩ := e
    by_cases h : p' = p
    · simp only [PriceMap.find, h, if_true, Option.getD_some] at h1 h2
      simp [PriceMap.add, PriceMap.find, h, wrapLong_of_range _ h1 h2]
    · simp only [PriceMap.find, h, if_false] at h1 h2
      simp only [PriceMap.add, PriceMap.find, h, if_false, ih h1 h2]

/-- Quantity stored at a price after one step of the aggregation loop at another price. -/
theorem PriceMap.find_add_of_ne (m : PriceMap) (p x : ℚ) (q : Int) (hne : x ≠ p) :
    (m.add p q).find x = m.find x := by
  induction m with
  | nil => simp [PriceMap.add, PriceMap.find, Ne.symm hne]
  | cons e rest ih =>
    obtain ⟨p', v'⟩ := e
    by_cases h : p' = p
    · subst h
      simp [PriceMap.add, PriceMap.find, Ne.symm hne]
    · by_cases h2 : p' = x
      · subst h2
        simp [PriceMap.add, PriceMap.find, h]
      · simp [PriceMap.add, PriceMap.find, h, h2, ih]

/-- Total quantity at a price when one more order is appended to a stack. -/
theorem quantityAt_append_single (orders : List Order) (o : Order) (p : ℚ) :
    quantityAt (orders ++ [o]) p =
      quantityAt orders p + (if o.price = p then o.quantity else 0) := by
  unfold quantityAt
  by_cases h : o.price = p
  · simp [List.filter_append, h]
  · simp [List.filter_append, h]

/-- The magnitude of the total quantity at a price is at most the gross quantity of the
stack. -/
theorem natAbs_quantityAt_le (orders : List Order) (p : ℚ) :
    ((quantityAt orders p).natAbs : Int) ≤ grossStack orders := by
  induction orders with
  | nil => simp [quantityAt, grossStack]
  | cons o rest ih =>
    unfold quantityAt grossStack at ih ⊢
    by_cases h : o.price = p
    · simp only [List.filter_cons, h, decide_True, if_true, List.map_cons, List.sum_cons]
      omega
    · simp only [List.filter_cons, h, decide_False, List.map_cons, List.sum_cons]
      simp only [Bool.false_eq_true, if_false]
      omega

/-- The aggregation loop over a stack: the prices of the map are distinct and they are the
prices of the stack. -/
theorem aggregateStack_spec (orders : List Order) :
    ((aggregateStack orders).map (fun e => e.1)).Nodup ∧
    (∀ p : ℚ, p ∈ (aggregateStack orders).map (fun e => e.1) ↔
      p ∈ orders.map (fun o => o.price)) := by
  induction orders using List.reverseRecOn with
  | nil =>
    exact ⟨by simp [aggregateStack], by simp [aggregateStack]⟩
  | append_singleton orders o ih =>
    obtain ⟨i1, i2⟩ := ih
    have hstep : aggregateStack (orders ++ [o]) =
        (aggregateStack orders).add o.price o.quantity := by
      simp [aggregateStack, List.foldl_append]
    rw [hstep]
    refine ⟨PriceMap.keys_nodup_add _ _ _ i1, ?_⟩
    intro p
    rw [PriceMap.mem_keys_add, i2 p]
    simp only [List.map_append, List.map_cons, List.map_nil, List.mem_append,
      List.mem_singleton]

/-- The aggregation loop over a stack whose gross quantity is at most `LONG_MAX`: the
quantity stored at a price is the total quantity of the stack's orders at that price. -/
theorem aggregateStack_quantity (orders : List Order) (hg : grossStack orders ≤ LONG_MAX) :
    ∀ p : ℚ, ((aggregateStack orders).find p).getD 0 = quantityAt orders p := by
  have hM : LONG_MAX = 9223372036854775807 := rfl
  have hL : LONG_MIN = -9223372036854775808 := rfl
  induction orders using List.reverseRecOn with
  | nil =>
    intro p
    simp [aggregateStack, PriceMap.find, quantityAt]
  | append_singleton orders o ih =>
    have hgross : grossStack (orders ++ [o]) = grossStack orders + (o.quantity.natAbs : Int) := by
      simp [grossStack]
    have i3 := ih (by omega)
    have hstep : aggregateStack (orders ++ [o]) =
        (aggregateStack orders).add o.price o.quantity := by
      simp [aggregateStack, List.foldl_append]
    rw [hstep]
    intro p
    rw [quantityAt_append_single]
    by_cases h : o.price = p
    · subst h
      have hb := natAbs_quantityAt_le orders o.price
      rw [PriceMap.find_add_self _ _ _ (by rw [i3]; omega) (by rw [i3]; omega), i3]
      simp
    · have hne : p ≠ o.price := fun hp => h hp.symm
      rw [PriceMap.find_add_of_ne _ _ _ _ hne, i3]
      simp [h]

/-- The reconstruction loop, for any iteration order: the prices of the new stack are
distinct, they are the prices of the old stack, and each new order carries the side of the
stack. -/
theorem rebuildStack_spec (iterate : PriceMap → PriceMap)
    (hiter : ∀ m, (iterate m).Perm m) (orders : List Order) (side : PricingSide) :
    ((rebuildStack iterate (aggregateStack orders) side).map (fun o => o.price)).Nodup ∧
    (∀ p : ℚ, p ∈ (rebuildStack iterate (aggregateStack orders) side).map (fun o => o.price)
      ↔ p ∈ orders.map (fun o => o.price)) ∧
    (∀ o ∈ rebuildStack iterate (aggregateStack orders) side, o.side = side) := by
  obtain ⟨i1, i2⟩ := aggregateStack_spec orders
  have hkeys : (rebuildStack iterate (aggregateStack orders) side).map (fun o => o.price)
      = (iterate (aggregateStack orders)).map (fun e => e.1) := by
    simp [rebuildStack, List.map_map, Function.comp]
  have hperm : ((iterate (aggregateStack orders)).map (fun e => e.1)).Perm
      ((aggregateStack orders).map (fun e => e.1)) := (hiter _).map _
  refine ⟨?_, ?_, ?_⟩
  · rw [hkeys]
    exact hperm.nodup_iff.mpr i1
  · intro p
    rw [hkeys, hperm.mem_iff, i2 p]
  · intro o ho
    obtain ⟨e, he, rfl⟩ := List.mem_map.mp ho
    rfl

/-- Effect of `AggregateDepth` on the cache, and the returned book. -/
theorem AggregateDepth_eq (iterate : PriceMap → PriceMap) (s : BondMarketDataService)
    (productId : String) :
    s.AggregateDepth iterate productId =
      ({ s with orderbookMap := (s.orderbookMap.upsert productId
          (aggregatedBook iterate (s.orderbookMap.getD productId OrderBook.default))) },
        aggregatedBook iterate (s.orderbookMap.getD productId OrderBook.default)) :=
  rfl

/-- C12: for any iteration order of the price maps, after `AggregateDepth(productId)` the
book stored for that product is the returned one, and no two orders of its bid stack and
no two orders of its offer stack have the same price. -/
theorem C12_AggregateDepth_distinct_prices (iterate : PriceMap → PriceMap)
    (hiter : ∀ m, (iterate m).Perm m) (s : BondMarketDataService) (productId : String) :
    (s.AggregateDepth iterate productId).1.orderbookMap.find productId
      = some (s.AggregateDepth iterate productId).2 ∧
    ((s.AggregateDepth iterate productId).2.bidStack.map (fun o => o.price)).Nodup ∧
    ((s.AggregateDepth iterate productId).2.offerStack.map (fun o => o.price)).Nodup := by
  refine ⟨SMap.find_upsert_self _ _ _, ?_, ?_⟩
  · exact (rebuildStack_spec iterate hiter _ PricingSide.BID).1
  · exact (rebuildStack_spec iterate hiter _ PricingSide.OFFER).1

/-- C12 at the depth-aggregation scenario, iterating the price maps in reverse insertion
order: the stored book is the returned one and its bid prices are 99 and 100. -/
theorem C12_AggregateDepth_distinct_prices_witness :
    (∀ m : PriceMap, (List.reverse m).Perm m) ∧
    (depthService.AggregateDepth List.reverse "912828M80").1.orderbookMap.find "912828M80"
      = some (depthService.AggregateDepth List.reverse "912828M80").2 ∧
    ((depthService.AggregateDepth List.reverse "912828M80").2.bidStack.map
      (fun o => o.price)).Nodup ∧
    (depthService.AggregateDepth List.reverse "912828M80").2.bidStack.map
      (fun o => o.price) = [99, 100] := by
  have h := C12_AggregateDepth_distinct_prices List.reverse List.reverse_perm depthService
    "912828M80"
  exact ⟨List.reverse_perm, h.1, h.2.1, by rfl⟩

/-- The `OnMessage` entries of two consecutive runs of events. -/
theorem onMessageCalls_append (a b : List InquiryEvent) :
    onMessageCalls (a ++ b) = onMessageCalls a ++ onMessageCalls b := by
  induction a with
  | nil => rfl
  | cons e rest ih =>
    cases e <;> simp [onMessageCalls, ih]

/-- The `SendQuote` calls of two consecutive runs of events. -/
theorem sendQuoteCalls_append (a b : List InquiryEvent) :
    sendQuoteCalls (a ++ b) = sendQuoteCalls a ++ sendQuoteCalls b := by
  induction a with
  | nil => rfl
  | cons e rest ih =>
    cases e <;> simp [sendQuoteCalls, ih]

/-- A run of `ProcessUpdate` events holds no `OnMessage` entry and no `SendQuote` call. -/
theorem calls_of_processUpdates (ls : List InquiryListener) (d : Inquiry) :
    onMessageCalls (ls.map (fun l => InquiryEvent.processUpdate l d)) = [] ∧
    sendQuoteCalls (ls.map (fun l => InquiryEvent.processUpdate l d)) = [] := by
  induction ls with
  | nil => exact ⟨rfl, rfl⟩
  | cons l rest ih => simpa [onMessageCalls, sendQuoteCalls] using ih

/-- For an inquiry that is not in state RECEIVED the listener loop only delivers the
inquiry: no listener calls back, whatever `OnMessage` is. -/
theorem notifyListeners_quiet (onMessage : BondInquiryService → Inquiry → InquiryResult)
    (ls : List InquiryListener) (s : BondInquiryService) (d : Inquiry)
    (h : d.state ≠ InquiryState.RECEIVED) :
    BondInquiryService.notifyListeners onMessage ls s d =
      some (s, ls.map (fun l => InquiryEvent.processUpdate l d)) := by
  induction ls with
  | nil => rfl
  | cons l rest ih =>
    cases l with
    | quoting =>
      simp [BondInquiryService.notifyListeners, BondInquiryListener.ProcessUpdate, h, ih]
    | sink n =>
      simp [BondInquiryService.notifyListeners, ih]

/-- An `OnMessage` call for an inquiry that is not in state RECEIVED returns at depth one:
the inquiry is stored and delivered to every listener, nothing else happens. -/
theorem OnMessage_quiet (fuel : Nat) (s : BondInquiryService) (d : Inquiry)
    (h : d.state ≠ InquiryState.RECEIVED) :
    BondInquiryService.OnMessage (fuel + 1) s d =
      some ({ s with inquiryMap := s.inquiryMap.upsert d.inquiryId d },
        InquiryEvent.onMessage d ::
          s.listeners.map (fun l => InquiryEvent.processUpdate l d)) := by
  simp only [BondInquiryService.OnMessage]
  rw [notifyListeners_quiet _ _ _ _ h]

/-- The connector's `Publish` of an inquiry that is not REJECTED: a QUOTED and then a DONE
re-emission into the service. -/
theorem Publish_not_rejected (fuel : Nat) (s : BondInquiryService) (d : Inquiry)
    (h : d.state ≠ InquiryState.REJECTED) :
    ∃ (s' : BondInquiryService) (t : List InquiryEvent),
      BondInquiryConnector.Publish (BondInquiryService.OnMessage (fuel + 1)) s d
        = some (s', t) ∧
      s'.listeners = s.listeners ∧ s'.connector = s.connector ∧
      s'.inquiryMap.find d.inquiryId =
        some ⟨d.inquiryId, d.product, d.side, d.quantity, d.price, InquiryState.DONE⟩ ∧
      (∀ k : String, k ≠ d.inquiryId → s'.inquiryMap.find k = s.inquiryMap.find k) ∧
      onMessageCalls t =
        [⟨d.inquiryId, d.product, d.side, d.quantity, d.price, InquiryState.QUOTED⟩,
          ⟨d.inquiryId, d.product, d.side, d.quantity, d.price, InquiryState.DONE⟩] ∧
      sendQuoteCalls t = [] := by
  unfold BondInquiryConnector.Publish
  rw [if_neg h]
  dsimp only
  rw [OnMessage_quiet fuel s _ (fun hq => by simp at hq)]
  dsimp only
  rw [OnMessage_quiet fuel _ _ (fun hq => by simp at hq)]
  dsimp only
  refine ⟨_, _, rfl, rfl, rfl, ?_, ?_, ?_, ?_⟩
  · exact SMap.find_upsert_self _ _ _
  · intro k hk
    dsimp only
    rw [SMap.find_upsert_of_ne _ _ _ _ hk, SMap.find_upsert_of_ne _ _ _ _ hk]
  · simp [onMessageCalls, onMessageCalls_append, (calls_of_processUpdates _ _).1]
  · simp [sendQuoteCalls, sendQuoteCalls_append, (calls_of_processUpdates _ _).2]

/-- The connector's `Publish` of a REJECTED inquiry: one re-emission of that inquiry. -/
theorem Publish_rejected (fuel : Nat) (s : BondInquiryService) (d : Inquiry)
    (h : d.state = InquiryState.REJECTED) :
    BondInquiryConnector.Publish (BondInquiryService.OnMessage (fuel + 1)) s d =
      some ({ s with inquiryMap := s.inquiryMap.upsert d.inquiryId d },
        InquiryEvent.publish d :: InquiryEvent.onMessage d ::
          s.listeners.map (fun l => InquiryEvent.processUpdate l d)) := by
  unfold BondInquiryConnector.Publish
  rw [if_pos h]
  rw [OnMessage_quiet fuel s d (by rw [h]; decide)]

/-- One run of the quoting listener for an inquiry `data` in state RECEIVED, when the
connector is set and the entry stored under the inquiry's identifier is not REJECTED and
carries the product, side and quantity of `data`: one quote of 100.0, a QUOTED and a DONE
re-emission, and the DONE inquiry at price 100.0 is stored. -/
theorem quoting_step (fuel : Nat) (s : BondInquiryService) (data inq : Inquiry)
    (hstate : data.state = InquiryState.RECEIVED) (hconn : s.connector = true)
    (hfind : s.inquiryMap.find data.inquiryId = some inq)
    (hrej : inq.state ≠ InquiryState.REJECTED)
    (hprod : inq.product = data.product) (hside : inq.side = data.side)
    (hqty : inq.quantity = data.quantity) :
    ∃ (s' : BondInquiryService) (t : List InquiryEvent),
      BondInquiryListener.ProcessUpdate (BondInquiryService.OnMessage (fuel + 1)) s data
        = some (s', t) ∧
      s'.listeners = s.listeners ∧ s'.connector = true ∧
      s'.inquiryMap.find data.inquiryId = some (doneOf data) ∧
      (∀ k : String, k ≠ data.inquiryId → s'.inquiryMap.find k = s.inquiryMap.find k) ∧
      onMessageCalls t = [quotedOf data, doneOf data] ∧
      sendQuoteCalls t = [(data.inquiryId, 100)] := by
  obtain ⟨s', t, hpub, hl, hc, hf, hother, hon, hsq⟩ :=
    Publish_not_rejected fuel s
      ⟨data.inquiryId, inq.product, inq.side, inq.quantity, 100, inq.state⟩ hrej
  refine ⟨s', InquiryEvent.sendQuote data.inquiryId 100 :: t, ?_, hl, ?_, ?_, hother, ?_, ?_⟩
  · unfold BondInquiryListener.ProcessUpdate BondInquiryService.SendQuote
    rw [if_pos hstate, if_pos hconn, hfind]
    dsimp only
    rw [hpub]
  · rw [hc, hconn]
  · rw [hf]
    simp only [doneOf, hprod, hside, hqty]
  · simp only [onMessageCalls, hon, quotedOf, doneOf, hprod, hside, hqty]
  · simp only [sendQuoteCalls, hsq]

/-- The listener loop of `OnMessage` for an inquiry in state RECEIVED, at nesting depth two:
it returns; every quoting listener sends one quote of 100.0, which re-enters `OnMessage`
with the QUOTED and then the DONE inquiry; once a quoting listener has run, the stored
entry is the DONE inquiry at price 100.0. -/
theorem notifyListeners_received (fuel : Nat) (data : Inquiry)
    (hstate : data.state = InquiryState.RECEIVED) (ls : List InquiryListener) :
    ∀ (s : BondInquiryService), s.connector = true →
      (s.inquiryMap.find data.inquiryId = some data ∨
        s.inquiryMap.find data.inquiryId = some (doneOf data)) →
      ∃ (s' : BondInquiryService) (t : List InquiryEvent),
        BondInquiryService.notifyListeners (BondInquiryService.OnMessage (fuel + 1)) ls s data
          = some (s', t) ∧
        s'.listeners = s.listeners ∧ s'.connector = true ∧
        (InquiryListener.quoting ∈ ls →
          s'.inquiryMap.find data.inquiryId = some (doneOf data)) ∧
        (InquiryListener.quoting ∉ ls → s'.inquiryMap = s.inquiryMap) ∧
        (∀ k : String, k ≠ data.inquiryId → s'.inquiryMap.find k = s.inquiryMap.find k) ∧
        onMessageCalls t = quoteRounds data ls ∧
        sendQuoteCalls t = quoteCalls data ls := by
  induction ls with
  | nil =>
    intro s hconn _
    exact ⟨s, [], rfl, rfl, hconn, by simp, fun _ => rfl, fun _ _ => rfl, rfl, rfl⟩
  | cons l rest ih =>
    intro s hconn hstored
    cases l with
    | sink n =>
      obtain ⟨s', t, hrun, hl, hc, hq, hnq, hother, hon, hsq⟩ := ih s hconn hstored
      refine ⟨s', InquiryEvent.processUpdate (InquiryListener.sink n) data :: ([] ++ t),
        ?_, hl, hc, ?_, ?_, hother, ?_, ?_⟩
      · simp only [BondInquiryService.notifyListeners, hrun]
      · intro hmem
        apply hq
        simpa using hmem
      · intro hmem
        apply hnq
        intro h
        exact hmem (List.mem_cons_of_mem _ h)
      · simpa [onMessageCalls, quoteRounds] using hon
      · simpa [sendQuoteCalls, quoteCalls] using hsq
    | quoting =>
      have hstep : ∃ (s1 : BondInquiryService) (t1 : List InquiryEvent),
          BondInquiryListener.ProcessUpdate (BondInquiryService.OnMessage (fuel + 1)) s data
            = some (s1, t1) ∧
          s1.listeners = s.listeners ∧ s1.connector = true ∧
          s1.inquiryMap.find data.inquiryId = some (doneOf data) ∧
          (∀ k : String, k ≠ data.inquiryId → s1.inquiryMap.find k = s.inquiryMap.find k) ∧
          onMessageCalls t1 = [quotedOf data, doneOf data] ∧
          sendQuoteCalls t1 = [(data.inquiryId, 100)] := by
        rcases hstored with h | h
        · exact quoting_step fuel s data data hstate hconn h (by rw [hstate]; decide)
            rfl rfl rfl
        · exact quoting_step fuel s data (doneOf data) hstate hconn h
            (by simp [doneOf]) rfl rfl rfl
      obtain ⟨s1, t1, hrun1, hl1, hc1, hf1, hother1, hon1, hsq1⟩ := hstep
      obtain ⟨s', t, hrun, hl, hc, _, hnq, hother, hon, hsq⟩ := ih s1 hc1 (Or.inr hf1)
      refine ⟨s', InquiryEvent.processUpdate InquiryListener.quoting data :: (t1 ++ t),
        ?_, ?_, hc, ?_, ?_, ?_, ?_, ?_⟩
      · simp only [BondInquiryService.notifyListeners, hrun1, hrun]
      · rw [hl, hl1]
      · intro _
        by_cases hmem : InquiryListener.quoting ∈ rest
        · obtain ⟨s2, t2, hrun2, _, _, hq2, _, _, _, _⟩ := ih s1 hc1 (Or.inr hf1)
          rw [hrun] at hrun2
          obtain ⟨rfl, rfl⟩ := Prod.mk.inj (Option.some.inj hrun2)
          exact hq2 hmem
        · rw [hnq hmem]
          exact hf1
      · intro hmem
        exact absurd (List.mem_cons_self _ _) hmem
      · intro k hk
        rw [hother k hk, hother1 k hk]
      · simp only [onMessageCalls, onMessageCalls_append, hon1, hon, quoteRounds,
          List.cons_append, List.nil_append]
      · simp only [sendQuoteCalls, sendQuoteCalls_append, hsq1, hsq, quoteCalls,
          List.cons_append, List.nil_append]

/-- With exactly one quoting listener there is one round of re-emissions and one quote. -/
theorem quoteRounds_of_count_one (data : Inquiry) (ls : List InquiryListener)
    (h : ls.count InquiryListener.quoting = 1) :
    quoteRounds data ls = [quotedOf data, doneOf data] ∧
    quoteCalls data ls = [(data.inquiryId, 100)] := by
  have hzero : ∀ l : List InquiryListener, l.count InquiryListener.quoting = 0 →
      quoteRounds data l = [] ∧ quoteCalls data l = [] := by
    intro l
    induction l with
    | nil => intro _; exact ⟨rfl, rfl⟩
    | cons x rest ih =>
      intro hc
      cases x with
      | quoting => simp at hc
      | sink n =>
        simp only [List.count_cons, beq_iff_eq, reduceCtorEq, if_false, add_zero] at hc
        simpa [quoteRounds, quoteCalls] using ih hc
  induction ls with
  | nil => simp at h
  | cons x rest ih =>
    cases x with
    | quoting =>
      simp only [List.count_cons, beq_self_eq_true, if_true] at h
      have h0 : rest.count InquiryListener.quoting = 0 := by omega
      obtain ⟨r1, r2⟩ := hzero rest h0
      simp [quoteRounds, quoteCalls, r1, r2]
    | sink n =>
      simp only [List.count_cons, beq_iff_eq, reduceCtorEq, if_false, add_zero] at h
      simpa [quoteRounds, quoteCalls] using ih h

/-- One level of `OnMessage`: store, then run the listener loop one level deeper. -/
theorem OnMessage_succ (fuel : Nat) (s : BondInquiryService) (data : Inquiry) :
    s.OnMessage (fuel + 1) data =
      match BondInquiryService.notifyListeners (BondInquiryService.OnMessage fuel) s.listeners
          { s with inquiryMap := s.inquiryMap.upsert data.inquiryId data } data with
      | none => none
      | some (s1, t1) => some (s1, InquiryEvent.onMessage data :: t1) :=
  rfl

/-- C14: with the connector set and the quoting listener registered, for every inquiry
passed to `OnMessage` in state RECEIVED, whatever its price, `OnMessage` returns (at any
depth bound of at least two) and the inquiry then stored under its identifier has state
DONE and price 100.0, with the identifier, product, side and quantity of the ingested
inquiry; the entries of other identifiers are unchanged. -/
theorem C14_received_inquiry_ends_done (fuel : Nat) (s : BondInquiryService)
    (data : Inquiry) (hconn : s.connector = true)
    (hquoting : InquiryListener.quoting ∈ s.listeners)
    (hstate : data.state = InquiryState.RECEIVED) :
    ∃ (s' : BondInquiryService) (t : List InquiryEvent),
      s.OnMessage (fuel + 2) data = some (s', t) ∧
      s'.inquiryMap.find data.inquiryId =
        some ⟨data.inquiryId, data.product, data.side, data.quantity, 100,
          InquiryState.DONE⟩ ∧
      (∀ k : String, k ≠ data.inquiryId → s'.inquiryMap.find k = s.inquiryMap.find k) := by
  obtain ⟨s', t, hrun, _, _, hq, _, hother, _, _⟩ :=
    notifyListeners_received fuel data hstate s.listeners
      { s with inquiryMap := s.inquiryMap.upsert data.inquiryId data } hconn
      (Or.inl (SMap.find_upsert_self _ _ _))
  refine ⟨s', InquiryEvent.onMessage data :: t, ?_, hq hquoting, ?_⟩
  · rw [OnMessage_succ, hrun]
  · intro k hk
    rw [hother k hk]
    exact SMap.find_upsert_of_ne _ _ _ _ hk

/-- C14 at the inquiry-flow scenario: `I1`, ingested in state RECEIVED at price 99.5 by the
service wired as in `main.cpp`, ends stored as DONE at price 100.0. -/
theorem C14_received_inquiry_ends_done_witness :
    wiredInquiryService.connector = true ∧
    InquiryListener.quoting ∈ wiredInquiryService.listeners ∧
    sampleInquiry.state = InquiryState.RECEIVED ∧ sampleInquiry.price = 995 / 10 ∧
    ∃ (s' : BondInquiryService) (t : List InquiryEvent),
      wiredInquiryService.OnMessage 2 sampleInquiry = some (s', t) ∧
      s'.inquiryMap.find "I1" =
        some ⟨"I1", sampleBond, Side.BUY, 1000000, 100, InquiryState.DONE⟩ := by
  obtain ⟨s', t, h1, h2, _⟩ :=
    C14_received_inquiry_ends_done 0 wiredInquiryService sampleInquiry rfl (by decide) rfl
  exact ⟨rfl, by decide, rfl, rfl, s', t, h1, h2⟩

/-- C15: with the connector set and the quoting listener registered once, processing one
inquiry ingested through `OnMessage` returns within nesting depth two.  Ingested in state
RECEIVED it enters `OnMessage` exactly three times (the inquiry itself, then the QUOTED and
the DONE re-emission) and calls `SendQuote` exactly once, for its identifier at 100.0;
ingested in any other state it enters `OnMessage` exactly once and never calls
`SendQuote`. -/
theorem C15_inquiry_terminates_quotes_once (fuel : Nat) (s : BondInquiryService)
    (data : Inquiry) (hconn : s.connector = true)
    (hcount : s.listeners.count InquiryListener.quoting = 1) :
    (data.state = InquiryState.RECEIVED →
      ∃ (s' : BondInquiryService) (t : List InquiryEvent),
        s.OnMessage (fuel + 2) data = some (s', t) ∧
        onMessageCalls t = [data, quotedOf data, doneOf data] ∧
        (onMessageCalls t).map (fun d => d.state) =
          [InquiryState.RECEIVED, InquiryState.QUOTED, InquiryState.DONE] ∧
        sendQuoteCalls t = [(data.inquiryId, 100)]) ∧
    (data.state ≠ InquiryState.RECEIVED →
      ∃ (s' : BondInquiryService) (t : List InquiryEvent),
        s.OnMessage (fuel + 1) data = some (s', t) ∧
        onMessageCalls t = [data] ∧ sendQuoteCalls t = []) := by
  constructor
  · intro hstate
    obtain ⟨s', t, hrun, _, _, _, _, _, hon, hsq⟩ :=
      notifyListeners_received fuel data hstate s.listeners
        { s with inquiryMap := s.inquiryMap.upsert data.inquiryId data } hconn
        (Or.inl (SMap.find_upsert_self _ _ _))
    obtain ⟨r1, r2⟩ := quoteRounds_of_count_one data s.listeners hcount
    refine ⟨s', InquiryEvent.onMessage data :: t, ?_, ?_, ?_, ?_⟩
    · rw [OnMessage_succ, hrun]
    · simp only [onMessageCalls, hon, r1]
    · simp only [onMessageCalls, hon, r1, List.map_cons, List.map_nil, hstate, quotedOf,
        doneOf]
    · simp only [sendQuoteCalls, hsq, r2]
  · intro hstate
    refine ⟨_, _, OnMessage_quiet fuel s data hstate, ?_, ?_⟩
    · simp only [onMessageCalls, (calls_of_processUpdates _ _).1]
    · simp only [sendQuoteCalls, (calls_of_processUpdates _ _).2]

/-- C15 at the service wired as in `main.cpp`: the RECEIVED inquiry `I1` enters `OnMessage`
three times and is quoted once. -/
theorem C15_inquiry_terminates_quotes_once_witness :
    wiredInquiryService.connector = true ∧
    wiredInquiryService.listeners.count InquiryListener.quoting = 1 ∧
    ∃ (s' : BondInquiryService) (t : List InquiryEvent),
      wiredInquiryService.OnMessage 2 sampleInquiry = some (s', t) ∧
      (onMessageCalls t).map (fun d => d.state) =
        [InquiryState.RECEIVED, InquiryState.QUOTED, InquiryState.DONE] ∧
      sendQuoteCalls t = [("I1", 100)] := by
  obtain ⟨s', t, h1, _, h3, h4⟩ :=
    (C15_inquiry_terminates_quotes_once 0 wiredInquiryService sampleInquiry rfl
      (by decide)).1 rfl
  exact ⟨rfl, by decide, s', t, h1, h3, h4⟩

/-- C16: for every inquiry `inq` stored under `inquiryId`, with the connector set,
`RejectInquiry(inquiryId)` returns and enters `OnMessage` exactly once, with the inquiry
of that identifier carrying state REJECTED and the product, side, quantity and price of
`inq`; that inquiry is then the stored one, no QUOTED or DONE re-emission occurs and
`SendQuote` is not called. -/
theorem C16_RejectInquiry_reemits_once (fuel : Nat) (s : BondInquiryService)
    (inquiryId : String) (inq : Inquiry) (hconn : s.connector = true)
    (hfind : s.inquiryMap.find inquiryId = some inq) :
    ∃ (s' : BondInquiryService) (t : List InquiryEvent),
      BondInquiryService.RejectInquiry (BondInquiryService.OnMessage (fuel + 1)) s inquiryId
        = some (s', t) ∧
      onMessageCalls t =
        [⟨inquiryId, inq.product, inq.side, inq.quantity, inq.price,
          InquiryState.REJECTED⟩] ∧
      s'.inquiryMap.find inquiryId =
        some ⟨inquiryId, inq.product, inq.side, inq.quantity, inq.price,
          InquiryState.REJECTED⟩ ∧
      sendQuoteCalls t = [] ∧
      (∀ k : String, k ≠ inquiryId → s'.inquiryMap.find k = s.inquiryMap.find k) := by
  have hpub := Publish_rejected fuel s
    ⟨inquiryId, inq.product, inq.side, inq.quantity, inq.price, InquiryState.REJECTED⟩ rfl
  unfold BondInquiryService.RejectInquiry
  rw [if_pos hconn, hfind]
  dsimp only
  rw [hpub]
  refine ⟨_, _, rfl, ?_, ?_, ?_, ?_⟩
  · simp only [onMessageCalls, (calls_of_processUpdates _ _).1]
  · exact SMap.find_upsert_self _ _ _
  · simp only [sendQuoteCalls, (calls_of_processUpdates _ _).2]
  · intro k hk
    exact SMap.find_upsert_of_ne _ _ _ _ hk

/-- C16 at the service wired as in `main.cpp`, after `I1` has been ingested and quoted:
rejecting `I1` re-emits it once, in state REJECTED at the stored price 100.0. -/
theorem C16_RejectInquiry_reemits_once_witness :
    ∃ (s1 : BondInquiryService) (t1 : List InquiryEvent),
      wiredInquiryService.OnMessage 2 sampleInquiry = some (s1, t1) ∧
      s1.connector = true ∧
      s1.inquiryMap.find "I1" =
        some ⟨"I1", sampleBond, Side.BUY, 1000000, 100, InquiryState.DONE⟩ ∧
      ∃ (s' : BondInquiryService) (t : List InquiryEvent),
        BondInquiryService.RejectInquiry (BondInquiryService.OnMessage 1) s1 "I1"
          = some (s', t) ∧
        onMessageCalls t =
          [⟨"I1", sampleBond, Side.BUY, 1000000, 100, InquiryState.REJECTED⟩] ∧
        sendQuoteCalls t = [] := by
  have hrun : wiredInquiryService.OnMessage 2 sampleInquiry =
      some ((wiredInquiryService.OnMessage 2 sampleInquiry).get (by decide)) := by simp
  have hfind : ((wiredInquiryService.OnMessage 2 sampleInquiry).get (by decide)).1.inquiryMap.find
      "I1" = some ⟨"I1", sampleBond, Side.BUY, 1000000, 100, InquiryState.DONE⟩ := by
    rfl
  obtain ⟨s', t, k1, k2, _, k4, _⟩ :=
    C16_RejectInquiry_reemits_once 0
      ((wiredInquiryService.OnMessage 2 sampleInquiry).get (by decide)).1 "I1" _ rfl hfind
  exact ⟨_, _, hrun, rfl, hfind, s', t, k1, k2, k4⟩

/-! ### GUI throttle -/

/-- A published update: the price is stored and handed to the connector, the clock restarts
at the second reading and the counter moves by one. -/
theorem ProcessAdd_publish (l : BondGUIListener) (now1 now2 : ℚ) (data : Price)
    (h : now1 - l.start ≥ (l.interval : ℚ) ∧ l.counter < 100) :
    l.ProcessAdd now1 now2 data =
      { l with bondGuiService := l.bondGuiService.AddPrice data,
               start := now2,
               counter := l.counter + 1 } := by
  unfold BondGUIListener.ProcessAdd
  rw [if_pos h]

/-- A dropped update leaves the listener and the GUI service as they were. -/
theorem ProcessAdd_drop (l : BondGUIListener) (now1 now2 : ℚ) (data : Price)
    (h : ¬ (now1 - l.start ≥ (l.interval : ℚ) ∧ l.counter < 100)) :
    l.ProcessAdd now1 now2 data = l := by
  unfold BondGUIListener.ProcessAdd
  rw [if_neg h]

/-- Along any sequence of updates the counter stays between its start value and 100, counts
the prices published, and the interval is kept. -/
theorem ProcessAdds_invariant (updates : List (ℚ × ℚ × Price)) :
    ∀ l : BondGUIListener, 0 ≤ l.counter → l.counter ≤ 100 →
      0 ≤ (l.ProcessAdds updates).counter ∧ (l.ProcessAdds updates).counter ≤ 100 ∧
      (((l.ProcessAdds updates).bondGuiService.published.length : Int)
        = (l.bondGuiService.published.length : Int)
            + ((l.ProcessAdds updates).counter - l.counter)) ∧
      l.counter ≤ (l.ProcessAdds updates).counter ∧
      (l.ProcessAdds updates).interval = l.interval := by
  induction updates with
  | nil =>
    intro l h0 h100
    simp [BondGUIListener.ProcessAdds, h0, h100]
  | cons u rest ih =>
    intro l h0 h100
    have hstep : l.ProcessAdds (u :: rest) = (l.ProcessAdd u.1 u.2.1 u.2.2).ProcessAdds rest := by
      simp [BondGUIListener.ProcessAdds]
    rw [hstep]
    by_cases h : u.1 - l.start ≥ (l.interval : ℚ) ∧ l.counter < 100
    · rw [ProcessAdd_publish l _ _ _ h]
      obtain ⟨i1, i2, i3, i4, i5⟩ := ih
        { l with bondGuiService := l.bondGuiService.AddPrice u.2.2,
                 start := u.2.1,
                 counter := l.counter + 1 } (by simp only; omega) (by simp only; omega)
      refine ⟨i1, i2, ?_, ?_, i5⟩
      · rw [i3]
        simp only [BondGUIService.AddPrice, List.length_append, List.length_cons,
          List.length_nil]
        push_cast
        omega
      · simp only at i4
        omega
    · rw [ProcessAdd_drop l _ _ _ h]
      exact ih l h0 h100

/-- C17: for every sequence of price updates delivered to `ProcessAdd`, with arbitrary clock
readings, any throttle interval and any construction time, the number of prices published
through the GUI service equals the listener's counter and never exceeds 100. -/
theorem C17_gui_publishes_at_most_100 (interval : Int) (t0 : ℚ)
    (updates : List (ℚ × ℚ × Price)) :
    (((BondGUIListener.new (BondGUIService.new interval) t0).ProcessAdds
        updates).bondGuiService.published.length : Int)
      = ((BondGUIListener.new (BondGUIService.new interval) t0).ProcessAdds updates).counter ∧
    ((BondGUIListener.new (BondGUIService.new interval) t0).ProcessAdds
        updates).bondGuiService.published.length ≤ 100 := by
  obtain ⟨_, i2, i3, _, _⟩ := ProcessAdds_invariant updates
    (BondGUIListener.new (BondGUIService.new interval) t0)
    (by simp [BondGUIListener.new]) (by simp [BondGUIListener.new])
  have hlen : (((BondGUIListener.new (BondGUIService.new interval) t0).ProcessAdds
        updates).bondGuiService.published.length : Int)
      = ((BondGUIListener.new (BondGUIService.new interval) t0).ProcessAdds updates).counter := by
    rw [i3]
    simp [BondGUIListener.new, BondGUIService.new]
  refine ⟨hlen, ?_⟩
  omega

/-- One step of the publication log: a published update is recorded with its readings, a
dropped one is not. -/
theorem publications_cons (l : BondGUIListener) (u : ℚ × ℚ × Price)
    (rest : List (ℚ × ℚ × Price)) :
    (u.1 - l.start ≥ (l.interval : ℚ) ∧ l.counter < 100 →
      BondGUIListener.publications l (u :: rest) =
        (u.1, u.2.1) :: BondGUIListener.publications (l.ProcessAdd u.1 u.2.1 u.2.2) rest) ∧
    (¬ (u.1 - l.start ≥ (l.interval : ℚ) ∧ l.counter < 100) →
      BondGUIListener.publications l (u :: rest) = BondGUIListener.publications l rest) := by
  constructor
  · intro h
    have hne : ¬ ((l.ProcessAdd u.1 u.2.1 u.2.2).counter = l.counter) := by
      rw [ProcessAdd_publish l _ _ _ h]
      simp
    simp only [BondGUIListener.publications, hne, if_false]
  · intro h
    have he : l.ProcessAdd u.1 u.2.1 u.2.2 = l := ProcessAdd_drop l _ _ _ h
    simp only [BondGUIListener.publications, he, if_true]

/-- Along a run, the listener's clock start is the second reading of the last publication
(or its initial value), the counter advances by the number of publications, and each
publication comes at least one interval after the previous restart of the clock. -/
theorem publications_spec (updates : List (ℚ × ℚ × Price)) :
    ∀ l : BondGUIListener,
      (l.ProcessAdds updates).start
        = lastRestart l.start (BondGUIListener.publications l updates) ∧
      (l.ProcessAdds updates).counter
        = l.counter + ((BondGUIListener.publications l updates).length : Int) ∧
      (∀ x : ℚ, List.Chain (fun a b : ℚ × ℚ => b.1 - a.2 ≥ (l.interval : ℚ)) (x, l.start)
        (BondGUIListener.publications l updates)) := by
  induction updates with
  | nil =>
    intro l
    simp [BondGUIListener.ProcessAdds, BondGUIListener.publications, lastRestart]
  | cons u rest ih =>
    intro l
    have hstep : l.ProcessAdds (u :: rest) = (l.ProcessAdd u.1 u.2.1 u.2.2).ProcessAdds rest := by
      simp [BondGUIListener.ProcessAdds]
    rw [hstep]
    by_cases h : u.1 - l.start ≥ (l.interval : ℚ) ∧ l.counter < 100
    · rw [(publications_cons l u rest).1 h]
      obtain ⟨i1, i2, i3⟩ := ih (l.ProcessAdd u.1 u.2.1 u.2.2)
      rw [ProcessAdd_publish l _ _ _ h] at i1 i2 i3 ⊢
      simp only at i1 i2 i3
      refine ⟨?_, ?_, ?_⟩
      · rw [i1]; rfl
      · rw [i2]
        simp only [List.length_cons]
        push_cast
        omega
      · intro x
        exact List.Chain.cons h.1 (i3 u.1)
    · rw [(publications_cons l u rest).2 h, ProcessAdd_drop l _ _ _ h]
      exact ih l

/-- Weakening of the relation of a chain. -/
theorem chain_imp_of_mem {R S : ℚ × ℚ → ℚ × ℚ → Prop} :
    ∀ (l : List (ℚ × ℚ)) (a : ℚ × ℚ), (∀ p ∈ a :: l, p.1 ≤ p.2) →
      (∀ p q : ℚ × ℚ, p.1 ≤ p.2 → q.1 ≤ q.2 → R p q → S p q) →
      List.Chain R a l → List.Chain S a l := by
  intro l
  induction l with
  | nil => intro a _ _ _; exact List.Chain.nil
  | cons b rest ih =>
    intro a hm himp hc
    rw [List.chain_cons] at hc ⊢
    refine ⟨himp a b (hm a (by simp)) (hm b (by simp)) hc.1, ?_⟩
    exact ih b (fun p hp => hm p (List.mem_cons_of_mem _ hp)) himp hc.2

/-- The published readings are readings of the run. -/
theorem publications_subset (updates : List (ℚ × ℚ × Price)) :
    ∀ (l : BondGUIListener) (p : ℚ × ℚ), p ∈ BondGUIListener.publications l updates →
      ∃ u ∈ updates, p = (u.1, u.2.1) := by
  induction updates with
  | nil => intro l p hp; simp [BondGUIListener.publications] at hp
  | cons u rest ih =>
    intro l p hp
    by_cases h : u.1 - l.start ≥ (l.interval : ℚ) ∧ l.counter < 100
    · rw [(publications_cons l u rest).1 h] at hp
      rcases List.mem_cons.mp hp with rfl | hp
      · exact ⟨u, by simp, rfl⟩
      · obtain ⟨v, hv, hpv⟩ := ih _ p hp
        exact ⟨v, List.mem_cons_of_mem _ hv, hpv⟩
    · rw [(publications_cons l u rest).2 h] at hp
      obtain ⟨v, hv, hpv⟩ := ih _ p hp
      exact ⟨v, List.mem_cons_of_mem _ hv, hpv⟩

/-- C18: for the listener reached from its construction at time `t0` by any sequence of
updates, with `lastPublish` the construction time or the time recorded at the previous
publication and the counter equal to the number of prices published: the next update is
published (stored in the price map, handed to the connector, clock restarted, counter
moved) iff `now1 − lastPublish ≥ interval` and fewer than 100 prices have been published;
a dropped update leaves the listener and the GUI service unchanged; every publication
comes at least one interval after the time recorded at the previous one, so, when each
call reads the clock in non-decreasing order, consecutive publications are at least one
interval apart. -/
theorem C18_gui_throttle_rule (interval : Int) (t0 : ℚ) (updates : List (ℚ × ℚ × Price))
    (now1 now2 : ℚ) (data : Price) :
    (guiAfter interval t0 updates).start = lastRestart t0 (guiLog interval t0 updates) ∧
    (guiAfter interval t0 updates).counter
      = ((guiAfter interval t0 updates).bondGuiService.published.length : Int) ∧
    (((guiAfter interval t0 updates).ProcessAdd now1 now2 data).bondGuiService.published
        = (guiAfter interval t0 updates).bondGuiService.published ++ [data]
      ↔ (now1 - (guiAfter interval t0 updates).start ≥ (interval : ℚ) ∧
          (guiAfter interval t0 updates).bondGuiService.published.length < 100)) ∧
    ((now1 - (guiAfter interval t0 updates).start ≥ (interval : ℚ) ∧
        (guiAfter interval t0 updates).bondGuiService.published.length < 100) →
      ((guiAfter interval t0 updates).ProcessAdd now1 now2 data).bondGuiService.priceMap.find
          data.product.productId = some data ∧
      ((guiAfter interval t0 updates).ProcessAdd now1 now2 data).start = now2 ∧
      ((guiAfter interval t0 updates).ProcessAdd now1 now2 data).counter
        = (guiAfter interval t0 updates).counter + 1) ∧
    (¬ (now1 - (guiAfter interval t0 updates).start ≥ (interval : ℚ) ∧
        (guiAfter interval t0 updates).bondGuiService.published.length < 100) →
      (guiAfter interval t0 updates).ProcessAdd now1 now2 data
        = guiAfter interval t0 updates) ∧
    List.Chain' (fun a b : ℚ × ℚ => b.1 - a.2 ≥ (interval : ℚ))
      (guiLog interval t0 updates) ∧
    ((∀ u ∈ updates, u.1 ≤ u.2.1) →
      List.Chain' (fun a b : ℚ × ℚ => b.1 - a.1 ≥ (interval : ℚ) ∧ b.2 - a.2 ≥ (interval : ℚ))
        (guiLog interval t0 updates)) := by
  obtain ⟨_, _, i3, _, i5⟩ := ProcessAdds_invariant updates
    (BondGUIListener.new (BondGUIService.new interval) t0)
    (by simp [BondGUIListener.new]) (by simp [BondGUIListener.new])
  obtain ⟨p1, _, p3⟩ := publications_spec updates
    (BondGUIListener.new (BondGUIService.new interval) t0)
  have hint : (guiAfter interval t0 updates).interval = interval := by
    unfold guiAfter
    rw [i5]
    rfl
  have hcount : (guiAfter interval t0 updates).counter
      = ((guiAfter interval t0 updates).bondGuiService.published.length : Int) := by
    unfold guiAfter
    rw [i3]
    simp [BondGUIListener.new, BondGUIService.new]
  have hcond : (now1 - (guiAfter interval t0 updates).start ≥ (interval : ℚ) ∧
        (guiAfter interval t0 updates).bondGuiService.published.length < 100) ↔
      (now1 - (guiAfter interval t0 updates).start
          ≥ ((guiAfter interval t0 updates).interval : ℚ) ∧
        (guiAfter interval t0 updates).counter < 100) := by
    rw [hint, hcount]
    constructor
    · rintro ⟨a, b⟩
      exact ⟨a, by omega⟩
    · rintro ⟨a, b⟩
      exact ⟨a, by omega⟩
  have hchain : List.Chain' (fun a b : ℚ × ℚ => b.1 - a.2 ≥ (interval : ℚ))
      (guiLog interval t0 updates) := by
    have hc := p3 t0
    have hc' : List.Chain' (fun a b : ℚ × ℚ => b.1 - a.2 ≥ (interval : ℚ))
        ((t0, t0) :: guiLog interval t0 updates) := hc
    exact hc'.tail
  refine ⟨p1, hcount, ?_, ?_, ?_, hchain, ?_⟩
  · constructor
    · intro hpub
      by_contra hno
      rw [ProcessAdd_drop _ _ _ _ (fun hc => hno (hcond.mpr hc))] at hpub
      have hlen := congrArg List.length hpub
      simp at hlen
    · intro hc
      rw [ProcessAdd_publish _ _ _ _ (hcond.mp hc)]
      rfl
  · intro hc
    rw [ProcessAdd_publish _ _ _ _ (hcond.mp hc)]
    exact ⟨SMap.find_upsert_self _ _ _, rfl, rfl⟩
  · intro hno
    exact ProcessAdd_drop _ _ _ _ (fun hc => hno (hcond.mpr hc))
  · intro hmono
    cases hlog : guiLog interval t0 updates with
    | nil => exact List.chain'_nil
    | cons a rest =>
      rw [hlog] at hchain
      have hmem : ∀ p ∈ a :: rest, p.1 ≤ p.2 := by
        intro p hp
        rw [← hlog] at hp
        obtain ⟨u, hu, rfl⟩ := publications_subset updates _ p hp
        exact hmono u hu
      exact chain_imp_of_mem rest a hmem
        (fun p q hp hq hr => ⟨by linarith, by linarith⟩) hchain

/-- C18 on a run of the sample listener (300 ms throttle, constructed at time 0): the update
at 100 ms is dropped, the one at 300 ms is published and restarts the clock at 301 ms, the
one at 600 ms is dropped, being only 299 ms after the restart; a further update at 601 ms
would be published. -/
theorem C18_gui_throttle_rule_witness :
    guiLog 300 0 sampleUpdates = [(300, 301)] ∧
    (guiAfter 300 0 sampleUpdates).start = 301 ∧
    (guiAfter 300 0 sampleUpdates).bondGuiService.published = [samplePrice] ∧
    ((guiAfter 300 0 sampleUpdates).ProcessAdd 601 602 samplePrice).bondGuiService.published
      = (guiAfter 300 0 sampleUpdates).bondGuiService.published ++ [samplePrice] := by
  have hlog : guiLog 300 0 sampleUpdates = [(300, 301)] := by
    simp [guiLog, sampleUpdates, BondGUIListener.publications, BondGUIListener.ProcessAdd,
      BondGUIListener.new, BondGUIService.new, BondGUIService.GetTimeInterval]
    norm_num
  have h := C18_gui_throttle_rule 300 0 sampleUpdates 601 602 samplePrice
  have hstart : (guiAfter 300 0 sampleUpdates).start = 301 := by
    rw [h.1, hlog]
    rfl
  have hpub : (guiAfter 300 0 sampleUpdates).bondGuiService.published = [samplePrice] := by
    simp [guiAfter, sampleUpdates, BondGUIListener.ProcessAdds, BondGUIListener.ProcessAdd,
      BondGUIListener.new, BondGUIService.new, BondGUIService.GetTimeInterval,
      BondGUIService.AddPrice]
    norm_num
  refine ⟨hlog, hstart, hpub, ?_⟩
  apply h.2.2.1.mpr
  rw [hstart, hpub]
  constructor
  · norm_num
  · decide

/-! ### Algo-streaming stage -/

/-- For a non-negative counter the visible quantity is assigned, by the counter's parity. -/
theorem visibleQuantityFor_natCast (k : Nat) :
    BondAlgoStreamingService.visibleQuantityFor (k : Int) = some (visibleAt k) := by
  unfold BondAlgoStreamingService.visibleQuantityFor visibleAt
  have ht : (k : Int).tmod 2 = (k : Int) % 2 := Int.tmod_eq_emod (by omega) (by decide)
  rw [ht]
  have hk : k % 2 = 0 ∨ k % 2 = 1 := by omega
  rcases hk with h | h
  · have h2 : (k : Int) % 2 = 0 := by omega
    simp [h, h2]
  · have h2 : (k : Int) % 2 = 1 := by omega
    simp [h, h2]

/-- Effect of `AddStream` in a state whose counter is the natural number `k`. -/
theorem AddStream_of_counter (s : BondAlgoStreamingService) (k : Nat)
    (hk : s.counter = (k : Int)) (price : Price) :
    s.AddStream price =
      some ({ s with algostreamMap :=
                       (s.algostreamMap.upsert price.product.productId
                         (streamOf price (visibleAt k))),
                     counter := s.counter + 1 },
        s.listeners.map (fun l => (l, streamOf price (visibleAt k)))) ∧
    BondAlgoStreamingService.builtBy s price = some (streamOf price (visibleAt k)) := by
  have h1 : s.AddStream price =
      some ({ s with algostreamMap :=
                       (s.algostreamMap.upsert price.product.productId
                         (streamOf price (visibleAt k))),
                     counter := s.counter + 1 },
        s.listeners.map (fun l => (l, streamOf price (visibleAt k)))) := by
    unfold BondAlgoStreamingService.AddStream
    rw [hk, visibleQuantityFor_natCast]
    rfl
  refine ⟨h1, ?_⟩
  unfold BondAlgoStreamingService.builtBy
  rw [h1]
  exact SMap.find_upsert_self _ _ _

/-- A run of `AddStream` from a state whose counter is the natural number `k`: it returns,
the counter advances by the number of prices, the listeners are kept, and the `i`-th stream
built is the one for the `i`-th price with the visible quantity of rank `k + i`. -/
theorem AddStreams_of_counter (prices : List Price) :
    ∀ (s : BondAlgoStreamingService) (k : Nat), s.counter = (k : Int) →
      ∃ (s' : BondAlgoStreamingService) (built : List AlgoStream),
        s.AddStreams prices = some (s', built) ∧
        s'.counter = ((k + prices.length : Nat) : Int) ∧
        s'.listeners = s.listeners ∧
        built.length = prices.length ∧
        ∀ (i : Nat) (p : Price), prices[i]? = some p →
          built[i]? = some (streamOf p (visibleAt (k + i))) := by
  induction prices with
  | nil =>
    intro s k hk
    exact ⟨s, [], rfl, by simpa using hk, rfl, rfl, by simp⟩
  | cons p rest ih =>
    intro s k hk
    obtain ⟨h1, h2⟩ := AddStream_of_counter s k hk p
    obtain ⟨s', built, r1, r2, r3, r4, r5⟩ :=
      ih { s with algostreamMap :=
                    (s.algostreamMap.upsert p.product.productId (streamOf p (visibleAt k))),
                  counter := s.counter + 1 } (k + 1) (by simp only; rw [hk]; push_cast; rfl)
    refine ⟨s', streamOf p (visibleAt k) :: built, ?_, ?_, r3, ?_, ?_⟩
    · simp only [BondAlgoStreamingService.AddStreams, h1, h2, r1]
    · rw [r2]
      simp only [List.length_cons]
      push_cast
      omega
    · simp [r4]
    · intro i q hq
      cases i with
      | zero =>
        simp only [List.getElem?_cons_zero, Option.some.injEq] at hq
        subst hq
        simp
      | succ j =>
        simp only [List.getElem?_cons_succ] at hq
        have := r5 j q hq
        simp only [List.getElem?_cons_succ, this]
        have e : k + 1 + j = k + (j + 1) := by omega
        rw [e]

/-- C20: for every sequence of prices fed to `AddStream` on a fresh service (with any
listeners), every call returns and the stream built for the `k`-th input (from 0, across
all products) has visible quantity 1,000,000 for even `k` and 2,000,000 for odd `k` on both
its bid and its offer order, and hidden quantity twice the visible one on both. -/
theorem C20_AddStream_alternating_quantity (ls : List Nat) (prices : List Price) :
    ∃ (s' : BondAlgoStreamingService) (built : List AlgoStream),
      (BondAlgoStreamingService.freshWith ls).AddStreams prices = some (s', built) ∧
      built.length = prices.length ∧
      ∀ (k : Nat) (a : AlgoStream), built[k]? = some a →
        a.stream.bidOrder.visibleQuantity = (if k % 2 = 0 then 1000000 else 2000000) ∧
        a.stream.offerOrder.visibleQuantity = (if k % 2 = 0 then 1000000 else 2000000) ∧
        a.stream.bidOrder.hiddenQuantity = 2 * a.stream.bidOrder.visibleQuantity ∧
        a.stream.offerOrder.hiddenQuantity = 2 * a.stream.offerOrder.visibleQuantity ∧
        prices[k]?.map (fun p => p.product) = some a.stream.product := by
  obtain ⟨s', built, r1, _, _, r4, r5⟩ :=
    AddStreams_of_counter prices (BondAlgoStreamingService.freshWith ls) 0 rfl
  refine ⟨s', built, r1, r4, ?_⟩
  intro k a hk
  have hlt : k < prices.length := by
    rw [← r4]
    by_contra hge
    rw [List.getElem?_eq_none (by omega)] at hk
    exact absurd hk (by simp)
  have hp : prices[k]? = some (prices[k]) := List.getElem?_eq_getElem hlt
  have hb := r5 k _ hp
  rw [hk] at hb
  have ha : a = streamOf prices[k] (visibleAt (0 + k)) := Option.some.inj hb
  rw [ha, hp]
  simp [streamOf, visibleAt]

/-! ### Top of book under `AggregateDepth` -/

/-- The maximum of a list depends only on which elements occur in it. -/
theorem maximum_congr (l1 l2 : List ℚ) (h : ∀ p, p ∈ l1 ↔ p ∈ l2) :
    l1.maximum = l2.maximum := by
  cases hm : l2.maximum with
  | bot =>
    have h2 : l2 = [] := List.maximum_eq_bot.mp hm
    have h1 : l1 = [] := by
      apply List.eq_nil_iff_forall_not_mem.mpr
      intro a ha
      have := (h a).mp ha
      rw [h2] at this
      simp at this
    rw [h1]
    rfl
  | coe m =>
    have hm2 := (List.maximum_eq_coe_iff.mp hm)
    apply List.maximum_eq_coe_iff.mpr
    exact ⟨(h m).mpr hm2.1, fun a ha => hm2.2 a ((h a).mp ha)⟩

/-- The minimum of a list depends only on which elements occur in it. -/
theorem minimum_congr (l1 l2 : List ℚ) (h : ∀ p, p ∈ l1 ↔ p ∈ l2) :
    l1.minimum = l2.minimum := by
  cases hm : l2.minimum with
  | top =>
    have h2 : l2 = [] := List.minimum_eq_top.mp hm
    have h1 : l1 = [] := by
      apply List.eq_nil_iff_forall_not_mem.mpr
      intro a ha
      have := (h a).mp ha
      rw [h2] at this
      simp at this
    rw [h1]
    rfl
  | coe m =>
    have hm2 := (List.minimum_eq_coe_iff.mp hm)
    apply List.minimum_eq_coe_iff.mpr
    exact ⟨(h m).mpr hm2.1, fun a ha => hm2.2 a ((h a).mp ha)⟩

/-- One step of the aggregation loop moves the sum of the stored quantities by the
quantity added, when the new quantity at the price is in the 64-bit range. -/
theorem PriceMap.sum_add (m : PriceMap) (p : ℚ) (q : Int)
    (h1 : LONG_MIN ≤ (m.find p).getD 0 + q) (h2 : (m.find p).getD 0 + q ≤ LONG_MAX) :
    ((m.add p q).map (fun e => e.2)).sum = (m.map (fun e => e.2)).sum + q := by
  induction m with
  | nil => simp [PriceMap.add]
  | cons e rest ih =>
    obtain ⟨p', v'⟩ := e
    by_cases h : p' = p
    · simp only [PriceMap.find, h, if_true, Option.getD_some] at h1 h2
      simp only [PriceMap.add, h, if_true, List.map_cons, List.sum_cons,
        wrapLong_of_range _ h1 h2]
      omega
    · simp only [PriceMap.find, h, if_false] at h1 h2
      simp only [PriceMap.add, h, if_false, List.map_cons, List.sum_cons, ih h1 h2]
      omega

/-- The aggregation loop keeps the total quantity of a stack whose gross quantity is at most
`LONG_MAX`. -/
theorem aggregateStack_sum (orders : List Order) (hg : grossStack orders ≤ LONG_MAX) :
    ((aggregateStack orders).map (fun e => e.2)).sum = totalQuantity orders := by
  have hM : LONG_MAX = 9223372036854775807 := rfl
  have hL : LONG_MIN = -9223372036854775808 := rfl
  induction orders using List.reverseRecOn with
  | nil => simp [aggregateStack, totalQuantity]
  | append_singleton orders o ih =>
    have hgross : grossStack (orders ++ [o]) = grossStack orders + (o.quantity.natAbs : Int) := by
      simp [grossStack]
    have hstep : aggregateStack (orders ++ [o]) =
        (aggregateStack orders).add o.price o.quantity := by
      simp [aggregateStack, List.foldl_append]
    have hq := aggregateStack_quantity orders (by omega) o.price
    have hb := natAbs_quantityAt_le orders o.price
    rw [hstep, PriceMap.sum_add _ _ _ (by rw [hq]; omega) (by rw [hq]; omega), ih (by omega)]
    simp [totalQuantity]

/-- At a price not yet present, one step of the aggregation loop appends the entry. -/
theorem PriceMap.add_of_not_mem (m : PriceMap) (p : ℚ) (q : Int)
    (h : p ∉ m.map (fun e => e.1)) : m.add p q = m ++ [(p, q)] := by
  induction m with
  | nil => rfl
  | cons e rest ih =>
    obtain ⟨p', v'⟩ := e
    simp only [List.map_cons, List.mem_cons, not_or] at h
    have hne : ¬ p' = p := fun hk => h.1 hk.symm
    simp only [PriceMap.add, hne, if_false, ih h.2, List.cons_append]

/-- Aggregating a stack that has one order per entry of a price map with distinct prices
gives that price map back. -/
theorem aggregateStack_of_nodup (m : PriceMap) (side : PricingSide)
    (h : (m.map (fun e => e.1)).Nodup) :
    aggregateStack (m.map (fun e => (⟨e.1, e.2, side⟩ : Order))) = m := by
  induction m using List.reverseRecOn with
  | nil => rfl
  | append_singleton m e ih =>
    rw [List.map_append, List.nodup_append] at h
    obtain ⟨hnd, _, hdisj⟩ := h
    have hnot : e.1 ∉ m.map (fun e => e.1) := by
      intro hmem
      exact hdisj hmem (by simp)
    have hstep : aggregateStack (List.map (fun e => (⟨e.1, e.2, side⟩ : Order)) (m ++ [e])) =
        (aggregateStack (m.map (fun e => (⟨e.1, e.2, side⟩ : Order)))).add e.1 e.2 := by
      simp [aggregateStack, List.foldl_append]
    rw [hstep, ih hnd, PriceMap.add_of_not_mem _ _ _ hnot]

/-- A second aggregation and reconstruction of a stack only rearranges the orders of the
first. -/
theorem rebuildStack_twice (iterate : PriceMap → PriceMap)
    (hiter : ∀ m, (iterate m).Perm m) (orders : List Order) (side : PricingSide) :
    (rebuildStack iterate
        (aggregateStack (rebuildStack iterate (aggregateStack orders) side)) side).Perm
      (rebuildStack iterate (aggregateStack orders) side) := by
  have hnd : ((iterate (aggregateStack orders)).map (fun e => e.1)).Nodup :=
    ((hiter _).map _).nodup_iff.mpr (aggregateStack_spec orders).1
  have hagg : aggregateStack (rebuildStack iterate (aggregateStack orders) side)
      = iterate (aggregateStack orders) := by
    unfold rebuildStack
    exact aggregateStack_of_nodup _ side hnd
  rw [hagg]
  unfold rebuildStack
  exact (hiter _).map _

/-- The reconstruction keeps the total quantity of a stack whose gross quantity is at most
`LONG_MAX`. -/
theorem rebuildStack_total (iterate : PriceMap → PriceMap)
    (hiter : ∀ m, (iterate m).Perm m) (orders : List Order) (side : PricingSide)
    (hg : grossStack orders ≤ LONG_MAX) :
    totalQuantity (rebuildStack iterate (aggregateStack orders) side)
      = totalQuantity orders := by
  have h1 : totalQuantity (rebuildStack iterate (aggregateStack orders) side)
      = ((iterate (aggregateStack orders)).map (fun e => e.2)).sum := by
    simp only [totalQuantity, rebuildStack, List.map_map]
    rfl
  rw [h1, ((hiter _).map _).sum_eq, aggregateStack_sum orders hg]

/-- C29 as stated fails beyond the 64-bit range: the bids at 100 for
9,223,372,036,854,775,807 and for 1 hold 9,223,372,036,854,775,808 in total, and after
`AggregateDepth` the bid side holds −9,223,372,036,854,775,808. -/
theorem C29_AggregateDepth_total_wraps_beyond_long :
    overflowService.orderbookMap.find "912828M80" = some overflowBook ∧
    overflowBook.bidStack ≠ [] ∧ overflowBook.offerStack ≠ [] ∧
    totalQuantity overflowBook.bidStack = 9223372036854775808 ∧
    totalQuantity (overflowService.AggregateDepth List.reverse "912828M80").2.bidStack
      = -9223372036854775808 := by
  refine ⟨by rfl, by simp [overflowBook], by simp [overflowBook], by rfl, by rfl⟩

/-- C29: for any iteration order of the price maps and every stored order book (with
empty or non-empty stacks), `AggregateDepth` keeps the highest bid price and the lowest
offer price; it keeps the total quantity of each side whose gross quantity (the sum of the
absolute values of the quantities of its orders) is at most 9,223,372,036,854,775,807;
every bid-stack order of the result is tagged BID and every offer-stack order OFFER; and a
second `AggregateDepth` only rearranges the orders of each side (same multiset of orders,
hence of (price, quantity) pairs). -/
theorem C29_AggregateDepth_keeps_top_of_book (iterate : PriceMap → PriceMap)
    (hiter : ∀ m, (iterate m).Perm m) (s : BondMarketDataService) (productId : String)
    (book : OrderBook) (hbook : s.orderbookMap.find productId = some book) :
    highestPrice (s.AggregateDepth iterate productId).2.bidStack
      = highestPrice book.bidStack ∧
    lowestPrice (s.AggregateDepth iterate productId).2.offerStack
      = lowestPrice book.offerStack ∧
    (grossStack book.bidStack ≤ LONG_MAX →
      totalQuantity (s.AggregateDepth iterate productId).2.bidStack
        = totalQuantity book.bidStack) ∧
    (grossStack book.offerStack ≤ LONG_MAX →
      totalQuantity (s.AggregateDepth iterate productId).2.offerStack
        = totalQuantity book.offerStack) ∧
    (∀ o ∈ (s.AggregateDepth iterate productId).2.bidStack, o.side = PricingSide.BID) ∧
    (∀ o ∈ (s.AggregateDepth iterate productId).2.offerStack, o.side = PricingSide.OFFER) ∧
    ((s.AggregateDepth iterate productId).1.AggregateDepth iterate productId).2.bidStack.Perm
      (s.AggregateDepth iterate productId).2.bidStack ∧
    ((s.AggregateDepth iterate productId).1.AggregateDepth iterate productId).2.offerStack.Perm
      (s.AggregateDepth iterate productId).2.offerStack ∧
    (((s.AggregateDepth iterate productId).1.AggregateDepth iterate productId).2.bidStack.map
        (fun o => (o.price, o.quantity))).Perm
      ((s.AggregateDepth iterate productId).2.bidStack.map (fun o => (o.price, o.quantity))) ∧
    (((s.AggregateDepth iterate productId).1.AggregateDepth iterate productId).2.offerStack.map
        (fun o => (o.price, o.quantity))).Perm
      ((s.AggregateDepth iterate productId).2.offerStack.map
        (fun o => (o.price, o.quantity))) := by
  have hg : s.orderbookMap.getD productId OrderBook.default = book := by
    simp [SMap.getD, hbook]
  have hb := rebuildStack_spec iterate hiter book.bidStack PricingSide.BID
  have ho := rebuildStack_spec iterate hiter book.offerStack PricingSide.OFFER
  have h2 : ((s.AggregateDepth iterate productId).1.orderbookMap.getD productId
      OrderBook.default) = aggregatedBook iterate book := by
    rw [AggregateDepth_eq, hg]
    exact SMap.getD_upsert_self _ _ _ _
  have hsecond : ((s.AggregateDepth iterate productId).1.AggregateDepth iterate productId).2
      = aggregatedBook iterate (aggregatedBook iterate book) := by
    rw [AggregateDepth_eq (s := (s.AggregateDepth iterate productId).1), h2]
  have hfirst : (s.AggregateDepth iterate productId).2 = aggregatedBook iterate book := by
    rw [AggregateDepth_eq, hg]
  rw [hsecond, hfirst]
  have pb := rebuildStack_twice iterate hiter book.bidStack PricingSide.BID
  have po := rebuildStack_twice iterate hiter book.offerStack PricingSide.OFFER
  refine ⟨?_, ?_, ?_, ?_, ?_, ?_, pb, po, pb.map _, po.map _⟩
  · exact maximum_congr _ _ hb.2.1
  · exact minimum_congr _ _ ho.2.1
  · exact rebuildStack_total iterate hiter book.bidStack PricingSide.BID
  · exact rebuildStack_total iterate hiter book.offerStack PricingSide.OFFER
  · exact fun o h => hb.2.2 o h
  · exact fun o h => ho.2.2 o h

/-- C29 at the depth-aggregation scenario, iterating the price maps in reverse insertion
order: the highest bid stays 100, the lowest offer 101, the bid side keeps 4,000,000 in
total, and a second `AggregateDepth` returns the two bid orders of the first, rearranged. -/
theorem C29_AggregateDepth_keeps_top_of_book_witness :
    (∀ m : PriceMap, (List.reverse m).Perm m) ∧
    depthService.orderbookMap.find "912828M80" = some depthBook ∧
    depthBook.bidStack ≠ [] ∧ depthBook.offerStack ≠ [] ∧
    grossStack depthBook.bidStack ≤ LONG_MAX ∧
    highestPrice (depthService.AggregateDepth List.reverse "912828M80").2.bidStack
      = highestPrice depthBook.bidStack ∧
    totalQuantity (depthService.AggregateDepth List.reverse "912828M80").2.bidStack
      = 4000000 ∧
    (depthService.AggregateDepth List.reverse "912828M80").2.bidStack
      = [⟨99, 1000000, PricingSide.BID⟩, ⟨100, 3000000, PricingSide.BID⟩] ∧
    ((depthService.AggregateDepth List.reverse "912828M80").1.AggregateDepth List.reverse
        "912828M80").2.bidStack.Perm
      (depthService.AggregateDepth List.reverse "912828M80").2.bidStack := by
  have hbook : depthService.orderbookMap.find "912828M80" = some depthBook := by rfl
  have h := C29_AggregateDepth_keeps_top_of_book List.reverse List.reverse_perm depthService
    "912828M80" depthBook hbook
  refine ⟨List.reverse_perm, hbook, by simp [depthBook], by simp [depthBook], by decide, h.1,
    ?_, by rfl, h.2.2.2.2.2.2.1⟩
  rw [h.2.2.1 (by decide)]
  decide

/-! ### Failure of the bucketed-risk methods -/

/-- The summation loop throws exactly when some bond of the list has no entry. -/
theorem sumSector_eq_none_iff (pv01Map : SMap (PV01 Bond)) (products : List Bond)
    (acc : Int × ℚ) :
    BondRiskService.sumSector pv01Map products acc = none ↔
      ∃ b ∈ products, pv01Map.find b.productId = none := by
  induction products generalizing acc with
  | nil => simp [BondRiskService.sumSector]
  | cons b rest ih =>
    cases hb : pv01Map.find b.productId with
    | none =>
      simp only [BondRiskService.sumSector, hb, true_iff]
      exact ⟨b, by simp, hb⟩
    | some pv =>
      simp only [BondRiskService.sumSector, hb, ih, List.mem_cons, exists_eq_or_imp,
        reduceCtorEq, false_or]

/-- A lookup fails exactly when the key is not among the keys of the map. -/
theorem SMap.find_eq_none_iff {V : Type} (m : SMap V) (k : String) :
    m.find k = none ↔ k ∉ m.map (fun e => e.1) := by
  induction m with
  | nil => simp [SMap.find]
  | cons e rest ih =>
    obtain ⟨k', v'⟩ := e
    by_cases h : k' = k
    · simp [SMap.find, h]
    · have hne : ¬ k = k' := fun hk => h hk.symm
      simp [SMap.find, h, hne, ih]

/-- `UpdateBucketedRisk` fails exactly when the summation loop throws. -/
theorem UpdateBucketedRisk_eq_none_iff (s : BondRiskService) (sector : BucketedSector) :
    s.UpdateBucketedRisk sector = none ↔
      BondRiskService.sumSector s.pv01Map sector.products (0, 0) = none := by
  unfold BondRiskService.UpdateBucketedRisk
  cases BondRiskService.sumSector s.pv01Map sector.products (0, 0) with
  | none => simp
  | some r => simp

/-- Names stored in the sector cache along a sequence of calls that all return: the names
stored before, and the names of the sectors passed to `UpdateBucketedRisk`. -/
theorem run_bucket_names (calls : List RiskCall) :
    ∀ (s0 s : BondRiskService), s0.run calls = some s → ∀ name : String,
      (s.bucketpv01Map.find name = none ↔
        (s0.bucketpv01Map.find name = none ∧
          ∀ sec : BucketedSector, RiskCall.updateBucketedRisk sec ∈ calls →
            sec.name ≠ name)) := by
  induction calls with
  | nil =>
    intro s0 s hrun name
    simp only [BondRiskService.run, Option.some.injEq] at hrun
    subst hrun
    simp
  | cons c rest ih =>
    intro s0 s hrun name
    cases c with
    | addPosition p =>
      simp only [BondRiskService.run] at hrun
      cases hp : s0.AddPosition p with
      | none => rw [hp] at hrun; simp at hrun
      | some r =>
        obtain ⟨s1, cb⟩ := r
        rw [hp] at hrun
        have hb : s1.bucketpv01Map = s0.bucketpv01Map := by
          unfold BondRiskService.AddPosition at hp
          dsimp only at hp
          cases hf : s0.pv01Map.find p.GetProduct.productId with
          | none =>
            rw [hf] at hp
            simp at hp
          | some pv =>
            rw [hf] at hp
            simp only [Option.some.injEq, Prod.mk.injEq] at hp
            rw [← hp.1]
        rw [ih s1 s hrun name, hb]
        simp
    | updateBucketedRisk sector =>
      simp only [BondRiskService.run] at hrun
      cases hp : s0.UpdateBucketedRisk sector with
      | none => rw [hp] at hrun; simp at hrun
      | some s1 =>
        rw [hp] at hrun
        have hb : ∃ v, s1.bucketpv01Map = s0.bucketpv01Map.upsert sector.name v := by
          unfold BondRiskService.UpdateBucketedRisk at hp
          cases hf : BondRiskService.sumSector s0.pv01Map sector.products (0, 0) with
          | none =>
            rw [hf] at hp
            simp at hp
          | some r =>
            rw [hf] at hp
            simp only [Option.some.injEq] at hp
            exact ⟨_, by rw [← hp]⟩
        obtain ⟨v, hv⟩ := hb
        rw [ih s1 s hrun name, hv]
        by_cases hn : sector.name = name
        · subst hn
          rw [SMap.find_upsert_self]
          simp
        · have hne : name ≠ sector.name := fun h => hn h.symm
          rw [SMap.find_upsert_of_ne _ _ _ _ hne]
          simp [hn]

/-- C30: in every state `s` that a risk service starting with an empty sector cache has
reached through calls of `AddPosition` and `UpdateBucketedRisk` that all returned,
`UpdateBucketedRisk(sector)` throws exactly when some bond of the sector has no entry in
the per-bond cache, and the throw leaves the service in state `s` (per-bond cache and
sector cache untouched); `GetBucketedRisk(sector)` throws exactly when no
`UpdateBucketedRisk` call has been made for a sector of that name, that is, when the
sector cache holds no entry under the name. -/
theorem C30_bucketed_risk_failures (s0 s : BondRiskService) (calls : List RiskCall)
    (h0 : s0.bucketpv01Map = []) (hrun : s0.run calls = some s) (sector : BucketedSector) :
    (s.UpdateBucketedRisk sector = none ↔
      ∃ b ∈ sector.products, s.pv01Map.find b.productId = none) ∧
    (s.UpdateBucketedRiskE sector).toOption = s.UpdateBucketedRisk sector ∧
    (∀ s1 : BondRiskService, s.UpdateBucketedRiskE sector = Except.error s1 →
      s1.pv01Map = s.pv01Map ∧ s1.bucketpv01Map = s.bucketpv01Map ∧
      s.UpdateBucketedRisk sector = none) ∧
    (s.GetBucketedRisk sector = none ↔
      ∀ sec : BucketedSector, RiskCall.updateBucketedRisk sec ∈ calls →
        sec.name ≠ sector.name) ∧
    (s.GetBucketedRisk sector = none ↔
      sector.name ∉ s.bucketpv01Map.map (fun e => e.1)) := by
  refine ⟨?_, ?_, ?_, ?_, ?_⟩
  · rw [UpdateBucketedRisk_eq_none_iff, sumSector_eq_none_iff]
  · unfold BondRiskService.UpdateBucketedRiskE BondRiskService.UpdateBucketedRisk
    cases BondRiskService.sumSector s.pv01Map sector.products (0, 0) with
    | none => rfl
    | some r => rfl
  · intro s1 h1
    unfold BondRiskService.UpdateBucketedRiskE at h1
    cases hf : BondRiskService.sumSector s.pv01Map sector.products (0, 0) with
    | none =>
      rw [hf] at h1
      simp only [Except.error.injEq] at h1
      subst h1
      exact ⟨rfl, rfl, (UpdateBucketedRisk_eq_none_iff _ _).mpr hf⟩
    | some r =>
      rw [hf] at h1
      simp at h1
  · unfold BondRiskService.GetBucketedRisk
    rw [run_bucket_names calls s0 s hrun sector.name, h0]
    simp [SMap.find]
  · exact SMap.find_eq_none_iff _ _

/-- C30 at the two-bond risk service: for a sector holding a bond without entry the update
throws and leaves both caches as they were, and `GetBucketedRisk` throws for it; after the
update for the sample sector has returned, `GetBucketedRisk` returns for that sector and
still throws for the other. -/
theorem C30_bucketed_risk_failures_witness :
    (sectorRiskService 600000 200000).bucketpv01Map = [] ∧
    (sectorRiskService 600000 200000).run [] = some (sectorRiskService 600000 200000) ∧
    (sectorRiskService 600000 200000).UpdateBucketedRisk brokenSector = none ∧
    (∃ b ∈ brokenSector.products,
      (sectorRiskService 600000 200000).pv01Map.find b.productId = none) ∧
    ((sectorRiskService 600000 200000).GetBucketedRisk brokenSector).isNone = true ∧
    ((sectorRiskService 600000 200000).UpdateBucketedRisk sampleSector).isSome = true := by
  have h := C30_bucketed_risk_failures (sectorRiskService 600000 200000)
    (sectorRiskService 600000 200000) [] rfl rfl brokenSector
  have hnone : (sectorRiskService 600000 200000).UpdateBucketedRisk brokenSector = none := by
    rfl
  exact ⟨rfl, rfl, hnone, h.1.mp hnone, by rfl, by rfl⟩

/-! ### Deliveries to the history listener -/

/-- C26: with the listeners registered as in `main.cpp` (the history listener, handle `h`,
first and the quoting listener second) and the connector set, ingesting one inquiry in
state RECEIVED returns (at any depth bound of at least two) and delivers exactly three
`ProcessUpdate` calls to the history listener: the inquiry itself in state RECEIVED, then
the QUOTED re-emission, then the DONE re-emission, the last two at the quoted price 100.0
and otherwise with the fields of the ingested inquiry; these are also, in the same order,
the three entries into `OnMessage`. -/
theorem C26_history_listener_sees_three_updates (fuel : Nat) (s : BondInquiryService)
    (h : Nat) (data : Inquiry)
    (hls : s.listeners = [InquiryListener.sink h, InquiryListener.quoting])
    (hconn : s.connector = true) (hstate : data.state = InquiryState.RECEIVED) :
    ∃ (s1 : BondInquiryService) (t : List InquiryEvent),
      s.OnMessage (fuel + 2) data = some (s1, t) ∧
      processUpdateCalls (InquiryListener.sink h) t =
        [data,
          ⟨data.inquiryId, data.product, data.side, data.quantity, 100, InquiryState.QUOTED⟩,
          ⟨data.inquiryId, data.product, data.side, data.quantity, 100, InquiryState.DONE⟩] ∧
      (processUpdateCalls (InquiryListener.sink h) t).map (fun d => (d.state, d.price)) =
        [(InquiryState.RECEIVED, data.price), (InquiryState.QUOTED, 100),
          (InquiryState.DONE, 100)] ∧
      onMessageCalls t = processUpdateCalls (InquiryListener.sink h) t := by
  obtain ⟨ls, conn, m⟩ := s
  simp only at hls hconn
  subst hls
  subst hconn
  have hq : (⟨data.inquiryId, data.product, data.side, data.quantity, 100,
      InquiryState.QUOTED⟩ : Inquiry).state ≠ InquiryState.RECEIVED := by simp
  have hd : (⟨data.inquiryId, data.product, data.side, data.quantity, 100,
      InquiryState.DONE⟩ : Inquiry).state ≠ InquiryState.RECEIVED := by simp
  have hnr : data.state ≠ InquiryState.REJECTED := by rw [hstate]; decide
  rw [OnMessage_succ]
  simp only [BondInquiryService.notifyListeners, BondInquiryListener.ProcessUpdate,
    BondInquiryService.SendQuote, hstate, if_true, SMap.find_upsert_self,
    BondInquiryConnector.Publish, hnr, if_false, OnMessage_quiet _ _ _ hq,
    OnMessage_quiet _ _ _ hd]
  refine ⟨_, _, rfl, ?_, ?_, ?_⟩
  · simp [processUpdateCalls]
  · simp [processUpdateCalls, hstate]
  · simp [processUpdateCalls, onMessageCalls]

/-- C26 at the service wired as in `main.cpp`: the RECEIVED inquiry `I1` at price 99.5
reaches the history listener three times, as RECEIVED at 99.5, QUOTED at 100.0 and DONE at
100.0. -/
theorem C26_history_listener_sees_three_updates_witness :
    wiredInquiryService.listeners = [InquiryListener.sink 1, InquiryListener.quoting] ∧
    wiredInquiryService.connector = true ∧
    sampleInquiry.state = InquiryState.RECEIVED ∧
    ∃ (s1 : BondInquiryService) (t : List InquiryEvent),
      wiredInquiryService.OnMessage 2 sampleInquiry = some (s1, t) ∧
      (processUpdateCalls (InquiryListener.sink 1) t).map (fun d => (d.state, d.price)) =
        [(InquiryState.RECEIVED, 995 / 10), (InquiryState.QUOTED, 100),
          (InquiryState.DONE, 100)] := by
  obtain ⟨s1, t, h1, _, h3, _⟩ :=
    C26_history_listener_sees_three_updates 0 wiredInquiryService 1 sampleInquiry rfl rfl rfl
  exact ⟨rfl, rfl, rfl, s1, t, h1, h3⟩

/-! ### Position stage feeding the risk stage -/

/-- The running aggregates of a list extended by one quantity. -/
theorem runningAggregates_append_single (qs : List Int) (q : Int) :
    runningAggregates (qs ++ [q]) = runningAggregates qs ++ [qs.sum + q] := by
  unfold runningAggregates
  rw [List.length_append, List.length_singleton, List.range_succ, List.map_append]
  congr 1
  · apply List.map_congr_left
    intro i hi
    rw [List.mem_range] at hi
    rw [List.take_append_of_le_length (by omega)]
  · simp

/-- The magnitude of a sum is at most the sum of the magnitudes. -/
theorem natAbs_sum_le (l : List Int) :
    ((l.sum).natAbs : Int) ≤ (l.map (fun a => (a.natAbs : Int))).sum := by
  induction l with
  | nil => simp
  | cons a rest ih =>
    simp only [List.sum_cons, List.map_cons]
    omega

/-- One trade on bond `B` through the wired services, when the magnitudes of the book
positions and of the quantity add up to at most `LONG_MAX` and the new risk quantity is in
the 64-bit range: the position's aggregate moves by the signed quantity and the new
aggregate is added to the risk quantity. -/
theorem positionRiskStep_on (h : Nat) (ps : BondPositionService) (rs : BondRiskService)
    (t : Trade) (p : Position) (pv : PV01 Bond)
    (hl : ps.listeners.count h = 1)
    (hp : ps.positionMap.find t.product.productId = some p)
    (hprod : p.product.productId = t.product.productId)
    (hpv : rs.pv01Map.find t.product.productId = some pv)
    (hb : (p.positions.map (fun e => (e.2.natAbs : Int))).sum + (t.quantity.natAbs : Int)
      ≤ LONG_MAX)
    (hr1 : LONG_MIN ≤ (p.GetAggregatePosition + signedQuantity t) + pv.quantity)
    (hr2 : (p.GetAggregatePosition + signedQuantity t) + pv.quantity ≤ LONG_MAX) :
    ∃ (ps1 : BondPositionService) (rs1 : BondRiskService) (p1 : Position),
      positionRiskStep h (ps, rs) t = some (ps1, rs1) ∧
      ps1.listeners = ps.listeners ∧
      ps1.positionMap.find t.product.productId = some p1 ∧
      p1.product.productId = t.product.productId ∧
      p1.GetAggregatePosition = p.GetAggregatePosition + signedQuantity t ∧
      (p1.positions.map (fun e => (e.2.natAbs : Int))).sum
        ≤ (p.positions.map (fun e => (e.2.natAbs : Int))).sum + (t.quantity.natAbs : Int) ∧
      rs1.pv01Map.find t.product.productId =
        some ⟨pv.product, pv.pv01,
          (p.GetAggregatePosition + signedQuantity t) + pv.quantity⟩ := by
  have hM : LONG_MAX = 9223372036854775807 := rfl
  have hg : ps.positionMap.getD t.product.productId Position.default = p := by
    simp [SMap.getD, hp]
  have hsq := signedQuantity_natAbs t
  have hnn := sum_natAbs_nonneg p.positions (fun e => e.2)
  have hw : wrapLong (signedQuantity t) = signedQuantity t :=
    wrapLong_of_natAbs _ (by omega)
  obtain ⟨hagg, habs⟩ :=
    GetAggregatePosition_AddNewPosition p t.book (signedQuantity t) (by omega)
  have hpv2 : rs.pv01Map.find (p.AddNewPosition t.book (signedQuantity t)).GetProduct.productId
      = some pv := by
    have : (p.AddNewPosition t.book (signedQuantity t)).GetProduct.productId
        = t.product.productId := hprod
    rw [this, hpv]
  refine ⟨(ps.AddTrade t).1,
    { rs with pv01Map := (rs.pv01Map.upsert t.product.productId
        ⟨pv.product, pv.pv01, (p.GetAggregatePosition + signedQuantity t) + pv.quantity⟩) },
    p.AddNewPosition t.book (signedQuantity t), ?_, ?_, ?_, hprod, hagg, ?_, ?_⟩
  · unfold positionRiskStep
    dsimp only
    rw [AddTrade_eq, hg, hw]
    dsimp only
    rw [deliveredTo_fanout h ps.listeners _ hl]
    simp only [List.foldlM_cons, List.foldlM_nil, BondRiskListener.ProcessUpdate,
      BondRiskService.AddPosition, hpv2, Option.map_some', Option.bind_eq_bind,
      Option.some_bind, Option.pure_def, Option.bind_some]
    have hid : (p.AddNewPosition t.book (signedQuantity t)).GetProduct.productId
        = t.product.productId := hprod
    rw [hid, hagg, wrapLong_of_range _ hr1 hr2]
  · rw [AddTrade_eq]
  · rw [AddTrade_eq, hg, hw]
    exact SMap.find_upsert_self _ _ _
  · rw [hsq] at habs
    exact habs
  · exact SMap.find_upsert_self _ _ _

/-- Trades on bond `B` through the wired services, from a state in which the position of
`B` has no book and the risk quantity of `B` is zero, when the magnitudes of the quantities
and the magnitudes of the running aggregates each add up to at most `LONG_MAX`: the
aggregate position becomes the net signed quantity, and the risk quantity the sum of the
running aggregates. -/
theorem positionRiskRun_on (h : Nat) (ps : BondPositionService) (rs : BondRiskService)
    (B : Bond) (pv : PV01 Bond) (p : Position)
    (hl : ps.listeners.count h = 1)
    (hp : ps.positionMap.find B.productId = some p)
    (hprod : p.product.productId = B.productId)
    (hempty : p.positions = [])
    (hpv : rs.pv01Map.find B.productId = some pv)
    (hq0 : pv.quantity = 0)
    (trades : List Trade) (htrades : ∀ t ∈ trades, t.product.productId = B.productId)
    (hgross : (trades.map (fun t => (t.quantity.natAbs : Int))).sum ≤ LONG_MAX)
    (hrun : ((runningAggregates (trades.map signedQuantity)).map
      (fun a => (a.natAbs : Int))).sum ≤ LONG_MAX) :
    ∃ (ps1 : BondPositionService) (rs1 : BondRiskService) (p1 : Position),
      positionRiskRun h (ps, rs) trades = some (ps1, rs1) ∧
      ps1.listeners = ps.listeners ∧
      ps1.positionMap.find B.productId = some p1 ∧
      p1.product.productId = B.productId ∧
      p1.GetAggregatePosition = (trades.map signedQuantity).sum ∧
      (p1.positions.map (fun e => (e.2.natAbs : Int))).sum
        ≤ (trades.map (fun t => (t.quantity.natAbs : Int))).sum ∧
      rs1.pv01Map.find B.productId =
        some ⟨pv.product, pv.pv01, (runningAggregates (trades.map signedQuantity)).sum⟩ := by
  have hM : LONG_MAX = 9223372036854775807 := rfl
  have hL : LONG_MIN = -9223372036854775808 := rfl
  induction trades using List.reverseRecOn with
  | nil =>
    refine ⟨ps, rs, p, rfl, rfl, hp, hprod, ?_, ?_, ?_⟩
    · unfold Position.GetAggregatePosition
      rw [hempty]
      rfl
    · rw [hempty]
      simp
    · rw [hpv]
      simp [runningAggregates, ← hq0]
  | append_singleton hist t ih =>
    have hhist : ∀ x ∈ hist, x.product.productId = B.productId :=
      fun x hx => htrades x (List.mem_append_left _ hx)
    have ht : t.product.productId = B.productId := htrades t (by simp)
    simp only [List.map_append, List.map_cons, List.map_nil, List.sum_append, List.sum_cons,
      List.sum_nil, add_zero, runningAggregates_append_single] at hgross hrun
    have hn1 := sum_natAbs_nonneg hist (fun t => t.quantity)
    have hn2 := sum_natAbs_nonneg (runningAggregates (hist.map signedQuantity)) (fun a => a)
    obtain ⟨ps1, rs1, p1, hrun1, hl1, hp1, hprod1, hagg1, habs1, hrisk1⟩ :=
      ih hhist (by omega) (by omega)
    rw [← ht] at hp1 hprod1 hrisk1
    have hsum := natAbs_sum_le (runningAggregates (hist.map signedQuantity))
    obtain ⟨ps2, rs2, p2, hstep, hl2, hp2, hprod2, hagg2, habs2, hrisk2⟩ :=
      positionRiskStep_on h ps1 rs1 t p1 _ (by rw [hl1]; exact hl) hp1 hprod1 hrisk1
        (by omega) (by dsimp only; rw [hagg1]; omega) (by dsimp only; rw [hagg1]; omega)
    refine ⟨ps2, rs2, p2, ?_, by rw [hl2, hl1], by rw [← ht]; exact hp2,
      by rw [← ht]; exact hprod2, ?_, ?_, ?_⟩
    · unfold positionRiskRun at hrun1 ⊢
      rw [List.foldlM_append, hrun1]
      simp only [List.foldlM_cons, List.foldlM_nil, Option.bind_eq_bind, Option.some_bind,
        hstep, Option.pure_def, Option.bind_some]
    · rw [hagg2, hagg1]
      simp only [List.map_append, List.map_cons, List.map_nil, List.sum_append,
        List.sum_cons, List.sum_nil]
      omega
    · simp only [List.map_append, List.map_cons, List.map_nil, List.sum_append,
        List.sum_cons, List.sum_nil]
      omega
    · rw [← ht, hrisk2, hagg1]
      simp only [List.map_append, List.map_cons, List.map_nil,
        runningAggregates_append_single, List.sum_append, List.sum_cons, List.sum_nil]
      congr 2
      omega

/-- Registering listeners appends them to the listeners of the position service. -/
theorem AddListeners_listeners (ls : List Nat) (s : BondPositionService) :
    (s.AddListeners ls).listeners = s.listeners ++ ls := by
  unfold BondPositionService.AddListeners
  induction ls generalizing s with
  | nil => simp
  | cons l rest ih =>
    rw [List.foldl_cons, ih]
    simp [BondPositionService.AddListener]

/-- Registering listeners does not touch the per-bond cache of the risk service. -/
theorem AddListeners_pv01Map (ls : List Nat) (s : BondRiskService) :
    (s.AddListeners ls).pv01Map = s.pv01Map := by
  unfold BondRiskService.AddListeners
  induction ls generalizing s with
  | nil => rfl
  | cons l rest ih =>
    rw [List.foldl_cons, ih]
    rfl

/-- Every entry of a freshly constructed position service is the empty position of a bond
stored under that bond's product id. -/
theorem new_positions_keyed (ps : BondProductService) (ticker : String) (pid : String)
    (p : Position) (h : (BondPositionService.new ps ticker).positionMap.find pid = some p) :
    p.product.productId = pid ∧ p.positions = [] := by
  have hfold : ∀ (bs : List Bond) (m : SMap Position),
      (∀ e ∈ m, e.2.product.productId = e.1 ∧ e.2.positions = []) →
      ∀ e ∈ bs.foldl (fun m b => m.insert b.productId (Position.ofProduct b)) m,
        e.2.product.productId = e.1 ∧ e.2.positions = [] := by
    intro bs
    induction bs with
    | nil => intro m hm; exact hm
    | cons b rest ih =>
      intro m hm
      rw [List.foldl_cons]
      apply ih
      intro e he
      unfold SMap.insert at he
      cases hf : m.find b.productId with
      | some v =>
        rw [hf] at he
        exact hm e he
      | none =>
        rw [hf] at he
        rcases List.mem_append.mp he with h1 | h1
        · exact hm e h1
        · rw [List.mem_singleton] at h1
          rw [h1]
          exact ⟨rfl, rfl⟩
  exact hfold _ [] (by simp) (pid, p) (find_mem _ _ _ h)

/-- Every entry of a freshly constructed risk service has quantity zero. -/
theorem new_pv01_quantity_zero (ps : BondProductService) (table : SMap ℚ) (pid : String)
    (pv : PV01 Bond) (h : (BondRiskService.new ps table).pv01Map.find pid = some pv) :
    pv.quantity = 0 := by
  have hfold : ∀ (es : SMap ℚ) (acc : BondProductService × SMap (PV01 Bond)),
      (∀ e ∈ acc.2, e.2.quantity = 0) →
      ∀ e ∈ (es.foldl
          (fun (acc : BondProductService × SMap (PV01 Bond)) (e : String × ℚ) =>
            ((acc.1.GetData e.1).2, acc.2.insert e.1 ⟨(acc.1.GetData e.1).1, e.2, 0⟩))
          acc).2, e.2.quantity = 0 := by
    intro es
    induction es with
    | nil => intro acc hm; exact hm
    | cons x rest ih =>
      intro acc hm
      rw [List.foldl_cons]
      apply ih
      intro e he
      dsimp only at he
      unfold SMap.insert at he
      cases hf : acc.2.find x.1 with
      | some v =>
        rw [hf] at he
        exact hm e he
      | none =>
        rw [hf] at he
        rcases List.mem_append.mp he with h1 | h1
        · exact hm e h1
        · rw [List.mem_singleton] at h1
          rw [h1]
  exact hfold table (ps, []) (by simp) (pid, pv) (find_mem _ _ _ h)

/-- The sum of the running aggregates is the sum of the earlier ones plus the net
quantity. -/
theorem runningAggregates_sum (qs : List Int) :
    (runningAggregates qs).sum = (runningAggregates qs).dropLast.sum + qs.sum := by
  induction qs using List.reverseRecOn with
  | nil => rfl
  | append_singleton init q _ =>
    rw [runningAggregates_append_single, List.dropLast_concat]
    simp

/-- C27 as stated fails beyond the 64-bit range: after BUY 4,611,686,018,427,387,904,
BUY 1 and BUY 1 of the sample bond through the freshly constructed sample services the
running aggregates add up to 13,835,058,055,282,163,715, but the risk quantity is
−4,611,686,018,427,387,901. -/
theorem C27_risk_quantity_wraps_beyond_long :
    (runningAggregates ([halfBuyTrade, unitBuyTrade, unitBuyTrade].map signedQuantity)).sum
      = 13835058055282163715 ∧
    (positionRiskRun 3 (samplePositionService, sampleRiskService)
        [halfBuyTrade, unitBuyTrade, unitBuyTrade]).bind
        (fun r => riskQuantity r.2 "912828M80") = some (-4611686018427387901) := by
  refine ⟨by decide, by rfl⟩

/-- C27: a freshly constructed position service (any listeners, the risk listener `h`
registered once) and a freshly constructed risk service (any listeners), both holding
bond `B`, are wired Position → Risk.  After `k` trades on `B` with signed quantities
`q₁ … q_k`, if the absolute values of the quantities and the absolute values of the running
aggregates `q₁ + … + q_i` each add up to at most 9,223,372,036,854,775,807, the run
returns, the position of `B` has aggregate `q₁ + … + q_k`, and the risk service's PV01
quantity for `B` is the sum over `i = 1 … k` of the running aggregates.  It differs from
the net position exactly when the running aggregates before the last one do not sum to zero
(which needs `k ≥ 2`). -/
theorem C27_risk_quantity_sums_running_aggregates (products : BondProductService)
    (ticker : String) (table : SMap ℚ) (pls rls : List Nat) (h : Nat) (B : Bond)
    (p : Position) (pv : PV01 Bond) (trades : List Trade)
    (hl : pls.count h = 1)
    (hp : ((BondPositionService.new products ticker).AddListeners pls).positionMap.find
      B.productId = some p)
    (hpv : ((BondRiskService.new products table).AddListeners rls).pv01Map.find
      B.productId = some pv)
    (htrades : ∀ t ∈ trades, t.product.productId = B.productId)
    (hgross : (trades.map (fun t => (t.quantity.natAbs : Int))).sum ≤ LONG_MAX)
    (hrunning : ((runningAggregates (trades.map signedQuantity)).map
      (fun a => (a.natAbs : Int))).sum ≤ LONG_MAX) :
    ∃ (ps1 : BondPositionService) (rs1 : BondRiskService) (p1 : Position) (pv1 : PV01 Bond),
      positionRiskRun h ((BondPositionService.new products ticker).AddListeners pls,
        (BondRiskService.new products table).AddListeners rls) trades = some (ps1, rs1) ∧
      ps1.positionMap.find B.productId = some p1 ∧
      p1.GetAggregatePosition = (trades.map signedQuantity).sum ∧
      rs1.pv01Map.find B.productId = some pv1 ∧
      pv1.pv01 = pv.pv01 ∧
      pv1.quantity = (runningAggregates (trades.map signedQuantity)).sum ∧
      (pv1.quantity ≠ (trades.map signedQuantity).sum ↔
        (runningAggregates (trades.map signedQuantity)).dropLast.sum ≠ 0) ∧
      (trades.length ≤ 1 → pv1.quantity = (trades.map signedQuantity).sum) := by
  have hp2 := hp
  rw [AddListeners_positionMap] at hp2
  obtain ⟨hprod, hempty⟩ := new_positions_keyed products ticker _ p hp2
  have hpv2 := hpv
  rw [AddListeners_pv01Map] at hpv2
  have hq0 := new_pv01_quantity_zero products table _ pv hpv2
  have hl2 : ((BondPositionService.new products ticker).AddListeners pls).listeners.count h
      = 1 := by
    rw [AddListeners_listeners]
    simpa [BondPositionService.new] using hl
  obtain ⟨ps1, rs1, p1, hrun, _, hp1, _, hagg1, _, hrisk1⟩ :=
    positionRiskRun_on h _ _ B pv p hl2 hp hprod hempty hpv hq0 trades htrades hgross
      hrunning
  have hsum := runningAggregates_sum (trades.map signedQuantity)
  refine ⟨ps1, rs1, p1, _, hrun, hp1, hagg1, hrisk1, rfl, rfl, ?_, ?_⟩
  · dsimp only
    rw [hsum]
    constructor
    · intro hne h0
      apply hne
      rw [h0]
      simp
    · intro hne heq
      apply hne
      omega
  · intro hlen
    dsimp only
    rw [hsum]
    have : (runningAggregates (trades.map signedQuantity)).dropLast = [] := by
      cases trades with
      | nil => rfl
      | cons t rest =>
        cases rest with
        | nil => rfl
        | cons t2 rest2 => simp at hlen
    rw [this]
    simp

/-- C27 at the position-cascade scenario: BUY 1,000,000 then SELL 400,000 of the sample
bond through the freshly constructed sample services give running aggregates 1,000,000 and
600,000, so the risk quantity is 1,600,000 while the net position is 600,000. -/
theorem C27_risk_quantity_sums_running_aggregates_witness :
    [3].count 3 = 1 ∧
    (∀ t ∈ [buyTrade, sellTrade], t.product.productId = sampleBond.productId) ∧
    ([buyTrade, sellTrade].map (fun t => (t.quantity.natAbs : Int))).sum ≤ LONG_MAX ∧
    ((runningAggregates ([buyTrade, sellTrade].map signedQuantity)).map
      (fun a => (a.natAbs : Int))).sum ≤ LONG_MAX ∧
    ∃ (ps1 : BondPositionService) (rs1 : BondRiskService) (p1 : Position) (pv1 : PV01 Bond),
      positionRiskRun 3 (samplePositionService, sampleRiskService) [buyTrade, sellTrade]
        = some (ps1, rs1) ∧
      ps1.positionMap.find "912828M80" = some p1 ∧
      p1.GetAggregatePosition = 600000 ∧
      rs1.pv01Map.find "912828M80" = some pv1 ∧
      pv1.quantity = 1600000 := by
  have hp : ((BondPositionService.new sampleProducts "T").AddListeners [3]).positionMap.find
      sampleBond.productId = some (Position.ofProduct sampleBond) := by decide
  have hpv : ((BondRiskService.new sampleProducts [("912828M80", 185 / 10000)]).AddListeners
      [5]).pv01Map.find sampleBond.productId = some ⟨sampleBond, 185 / 10000, 0⟩ := by rfl
  have htr : ∀ t ∈ [buyTrade, sellTrade], t.product.productId = sampleBond.productId := by
    intro t ht
    simp only [List.mem_cons, List.mem_singleton, List.not_mem_nil, or_false] at ht
    rcases ht with rfl | rfl <;> rfl
  have hg : ([buyTrade, sellTrade].map (fun t => (t.quantity.natAbs : Int))).sum
      ≤ LONG_MAX := by decide
  have hr : ((runningAggregates ([buyTrade, sellTrade].map signedQuantity)).map
      (fun a => (a.natAbs : Int))).sum ≤ LONG_MAX := by decide
  obtain ⟨ps1, rs1, p1, pv1, h1, h2, h3, h4, _, h6, _⟩ :=
    C27_risk_quantity_sums_running_aggregates sampleProducts "T"
      [("912828M80", 185 / 10000)] [3] [5] 3 sampleBond _ _ [buyTrade, sellTrade]
      (by decide) hp hpv htr hg hr
  refine ⟨by decide, htr, hg, hr, ps1, rs1, p1, pv1, h1, h2, ?_, h4, ?_⟩
  · rw [h3]
    decide
  · rw [h6]
    decide

/-! ### Trade booking stage -/

/-- The events of one `BookTrade` call hold exactly one booked trade. -/
theorem bookedTrades_BookTrade (s : BondTradeBookingService) (t : Trade) :
    bookedTrades (s.BookTrade t).2 = [t] := by
  have h : ∀ ls : List Nat,
      bookedTrades (ls.map (fun l => BookingEvent.processUpdate l t)) = [] := by
    intro ls
    induction ls with
    | nil => rfl
    | cons l rest ih => simpa [bookedTrades] using ih
  simp [BondTradeBookingService.BookTrade, bookedTrades, h]

/-- The booked trades of two consecutive runs of events. -/
theorem bookedTrades_append (a b : List BookingEvent) :
    bookedTrades (a ++ b) = bookedTrades a ++ bookedTrades b := by
  induction a with
  | nil => rfl
  | cons e rest ih =>
    cases e <;> simp [bookedTrades, ih]

/-- The call `ProcessAdd` is one `BookTrade` call, for the trade synthesised from the
execution order and the current counter. -/
theorem ProcessAdd_eq (s : BondTradeBookingService) (data : ExecutionOrder) :
    BondTradeBookingListener.ProcessAdd s data =
      s.BookTrade
        ⟨data.product, tradeIdOf data.product s.counter, data.price,
          if s.counter.tmod 3 = 0 then "TRSY1" else if s.counter.tmod 3 = 1 then "TRSY2"
          else "TRSY3",
          wrapLong (data.hiddenQuantity + data.visibleQuantity),
          if data.side = PricingSide.BID then Side.SELL else Side.BUY⟩ :=
  rfl

/-- C21 as stated fails beyond the 64-bit range: for the execution order with visible
quantity 9,223,372,036,854,775,807 and hidden quantity 1, `visible + hidden` is
9,223,372,036,854,775,808, but the trade booked has quantity −9,223,372,036,854,775,808. -/
theorem C21_ProcessAdd_wraps_beyond_long :
    overflowExecution.visibleQuantity + overflowExecution.hiddenQuantity
      = 9223372036854775808 ∧
    (bookedTrades (BondTradeBookingListener.ProcessAdd (BondTradeBookingService.freshWith [7])
        overflowExecution).2).map (fun t => t.quantity) = [-9223372036854775808] := by
  refine ⟨by decide, ?_⟩
  rw [ProcessAdd_eq, bookedTrades_BookTrade]
  decide

/-- C21: for every state of the trade booking service and every execution order delivered
to `BondTradeBookingListener::ProcessAdd` whose `visible + hidden` lies between
−9,223,372,036,854,775,808 and 9,223,372,036,854,775,807, the call makes exactly one
`BookTrade` call; the trade `t` it books (stored under its identifier and passed to every
listener's `ProcessUpdate`) has the execution's product, side SELL for an execution on side
BID and BUY for one on side OFFER, quantity `visible + hidden` and the execution's price. -/
theorem C21_ProcessAdd_books_trade (s : BondTradeBookingService) (data : ExecutionOrder)
    (hq : LONG_MIN ≤ data.visibleQuantity + data.hiddenQuantity ∧
      data.visibleQuantity + data.hiddenQuantity ≤ LONG_MAX) :
    ∃ t : Trade,
      bookedTrades (BondTradeBookingListener.ProcessAdd s data).2 = [t] ∧
      BondTradeBookingListener.ProcessAdd s data = s.BookTrade t ∧
      (BondTradeBookingListener.ProcessAdd s data).1.tradeMap.find t.tradeId = some t ∧
      (BondTradeBookingListener.ProcessAdd s data).2 =
        BookingEvent.bookTrade t ::
          s.listeners.map (fun l => BookingEvent.processUpdate l t) ∧
      t.product = data.product ∧
      t.side = (match data.side with
        | PricingSide.BID => Side.SELL
        | PricingSide.OFFER => Side.BUY) ∧
      t.quantity = data.visibleQuantity + data.hiddenQuantity ∧
      t.price = data.price := by
  rw [ProcessAdd_eq]
  refine ⟨_, bookedTrades_BookTrade _ _, rfl, SMap.find_upsert_self _ _ _, rfl, rfl, ?_, ?_,
    rfl⟩
  · cases data.side <;> rfl
  · dsimp only
    rw [Int.add_comm data.hiddenQuantity, wrapLong_of_range _ hq.1 hq.2]

/-- C21 at the sample execution order (OFFER, visible 400,000, hidden 1,600,000, price
100 + 4/256) on a fresh service with one listener: the trade booked is a BUY of 2,000,000
at that price. -/
theorem C21_ProcessAdd_books_trade_witness :
    (LONG_MIN ≤ sampleExecution.visibleQuantity + sampleExecution.hiddenQuantity ∧
      sampleExecution.visibleQuantity + sampleExecution.hiddenQuantity ≤ LONG_MAX) ∧
    ∃ t : Trade,
      bookedTrades (BondTradeBookingListener.ProcessAdd (BondTradeBookingService.freshWith [7])
        sampleExecution).2 = [t] ∧
      t.side = Side.BUY ∧ t.quantity = 2000000 ∧ t.price = 100 + 4 / 256 := by
  have hq : LONG_MIN ≤ sampleExecution.visibleQuantity + sampleExecution.hiddenQuantity ∧
      sampleExecution.visibleQuantity + sampleExecution.hiddenQuantity ≤ LONG_MAX := by
    decide
  obtain ⟨t, h1, _, _, _, _, h6, h7, h8⟩ :=
    C21_ProcessAdd_books_trade (BondTradeBookingService.freshWith [7]) sampleExecution hq
  exact ⟨hq, t, h1, h6, h7, h8⟩

/-- Every input of the trade booking stage is one `BookTrade` call: one booked trade, and
the counter moves by one. -/
theorem handle_one_booking (s : BondTradeBookingService) (i : BookingInput) :
    (bookedTrades (s.handle i).2).length = 1 ∧ (s.handle i).1.counter = s.counter + 1 := by
  cases i with
  | ingress t =>
    exact ⟨by rw [BondTradeBookingService.handle, BondTradeBookingService.OnMessage,
      bookedTrades_BookTrade]; rfl, rfl⟩
  | execution e =>
    exact ⟨by rw [BondTradeBookingService.handle, ProcessAdd_eq, bookedTrades_BookTrade]; rfl,
      rfl⟩

/-- Along a sequence of inputs the counter moves by the number of `BookTrade` calls, which
is the number of inputs. -/
theorem run_counter (inputs : List BookingInput) :
    ∀ s : BondTradeBookingService,
      (s.run inputs).1.counter = s.counter + ((bookedTrades (s.run inputs).2).length : Int) ∧
      (bookedTrades (s.run inputs).2).length = inputs.length := by
  induction inputs with
  | nil =>
    intro s
    simp [BondTradeBookingService.run, bookedTrades]
  | cons i rest ih =>
    intro s
    obtain ⟨h1, h2⟩ := handle_one_booking s i
    obtain ⟨i1, i2⟩ := ih (s.handle i).1
    simp only [BondTradeBookingService.run, bookedTrades_append, List.length_append,
      List.length_cons]
    rw [i1, i2, h1, h2]
    constructor
    · push_cast
      omega
    · omega

/-- The book chosen by `ProcessAdd` when the counter is the natural number `n`. -/
theorem ProcessAdd_book (s : BondTradeBookingService) (n : Nat) (hc : s.counter = (n : Int))
    (e : ExecutionOrder) :
    (bookedTrades (BondTradeBookingListener.ProcessAdd s e).2).map (fun t => t.book)
      = [bookName (n % 3)] := by
  rw [ProcessAdd_eq, bookedTrades_BookTrade]
  have ht : (n : Int).tmod 3 = ((n % 3 : Nat) : Int) := by
    rw [Int.tmod_eq_emod (by omega) (by decide)]
    omega
  have hlt : n % 3 < 3 := Nat.mod_lt _ (by decide)
  simp only [List.map_cons, List.map_nil, hc, ht]
  interval_cases (n % 3) <;> simp [bookName]

/-- Consecutive executions, starting when the counter is `n`: the books of the trades they
book follow the counter modulo three. -/
theorem run_executions_books (es : List ExecutionOrder) :
    ∀ (s : BondTradeBookingService) (n : Nat), s.counter = (n : Int) →
      (bookedTrades (s.run (es.map BookingInput.execution)).2).map (fun t => t.book)
        = (List.range es.length).map (fun i => bookName ((n + i) % 3)) := by
  induction es with
  | nil =>
    intro s n _
    rfl
  | cons e rest ih =>
    intro s n hc
    have hstep : (s.handle (BookingInput.execution e)).1.counter = ((n + 1 : Nat) : Int) := by
      rw [(handle_one_booking s _).2, hc]
      push_cast
      rfl
    have hrest := ih (s.handle (BookingInput.execution e)).1 (n + 1) hstep
    simp only [List.map_cons, BondTradeBookingService.run, bookedTrades_append,
      List.map_append, List.length_cons]
    rw [hrest, List.range_succ_eq_map, List.map_cons, List.map_map]
    have hfirst := ProcessAdd_book s n hc e
    have hh : s.handle (BookingInput.execution e) = BondTradeBookingListener.ProcessAdd s e :=
      rfl
    rw [hh, hfirst]
    simp only [List.singleton_append, Nat.add_zero, List.cons.injEq, true_and]
    apply List.map_congr_left
    intro i _
    simp only [Function.comp, Nat.succ_eq_add_one]
    congr 2
    omega

/-- C22: on a freshly constructed trade booking service (any listeners), after any sequence
of inputs (trades from the ingress connector and execution orders delivered to the
listener, trade identifiers repeating or not) the counter equals the number of `BookTrade`
calls made so far, which is the number of inputs handled; further inputs never decrease
it; a trade synthesised from an execution when the counter is `c` goes to book `TRSY1`,
`TRSY2` or `TRSY3` according as `c mod 3` is 0, 1 or 2; and consecutive executions book
their trades in the books named by `c mod 3`, `(c+1) mod 3`, `(c+2) mod 3`, … in turn. -/
theorem C22_counter_counts_bookings (ls : List Nat) (inputs more : List BookingInput)
    (e : ExecutionOrder) (es : List ExecutionOrder) :
    ((BondTradeBookingService.freshWith ls).run inputs).1.GetCounter =
      ((bookedTrades ((BondTradeBookingService.freshWith ls).run inputs).2).length : Int) ∧
    (bookedTrades ((BondTradeBookingService.freshWith ls).run inputs).2).length
      = inputs.length ∧
    ((BondTradeBookingService.freshWith ls).run inputs).1.GetCounter ≤
      ((BondTradeBookingService.freshWith ls).run (inputs ++ more)).1.GetCounter ∧
    (bookedTrades (BondTradeBookingListener.ProcessAdd
        ((BondTradeBookingService.freshWith ls).run inputs).1 e).2).map (fun t => t.book)
      = [bookName (inputs.length % 3)] ∧
    (bookedTrades ((BondTradeBookingService.run
        ((BondTradeBookingService.freshWith ls).run inputs).1
        (es.map BookingInput.execution)).2)).map (fun t => t.book)
      = (List.range es.length).map (fun i => bookName ((inputs.length + i) % 3)) := by
  obtain ⟨h1, h2⟩ := run_counter inputs (BondTradeBookingService.freshWith ls)
  obtain ⟨k1, k2⟩ := run_counter (inputs ++ more) (BondTradeBookingService.freshWith ls)
  have hc : ((BondTradeBookingService.freshWith ls).run inputs).1.counter
      = (inputs.length : Int) := by
    rw [h1, h2]
    simp [BondTradeBookingService.freshWith]
  refine ⟨?_, h2, ?_, ProcessAdd_book _ _ hc e, run_executions_books es _ _ hc⟩
  · unfold BondTradeBookingService.GetCounter
    rw [hc, h2]
  · unfold BondTradeBookingService.GetCounter
    rw [hc, k1, k2]
    simp [BondTradeBookingService.freshWith]

/-! ### Algo-execution → execution → trade booking -/

/-- The chain for one order book on which `AddOrder` emits, with each listener registered
once: one trade is booked, synthesised from the built order. -/
theorem pipeline_emit (g : OrderBook → BidOffer) (rand : Nat → Int) (hExec hBook : Nat)
    (p : ExecutionPipeline) (ob : OrderBook)
    (h : (g ob).bidOrder.price - (g ob).offerOrder.price ≤ 1 / 128)
    (hE : p.algo.listeners.count hExec = 1) (hB : p.execution.listeners.count hBook = 1) :
    (p.AddOrder g rand hExec hBook ob).2 =
      (BondTradeBookingListener.ProcessAdd p.booking
        (builtOrder (g ob) ob.product p.algo.counter)).2 := by
  unfold ExecutionPipeline.AddOrder
  dsimp only
  rw [AddOrder_emit g p.algo ob h]
  dsimp only
  rw [deliveredTo_fanout hExec p.algo.listeners _ hE]
  simp only [ExecutionPipeline.executeAll, BondExecutionListener.ProcessUpdate,
    BondExecutionService.ExecuteOrder, AlgoExecution.GetOrder]
  rw [deliveredTo_fanout hBook p.execution.listeners _ hB]
  simp [ExecutionPipeline.bookAll]

/-- C28: through the chain algo-execution → execution → trade booking, with the execution
listener registered once on the algo-execution service and the trade-booking listener
registered once on the execution service, for every order book on which `AddOrder` emits an
execution `a`, and whatever values `rand()` returns for the choice of the venue, exactly
one trade is booked; its quantity is the top-of-book quantity `q` on the side of `a`, a
value of the type `long` (any quantity between −9,223,372,036,854,775,808 and
9,223,372,036,854,775,807, divisible by 5 or not; in general the quantity is `q` reduced to
that range), its side is BUY when `a` is on side OFFER and SELL when it is on side BID, its
price is the price of `a` and its product the product of the book. -/
theorem C28_pipeline_books_top_quantity (g : OrderBook → BidOffer) (rand : Nat → Int)
    (hExec hBook : Nat) (p : ExecutionPipeline) (ob : OrderBook) (a : AlgoExecution)
    (hE : p.algo.listeners.count hExec = 1) (hB : p.execution.listeners.count hBook = 1)
    (hem : emittedBy g p.algo ob = some a) :
    ∃ t : Trade,
      bookedTrades (p.AddOrder g rand hExec hBook ob).2 = [t] ∧
      t.quantity = wrapLong (topQuantity (g ob) a.order.side) ∧
      (LONG_MIN ≤ topQuantity (g ob) a.order.side →
        topQuantity (g ob) a.order.side ≤ LONG_MAX →
        t.quantity = topQuantity (g ob) a.order.side) ∧
      t.side = (match a.order.side with
        | PricingSide.OFFER => Side.BUY
        | PricingSide.BID => Side.SELL) ∧
      t.price = a.order.price ∧
      t.product = ob.product := by
  by_cases h : (g ob).bidOrder.price - (g ob).offerOrder.price ≤ 1 / 128
  · rw [emittedBy_emit g p.algo ob h] at hem
    have ha : a = ⟨builtOrder (g ob) ob.product p.algo.counter⟩ := (Option.some.inj hem).symm
    subst ha
    rw [pipeline_emit g rand hExec hBook p ob h hE hB, ProcessAdd_eq]
    have hh := builtOrder_hidden (g ob) ob.product p.algo.counter
    have hq : (builtOrder (g ob) ob.product p.algo.counter).hiddenQuantity
        + (builtOrder (g ob) ob.product p.algo.counter).visibleQuantity
        = topQuantity (g ob) (builtOrder (g ob) ob.product p.algo.counter).side := by
      omega
    refine ⟨_, bookedTrades_BookTrade _ _, ?_, ?_, ?_, rfl, ?_⟩
    · dsimp only
      rw [hq]
    · intro h1 h2
      dsimp only at h1 h2 ⊢
      rw [hq, wrapLong_of_range _ h1 h2]
    · dsimp only
      cases (builtOrder (g ob) ob.product p.algo.counter).side <;> rfl
    · dsimp only
      unfold builtOrder
      split <;> rfl
  · rw [emittedBy_skip g p.algo ob h] at hem
    exact absurd hem (by simp)

/-- C28 on the chain wired as in `main.cpp`, for a book whose best offer holds 2,000,007
(not divisible by 5): the order emitted on side OFFER splits into 400,001 visible and
1,600,006 hidden, and the trade booked is a BUY of 2,000,007 in book `TRSY1` at the price
of the execution. -/
theorem C28_pipeline_books_top_quantity_witness :
    wiredPipeline.algo.listeners.count 1 = 1 ∧
    wiredPipeline.execution.listeners.count 2 = 1 ∧
    ∃ a : AlgoExecution,
      emittedBy OrderBook.GetBestBidOffer wiredPipeline.algo oddLotBook = some a ∧
      a.order.side = PricingSide.OFFER ∧
      a.order.visibleQuantity = 400001 ∧ a.order.hiddenQuantity = 1600006 ∧
      ∃ t : Trade,
        bookedTrades (wiredPipeline.AddOrder OrderBook.GetBestBidOffer (fun _ => 7) 1 2
          oddLotBook).2 = [t] ∧
        t.quantity = 2000007 ∧ t.side = Side.BUY ∧ t.price = a.order.price ∧
        t.book = "TRSY1" := by
  have hbest : oddLotBook.GetBestBidOffer =
      ⟨⟨100 + 4 / 256, 1000003, PricingSide.BID⟩,
        ⟨100 + 1 / 32, 2000007, PricingSide.OFFER⟩⟩ := by rfl
  have h : (OrderBook.GetBestBidOffer oddLotBook).bidOrder.price
      - (OrderBook.GetBestBidOffer oddLotBook).offerOrder.price ≤ 1 / 128 := by
    rw [hbest]; norm_num
  have hem := emittedBy_emit OrderBook.GetBestBidOffer wiredPipeline.algo oddLotBook h
  obtain ⟨t, h1, _, h2, h3, h4, _⟩ :=
    C28_pipeline_books_top_quantity OrderBook.GetBestBidOffer (fun _ => 7) 1 2 wiredPipeline
      oddLotBook _ (by decide) (by decide) hem
  have hbook : (bookedTrades (wiredPipeline.AddOrder OrderBook.GetBestBidOffer (fun _ => 7)
      1 2 oddLotBook).2).map (fun x => x.book) = ["TRSY1"] := by
    rw [pipeline_emit _ _ _ _ _ _ h (by decide) (by decide), ProcessAdd_eq,
      bookedTrades_BookTrade]
    rfl
  rw [h1] at hbook
  refine ⟨by decide, by decide, _, hem, rfl, by rfl, by rfl, t, h1, ?_, ?_, h4, ?_⟩
  · rw [h2 (by decide) (by decide)]
    rfl
  · rw [h3]
    rfl
  · simpa using hbook

/-! ### Pricing stage -/

/-- The last element of a list with one more element in front. -/
theorem getLast_cons_cases {α : Type} (a : α) (l : List α) :
    (a :: l).getLast? =
      match l.getLast? with
      | some p => some p
      | none => some a := by
  cases l with
  | nil => rfl
  | cons x xs =>
    rw [List.getLast?_cons_cons]
    cases h : (x :: xs).getLast? with
    | some p => rfl
    | none =>
      rw [List.getLast?_eq_none_iff] at h
      simp at h

/-- The last price for a key in a sequence with one more price in front. -/
theorem lastPriceOf_cons (k : String) (d : Price) (rest : List Price) :
    lastPriceOf k (d :: rest) =
      match lastPriceOf k rest with
      | some p => some p
      | none => if d.product.productId = k then some d else none := by
  unfold lastPriceOf
  by_cases h : d.product.productId = k
  · rw [List.filter_cons_of_pos (by simpa using h), getLast_cons_cases, if_pos h]
    cases (List.filter (fun d => decide (d.product.productId = k)) rest).getLast? <;> rfl
  · rw [List.filter_cons_of_neg (by simpa using h), if_neg h]
    cases (List.filter (fun d => decide (d.product.productId = k)) rest).getLast? <;> rfl

/-- The last price for a key is a price of that key. -/
theorem lastPriceOf_key (k : String) (prices : List Price) (p : Price)
    (h : lastPriceOf k prices = some p) : p.product.productId = k := by
  unfold lastPriceOf at h
  have hmem := List.mem_of_getLast?_eq_some h
  simpa using (List.mem_filter.mp hmem).2

/-- A key that occurs in the sequence has a last price. -/
theorem lastPriceOf_isSome (k : String) (prices : List Price)
    (hk : k ∈ prices.map (fun d => d.product.productId)) :
    ∃ p, lastPriceOf k prices = some p := by
  obtain ⟨d, hd, hdk⟩ := List.mem_map.mp hk
  have hmem : d ∈ prices.filter (fun d => d.product.productId = k) :=
    List.mem_filter.mpr ⟨hd, by simpa using hdk⟩
  unfold lastPriceOf
  cases hl : (prices.filter (fun d => d.product.productId = k)).getLast? with
  | some p => exact ⟨p, rfl⟩
  | none =>
    rw [List.getLast?_eq_none_iff] at hl
    rw [hl] at hmem
    simp at hmem

/-- The cache and the callbacks after a sequence of `OnMessage` calls: the entry of a key is
the last price of that key, or the old entry when the key did not occur; the listeners are
unchanged; every call fanned its price out to all listeners in order. -/
theorem OnMessages_spec (prices : List Price) :
    ∀ s : BondPricingService,
      (∀ k : String, (s.OnMessages prices).1.priceMap.find k =
        match lastPriceOf k prices with
        | some p => some p
        | none => s.priceMap.find k) ∧
      (s.OnMessages prices).1.listeners = s.listeners ∧
      (s.OnMessages prices).2 =
        prices.flatMap (fun d => s.listeners.map (fun l => (l, d))) := by
  induction prices with
  | nil =>
    intro s
    exact ⟨fun k => rfl, rfl, rfl⟩
  | cons d rest ih =>
    intro s
    obtain ⟨i1, i2, i3⟩ := ih (s.OnMessage d).1
    refine ⟨?_, i2, ?_⟩
    · intro k
      rw [lastPriceOf_cons]
      simp only [BondPricingService.OnMessages]
      rw [i1 k]
      cases lastPriceOf k rest with
      | some p => rfl
      | none =>
        dsimp only
        by_cases h : d.product.productId = k
        · rw [if_pos h, ← h]
          exact SMap.find_upsert_self _ _ _
        · rw [if_neg h]
          exact SMap.find_upsert_of_ne _ _ _ _ (fun hk => h hk.symm)
    · simp only [BondPricingService.OnMessages, List.flatMap_cons]
      rw [i3]
      rfl

/-- Registering listeners appends them to the listeners of the pricing service and does not
touch the cache. -/
theorem pricing_AddListeners (ls : List Nat) (s : BondPricingService) :
    (s.AddListeners ls).listeners = s.listeners ++ ls ∧
    (s.AddListeners ls).priceMap = s.priceMap := by
  unfold BondPricingService.AddListeners
  induction ls generalizing s with
  | nil => simp
  | cons l rest ih =>
    rw [List.foldl_cons]
    obtain ⟨h1, h2⟩ := ih (s.AddListener l)
    rw [h1, h2]
    simp [BondPricingService.AddListener]

/-- C23: listeners `ls` are registered on a pricing service `s0` and a sequence of prices
is passed to `OnMessage`.  For every product id `k` occurring in the sequence, `GetData(k)`
afterwards returns the last price of the sequence whose product id is `k` (and leaves the
service as it is); each `OnMessage` call made one `ProcessAdd` callback with its price per
registration, in registration order, and the calls follow the order of the sequence. -/
theorem C23_pricing_latest_value_and_fanout (dflt : Price) (s0 : BondPricingService)
    (ls : List Nat) (prices : List Price) (k : String)
    (hk : k ∈ prices.map (fun d => d.product.productId)) :
    (∃ p : Price,
      lastPriceOf k prices = some p ∧ p.product.productId = k ∧
      BondPricingService.GetData dflt ((s0.AddListeners ls).OnMessages prices).1 k =
        (p, ((s0.AddListeners ls).OnMessages prices).1)) ∧
    (∀ (s : BondPricingService) (data : Price),
      (s.OnMessage data).2 = s.listeners.map (fun l => (l, data)) ∧
      (s.OnMessage data).1.listeners = s.listeners) ∧
    (s0.AddListeners ls).listeners = s0.listeners ++ ls ∧
    ((s0.AddListeners ls).OnMessages prices).2 =
      prices.flatMap (fun d => (s0.listeners ++ ls).map (fun l => (l, d))) := by
  obtain ⟨p, hp⟩ := lastPriceOf_isSome k prices hk
  obtain ⟨i1, _, i3⟩ := OnMessages_spec prices (s0.AddListeners ls)
  have hfind := i1 k
  rw [hp] at hfind
  refine ⟨⟨p, hp, lastPriceOf_key k prices p hp, ?_⟩, fun s data => ⟨rfl, rfl⟩,
    (pricing_AddListeners ls s0).1, ?_⟩
  · unfold BondPricingService.GetData
    rw [hfind]
  · rw [i3, (pricing_AddListeners ls s0).1]

/-- C23 on a fresh service with two listeners (handles 1 and 2, as the algo-streaming and
GUI listeners of `main.cpp`): after two prices of the sample bond with a price of another
bond in between, `GetData` returns the second price of the sample bond, and each of the
three calls reached listener 1 and then listener 2. -/
theorem C23_pricing_latest_value_and_fanout_witness :
    "912828M80" ∈ [samplePrice, samplePrice3, samplePrice2].map
      (fun d => d.product.productId) ∧
    (BondPricingService.GetData samplePrice3
      ((BondPricingService.fresh.AddListeners [1, 2]).OnMessages
        [samplePrice, samplePrice3, samplePrice2]).1 "912828M80").1 = samplePrice2 ∧
    ((BondPricingService.fresh.AddListeners [1, 2]).OnMessages
        [samplePrice, samplePrice3, samplePrice2]).2 =
      [(1, samplePrice), (2, samplePrice), (1, samplePrice3), (2, samplePrice3),
        (1, samplePrice2), (2, samplePrice2)] := by
  have hk : "912828M80" ∈ [samplePrice, samplePrice3, samplePrice2].map
      (fun d => d.product.productId) := by decide
  obtain ⟨⟨p, h1, _, h3⟩, _, _, h5⟩ :=
    C23_pricing_latest_value_and_fanout samplePrice3 BondPricingService.fresh [1, 2]
      [samplePrice, samplePrice3, samplePrice2] "912828M80" hk
  have hp : lastPriceOf "912828M80" [samplePrice, samplePrice3, samplePrice2]
      = some samplePrice2 := by rfl
  rw [hp] at h1
  have hpe : p = samplePrice2 := (Option.some.inj h1).symm
  subst hpe
  refine ⟨hk, ?_, ?_⟩
  · rw [h3]
  · rw [h5]
    rfl

/-! ### Inquiry connector: the state field -/

/-- C24: the state read from a field depends only on the upper-cased field, so two fields
that differ in letter case only give the same state; it is QUOTED, DONE, REJECTED or
CUSTOMER_REJECTED exactly when the upper-cased field is that name, and RECEIVED for every
other field, among them the empty one, unknown names and `RECEIVED` itself. -/
theorem C24_state_string_parsing (field : List Char) :
    (parseInquiryState field = InquiryState.QUOTED ↔ to_upper field = "QUOTED".toList) ∧
    (parseInquiryState field = InquiryState.DONE ↔ to_upper field = "DONE".toList) ∧
    (parseInquiryState field = InquiryState.REJECTED ↔
      to_upper field = "REJECTED".toList) ∧
    (parseInquiryState field = InquiryState.CUSTOMER_REJECTED ↔
      to_upper field = "CUSTOMER_REJECTED".toList) ∧
    (parseInquiryState field = InquiryState.RECEIVED ↔
      to_upper field ∉ ["QUOTED".toList, "DONE".toList, "REJECTED".toList,
        "CUSTOMER_REJECTED".toList]) ∧
    parseInquiryState field = (stateNamed (to_upper field)).getD InquiryState.RECEIVED ∧
    (∀ other : List Char, to_upper other = to_upper field →
      parseInquiryState other = parseInquiryState field) ∧
    parseInquiryState "".toList = InquiryState.RECEIVED ∧
    parseInquiryState "pending".toList = InquiryState.RECEIVED ∧
    parseInquiryState "quoted".toList = InquiryState.QUOTED ∧
    parseInquiryState "Customer_Rejected".toList = InquiryState.CUSTOMER_REJECTED := by
  have key : ∀ u : List Char,
      ((if u = "QUOTED".toList then InquiryState.QUOTED
        else if u = "DONE".toList then InquiryState.DONE
        else if u = "REJECTED".toList then InquiryState.REJECTED
        else if u = "CUSTOMER_REJECTED".toList then InquiryState.CUSTOMER_REJECTED
        else InquiryState.RECEIVED) = InquiryState.QUOTED ↔ u = "QUOTED".toList) ∧
      ((if u = "QUOTED".toList then InquiryState.QUOTED
        else if u = "DONE".toList then InquiryState.DONE
        else if u = "REJECTED".toList then InquiryState.REJECTED
        else if u = "CUSTOMER_REJECTED".toList then InquiryState.CUSTOMER_REJECTED
        else InquiryState.RECEIVED) = InquiryState.DONE ↔ u = "DONE".toList) ∧
      ((if u = "QUOTED".toList then InquiryState.QUOTED
        else if u = "DONE".toList then InquiryState.DONE
        else if u = "REJECTED".toList then InquiryState.REJECTED
        else if u = "CUSTOMER_REJECTED".toList then InquiryState.CUSTOMER_REJECTED
        else InquiryState.RECEIVED) = InquiryState.REJECTED ↔ u = "REJECTED".toList) ∧
      ((if u = "QUOTED".toList then InquiryState.QUOTED
        else if u = "DONE".toList then InquiryState.DONE
        else if u = "REJECTED".toList then InquiryState.REJECTED
        else if u = "CUSTOMER_REJECTED".toList then InquiryState.CUSTOMER_REJECTED
        else InquiryState.RECEIVED) = InquiryState.CUSTOMER_REJECTED ↔
          u = "CUSTOMER_REJECTED".toList) ∧
      ((if u = "QUOTED".toList then InquiryState.QUOTED
        else if u = "DONE".toList then InquiryState.DONE
        else if u = "REJECTED".toList then InquiryState.REJECTED
        else if u = "CUSTOMER_REJECTED".toList then InquiryState.CUSTOMER_REJECTED
        else InquiryState.RECEIVED) = InquiryState.RECEIVED ↔
          u ∉ ["QUOTED".toList, "DONE".toList, "REJECTED".toList,
            "CUSTOMER_REJECTED".toList]) := by
    intro u
    by_cases h1 : u = "QUOTED".toList
    · subst h1
      decide
    · by_cases h2 : u = "DONE".toList
      · subst h2
        decide
      · by_cases h3 : u = "REJECTED".toList
        · subst h3
          decide
        · by_cases h4 : u = "CUSTOMER_REJECTED".toList
          · subst h4
            decide
          · simp only [if_neg h1, if_neg h2, if_neg h3, if_neg h4, List.mem_cons,
              List.mem_singleton, List.not_mem_nil, or_false, h1, h2, h3, h4]
            simp
  obtain ⟨k1, k2, k3, k4, k5⟩ := key (to_upper field)
  refine ⟨k1, k2, k3, k4, k5, ?_, ?_, by decide, by decide, by decide, by decide⟩
  · unfold parseInquiryState stateNamed
    dsimp only
    split
    · rfl
    · split
      · rfl
      · split
        · rfl
        · split <;> rfl
  · intro other h
    unfold parseInquiryState
    dsimp only
    rw [h]

/-! ### Inquiry history connector -/

/-- The encoding of the price 99.5. -/
theorem PricetoString_sample : PricetoString (995 / 10) = some "99-160".toList := by
  have h := PricetoString_representable 99 16 0 (by decide) (by decide) (by decide)
  have hq : ((99 : Nat) : ℚ) + ((16 : Nat) : ℚ) / 32 + ((0 : Nat) : ℚ) / 256 = 995 / 10 := by
    norm_num
  rw [hq] at h
  rw [h]
  decide

/-- C25 (the code departs from the claim): the fifth column of the header is `Side`, but
the fifth column of a written row is the bond's ticker.  For the inquiry of scenario 6,
whose side is BUY, the row reads `…,I1,CUSIP,912828M80,T,1000000,99-160,RECEIVED`; with
side SELL the row is the same; in general the row does not depend on the side of the
inquiry. -/
theorem C25_history_row_side_column_is_ticker :
    (boostSplit ',' inquiryHistoryHeader).get? 4 = some "Side".toList ∧
    sampleInquiry.side = Side.BUY ∧
    BondInquiryHistoricalDataConnector.Publish "11/01/2026".toList "10:15:30.123456".toList
        sampleInquiry =
      some "11/01/2026 10:15:30.123,I1,CUSIP,912828M80,T,1000000,99-160,RECEIVED\n".toList ∧
    ((BondInquiryHistoricalDataConnector.Publish "11/01/2026".toList "10:15:30.123456".toList
        sampleInquiry).map (fun row => (boostSplit ',' row).get? 4)) =
      some (some "T".toList) ∧
    sampleSellInquiry.side = Side.SELL ∧
    BondInquiryHistoricalDataConnector.Publish "11/01/2026".toList "10:15:30.123456".toList
        sampleSellInquiry =
      BondInquiryHistoricalDataConnector.Publish "11/01/2026".toList "10:15:30.123456".toList
        sampleInquiry ∧
    (∀ (date timeofDay : List Char) (data : Inquiry) (side : Side),
      BondInquiryHistoricalDataConnector.Publish date timeofDay
          ⟨data.inquiryId, data.product, side, data.quantity, data.price, data.state⟩ =
        BondInquiryHistoricalDataConnector.Publish date timeofDay data) := by
  have hrow : BondInquiryHistoricalDataConnector.Publish "11/01/2026".toList
      "10:15:30.123456".toList sampleInquiry =
      some "11/01/2026 10:15:30.123,I1,CUSIP,912828M80,T,1000000,99-160,RECEIVED\n".toList := by
    unfold BondInquiryHistoricalDataConnector.Publish
    have hp : PricetoString sampleInquiry.price = some "99-160".toList := PricetoString_sample
    simp only [hp]
    decide
  refine ⟨by decide, rfl, hrow, ?_, rfl, rfl, fun _ _ _ _ => rfl⟩
  rw [hrow]
  decide

end TradingSystem
